import Mathlib

/-!
# A shallow embedding of the spreadsheet core (sheet.cpp, cell.cpp, formula.cpp)

The sheet is a ragged vector of rows of owning cell pointers.  A cell pointer is
modelled by the address of the cell it owns (a natural number handed out by an
allocation counter); a null pointer is `none`.  Cells never move between slots,
so every method of `Cell` is modelled as a function of the sheet and of the
position of the slot holding the cell.

The formula engine (FormulaAST.h), `Position::operator<` and `std::stod` are not
part of the sources; they enter as the fields of `Engine`.  The other
declarations of common.h (positions and their validity, sizes, error kinds, the
two sign characters) are modelled from the specification.

Recursion through the sheet (the cycle search, the evaluation of formulas) is
bounded by a budget `fuel`; the outcome `oof` stands for a call that did not end
within the budget.  `SetCell_more_fuel` shows that the outcome of a call that
ended does not depend on the budget, and `CheckCircle_ends` that the cycle
search ends within a budget of the number of stored cells plus two.
-/

namespace Spreadsheet

/-! ## common.h -/

/-- Modelled from the spec: `Position` of common.h, a (row, column) address. -/
structure Position where
  row : Int
  col : Int
deriving DecidableEq

/-- Modelled from the spec: the reference choice 16384 for the row bound. -/
def MAX_ROWS : Int := 16384

/-- Modelled from the spec: the reference choice 16384 for the column bound. -/
def MAX_COLS : Int := 16384

/-- Modelled from the spec: a position is valid iff
`0 ≤ row < MAX_ROWS` and `0 ≤ col < MAX_COLS`. -/
def Position.IsValid (p : Position) : Bool :=
  decide (0 ≤ p.row) && decide (0 ≤ p.col) && decide (p.row < MAX_ROWS) && decide (p.col < MAX_COLS)

/-- Modelled from the spec: `Size` of common.h, the printable extent. -/
structure Size where
  rows : Int
  cols : Int
deriving DecidableEq

/-- Modelled from the spec: the enumerated kind of a `FormulaError`. -/
inductive FormulaError where
  | Ref
  | Value
  | Div0
deriving DecidableEq

/-- The exceptions that leave the public sheet interface. -/
inductive Err where
  | InvalidPosition
  | FormulaException
  | CircularDependency
deriving DecidableEq

/-- The variant `CellInterface::Value`. -/
inductive Value (Num : Type) where
  | text (s : String)
  | number (x : Num)
  | error (e : FormulaError)
deriving DecidableEq

/-- The variant `FormulaInterface::Value`. -/
inductive FValue (Num : Type) where
  | number (x : Num)
  | error (e : FormulaError)
deriving DecidableEq

/-- The behaviour of `FormulaAST::Execute` against its lookup callback: it either
finishes with a number or a formula error, or calls the callback on a position
and continues with what the callback returned. -/
inductive Prog (Num : Type) where
  | done (v : FValue Num)
  | ask (p : Position) (k : FValue Num → Prog Num)

/-- What formula.cpp uses of a parsed `FormulaAST`: `GetCells()`, the text
written by `PrintFormula` and the behaviour of `Execute`. -/
structure FormulaAST (Num : Type) where
  cells : List Position
  expr : String
  exec : Prog Num

/-- The collaborators that are not in the sources: the number type `double` with
its literal `0.0`, `std::stod` (`none` when it throws), `ParseFormulaAST`
(`none` when it throws) and `Position::operator<`. -/
structure Engine where
  Num : Type
  zero : Num
  stod : String → Option Num
  ParseFormulaAST : String → Option (FormulaAST Num)
  posLt : Position → Position → Bool

/-- Modelled from the spec: the formula sigil. -/
def FORMULA_SIGN : Char := '='

/-- Modelled from the spec: the escape sigil, the apostrophe. -/
def ESCAPE_SIGN : Char := Char.ofNat 39

/-! ## cell.h -/

/-- The three implementations behind `Cell::impl_`. -/
inductive Impl (E : Engine) where
  | EmptyImpl
  | TextImpl (text_ : String)
  | FormulaImpl (formula_ : FormulaAST E.Num)

/-- The object `Cell`: its address, `impl_`, `cache_` and `influencing_cells_`
(a set of cell addresses). -/
structure Cell (E : Engine) where
  addr : Nat
  impl_ : Impl E
  cache_ : Option (Value E.Num)
  influencing_cells_ : List Nat

/-- The object `Sheet`: the storage `sheet_` and the allocation counter that
hands out the addresses of new cells. -/
structure Sheet (E : Engine) where
  sheet_ : List (List (Option (Cell E)))
  next : Nat

/-- Outcome of a call that may change the sheet: normal return, an exception
leaving the call (with the sheet as it is at that moment), or no return within
the recursion budget. -/
inductive Res (σ α : Type) where
  | ret (a : α) (s : σ)
  | throw (e : Err) (s : σ)
  | oof

variable {E : Engine}

/-- The sheet built by `CreateSheet`. -/
def emptySheet : Sheet E := ⟨[], 0⟩

/-- The object built by the constructor `Cell::Cell`. -/
def newCell (a : Nat) : Cell E := ⟨a, Impl.EmptyImpl, none, []⟩

/-! ## formula.cpp -/

/-- The loop of `Formula::GetReferencedCells`: append a cell unless it equals the
last one appended. -/
def dedupLoop : List Position → List Position → List Position
  | [], result => result
  | cell :: rest, result =>
    if result.isEmpty then dedupLoop rest (result ++ [cell])
    else if result.getLast? ≠ some cell then dedupLoop rest (result ++ [cell])
    else dedupLoop rest result

/-- The method `Formula::GetReferencedCells`. -/
def FormulaAST.GetReferencedCells {Num : Type} (f : FormulaAST Num) : List Position :=
  dedupLoop f.cells []

/-- The method `Formula::GetExpression`. -/
def FormulaAST.GetExpression {Num : Type} (f : FormulaAST Num) : String := f.expr

/-- The helper `Formula::StringToDouble`. -/
def StringToDouble (E : Engine) (text : String) : FValue E.Num :=
  if text.data.isEmpty then FValue.number E.zero
  else match E.stod text with
    | some number => FValue.number number
    | none => FValue.error FormulaError.Value

/-! ## cell.cpp: the reading methods -/

/-- The methods `GetText` of the three implementations. -/
def Impl.GetText : Impl E → String
  | Impl.EmptyImpl => ""
  | Impl.TextImpl text_ => text_
  | Impl.FormulaImpl formula_ => String.mk (FORMULA_SIGN :: formula_.GetExpression.data)

/-- The methods `GetReferencedCells` of the three implementations. -/
def Impl.GetReferencedCells : Impl E → List Position
  | Impl.EmptyImpl => []
  | Impl.TextImpl _ => []
  | Impl.FormulaImpl formula_ => formula_.GetReferencedCells

/-- The method `Cell::GetText`. -/
def Cell.GetText (c : Cell E) : String := c.impl_.GetText

/-- The method `Cell::GetReferencedCells`. -/
def Cell.GetReferencedCells (c : Cell E) : List Position := c.impl_.GetReferencedCells

/-- The method `TextImpl::GetValue`: drop a leading escape sign (a one-byte
character, so dropping the first byte is dropping the first character). -/
def TextImplGetValue (text_ : String) : String :=
  match text_.data with
  | [] => text_
  | ch :: rest => if ch = ESCAPE_SIGN then String.mk rest else text_

/-! ## sheet.cpp: storage -/

/-- The slot `sheet_[r][c]` when it is inside the storage, null otherwise. -/
def slotAt (g : List (List (Option (Cell E)))) (r c : Nat) : Option (Cell E) :=
  match g[r]? with
  | none => none
  | some row =>
    match row[c]? with
    | none => none
    | some p => p

/-- The size `sheet_[r].size()` of a stored row (0 outside the storage). -/
def rowLen (g : List (List (Option (Cell E)))) (r : Nat) : Nat := ((g[r]?).getD []).length

/-- Assign the pointer `p` to the slot `sheet_[r][c]`. -/
def setSlot (g : List (List (Option (Cell E)))) (r c : Nat) (p : Option (Cell E)) :
    List (List (Option (Cell E))) :=
  g.modify (fun row => row.set c p) r

/-- The method `Sheet::IsActualPosition`. -/
def IsActualPosition (s : Sheet E) (pos : Position) : Bool :=
  if pos.IsValid then
    if decide (0 ≤ pos.row) && decide (pos.row < (s.sheet_.length : Int)) then
      if decide (0 ≤ pos.col) &&
          decide (pos.col < (rowLen s.sheet_ pos.row.toNat : Int)) then true
      else false
    else false
  else false

/-- The method `Sheet::GetCell`: the pointer stored at `pos`, null outside the
storage, `InvalidPosition` for an invalid position. -/
def GetCell (s : Sheet E) (pos : Position) : Except Err (Option (Cell E)) :=
  if pos.IsValid then
    if IsActualPosition s pos then Except.ok (slotAt s.sheet_ pos.row.toNat pos.col.toNat)
    else Except.ok none
  else Except.error Err.InvalidPosition

/-- The cell a valid position holds, for use where validity is already known. -/
def cellAt (s : Sheet E) (pos : Position) : Option (Cell E) :=
  match GetCell s pos with
  | Except.ok p => p
  | Except.error _ => none

/-- Apply `f` to the cell stored in slot `(r, c)`, if there is one. -/
def modifyGrid (g : List (List (Option (Cell E)))) (r c : Nat) (f : Cell E → Cell E) :
    List (List (Option (Cell E))) :=
  g.modify (fun row => row.modify (fun p => p.map f) c) r

/-- Apply `f` to the cell stored at `pos`, if there is one. -/
def modifyCell (s : Sheet E) (pos : Position) (f : Cell E → Cell E) : Sheet E :=
  ⟨modifyGrid s.sheet_ pos.row.toNat pos.col.toNat f, s.next⟩

/-- The effect of `std::vector::resize` with value-initialised new elements. -/
def resize {α : Type} (xs : List α) (n : Nat) (d : α) : List α :=
  xs.take n ++ List.replicate (n - xs.length) d

/-- The inner loop of `IncreaseSheetSize`: `count` pushes of a new cell; the cells
get the addresses `a`, `a + 1`, ... -/
def pushCells (row : List (Option (Cell E))) : Nat → Nat → List (Option (Cell E))
  | 0, _ => row
  | count + 1, a => pushCells (row ++ [some (newCell a)]) count (a + 1)

/-- The outer loop of `IncreaseSheetSize`: push `count` rows, each made of
`cols` null pointers followed by `cols + 1` new cells. -/
def pushRows (g : List (List (Option (Cell E)))) (cols : Nat) :
    Nat → Nat → List (List (Option (Cell E))) × Nat
  | 0, a => (g, a)
  | count + 1, a =>
    pushRows (g ++ [pushCells (List.replicate cols none) (cols + 1) a]) cols count (a + (cols + 1))

/-- The last loop of `IncreaseSheetSize`: push one new cell to every row. -/
def pushBackAll : List (List (Option (Cell E))) → Nat → List (List (Option (Cell E)))
  | [], _ => []
  | row :: rest, a => (row ++ [some (newCell a)]) :: pushBackAll rest (a + 1)

/-- The first statement of `IncreaseSheetSize`: when the row of `pos` is not
stored, `sheet_` is resized to `pos.row + 1` rows and then as many rows again
are pushed as were missing. -/
def growRows (s : Sheet E) (pos : Position) : Sheet E :=
  if (s.sheet_.length : Int) < pos.row + 1 then
    ⟨(pushRows (resize s.sheet_ (pos.row + 1).toNat [])
        (rowLen (resize s.sheet_ (pos.row + 1).toNat []) pos.row.toNat)
        (pos.row + 1 - (s.sheet_.length : Int)).toNat s.next).1,
     (pushRows (resize s.sheet_ (pos.row + 1).toNat [])
        (rowLen (resize s.sheet_ (pos.row + 1).toNat []) pos.row.toNat)
        (pos.row + 1 - (s.sheet_.length : Int)).toNat s.next).2⟩
  else s

/-- The second statement of `IncreaseSheetSize`: when the row of `pos` is too
short, it is resized to `pos.col + 1` slots and then one new cell is pushed to
every row. -/
def growCols (s : Sheet E) (pos : Position) : Sheet E :=
  if (rowLen s.sheet_ pos.row.toNat : Int) < pos.col + 1 then
    ⟨pushBackAll (s.sheet_.modify (fun row => resize row (pos.col + 1).toNat none) pos.row.toNat)
        s.next,
     s.next + (s.sheet_.modify (fun row => resize row (pos.col + 1).toNat none) pos.row.toNat).length⟩
  else s

/-- The method `Sheet::IncreaseSheetSize`. -/
def IncreaseSheetSize (s : Sheet E) (pos : Position) : Sheet E :=
  growCols (growRows s pos) pos

/-- The method `Sheet::ClearCell`: the pointer in the slot is reset. -/
def ClearCell (s : Sheet E) (pos : Position) : Res (Sheet E) Unit :=
  if pos.IsValid then
    if IsActualPosition s pos then
      Res.ret () ⟨setSlot s.sheet_ pos.row.toNat pos.col.toNat none, s.next⟩
    else Res.ret () s
  else Res.throw Err.InvalidPosition s

/-- The test of `GetPrintableSize`: the slot holds a cell with non-empty text. -/
def hasText (s : Sheet E) (r c : Nat) : Bool :=
  match slotAt s.sheet_ r c with
  | none => false
  | some cell => !cell.GetText.data.isEmpty

/-- The inner loop of `GetPrintableSize`, for `col` from `n - 1` down to `0`. -/
def scanCols (s : Sheet E) (r : Nat) : Nat → Size → Size
  | 0, print_size => print_size
  | col + 1, print_size =>
    scanCols s r col
      (if hasText s r col then ⟨max print_size.rows (r + 1), max print_size.cols (col + 1)⟩
       else print_size)

/-- The outer loop of `GetPrintableSize`, for `row` from `n - 1` down to `0`. -/
def scanRows (s : Sheet E) : Nat → Size → Size
  | 0, print_size => print_size
  | row + 1, print_size =>
    scanRows s row (scanCols s row (rowLen s.sheet_ row) print_size)

/-- The method `Sheet::GetPrintableSize`. -/
def GetPrintableSize (s : Sheet E) : Size :=
  scanRows s s.sheet_.length ⟨0, 0⟩

/-! ## formula.cpp: evaluation -/

/-- What a call of the lookup lambda of `Formula::Evaluate` hands back to
`Execute`: a returned value, or a thrown `FormulaError`. -/
inductive LookupRet (Num : Type) where
  | value (v : FValue Num)
  | thrown (e : FormulaError)

/-- Assign `cache_` of the cell at `pos`. -/
def setCache (s : Sheet E) (pos : Position) (v : Option (Value E.Num)) : Sheet E :=
  modifyCell s pos (fun c => ⟨c.addr, c.impl_, v, c.influencing_cells_⟩)

/-- Assign `impl_` of the cell at `pos`. -/
def setImpl (s : Sheet E) (pos : Position) (i : Impl E) : Sheet E :=
  modifyCell s pos (fun c => ⟨c.addr, i, c.cache_, c.influencing_cells_⟩)

/-- The conversion of a `FormulaInterface::Value` done by `FormulaImpl::GetValue`. -/
def FValue.toValue {Num : Type} : FValue Num → Value Num
  | FValue.number x => Value.number x
  | FValue.error e => Value.error e

/-- The method `Cell::GetValue` of the cell `c` stored at `pos`, given the
evaluation `ev` of formulas: the cache if present, otherwise the value of the
implementation, which is stored in the cache. -/
def CellGetValueWith (ev : FormulaAST E.Num → Sheet E → Res (Sheet E) (FValue E.Num))
    (pos : Position) (c : Cell E) (s : Sheet E) : Res (Sheet E) (Value E.Num) :=
  match c.cache_ with
  | some v => Res.ret v s
  | none =>
    match c.impl_ with
    | Impl.EmptyImpl => Res.ret (Value.text "") (setCache s pos (some (Value.text "")))
    | Impl.TextImpl text_ =>
      Res.ret (Value.text (TextImplGetValue text_))
        (setCache s pos (some (Value.text (TextImplGetValue text_))))
    | Impl.FormulaImpl formula_ =>
      match ev formula_ s with
      | Res.ret v s1 => Res.ret v.toValue (setCache s1 pos (some v.toValue))
      | Res.throw e s1 => Res.throw e s1
      | Res.oof => Res.oof

/-- The lookup lambda of `Formula::Evaluate`, given the method `GetValue` of
cells. -/
def lookupCell (gv : Position → Cell E → Sheet E → Res (Sheet E) (Value E.Num))
    (pos : Position) (s : Sheet E) : Res (Sheet E) (LookupRet E.Num) :=
  if E.posLt pos ⟨(GetPrintableSize s).rows, (GetPrintableSize s).cols⟩ then
    match GetCell s pos with
    | Except.error e => Res.throw e s
    | Except.ok none => Res.ret (LookupRet.value (FValue.number E.zero)) s
    | Except.ok (some cell_ptr) =>
      match gv pos cell_ptr s with
      | Res.ret (Value.text t) s1 => Res.ret (LookupRet.value (StringToDouble E t)) s1
      | Res.ret (Value.number x) s1 => Res.ret (LookupRet.value (FValue.number x)) s1
      | Res.ret (Value.error e) s1 => Res.ret (LookupRet.value (FValue.error e)) s1
      | Res.throw e s1 => Res.throw e s1
      | Res.oof => Res.oof
  else if pos.IsValid then Res.ret (LookupRet.value (FValue.number E.zero)) s
  else Res.ret (LookupRet.thrown FormulaError.Ref) s

/-- Run `Execute` against a lookup; a `FormulaError` thrown by the lookup is
caught by `Formula::Evaluate` and becomes the result. -/
def runProg (look : Position → Sheet E → Res (Sheet E) (LookupRet E.Num)) :
    Prog E.Num → Sheet E → Res (Sheet E) (FValue E.Num)
  | Prog.done v, s => Res.ret v s
  | Prog.ask p k, s =>
    match look p s with
    | Res.ret (LookupRet.value v) s1 => runProg look (k v) s1
    | Res.ret (LookupRet.thrown e) s1 => Res.ret (FValue.error e) s1
    | Res.throw e s1 => Res.throw e s1
    | Res.oof => Res.oof

/-- The method `Formula::Evaluate`; `fuel` bounds the nesting of formula
evaluations through `Cell::GetValue`. -/
def Evaluate : Nat → FormulaAST E.Num → Sheet E → Res (Sheet E) (FValue E.Num)
  | 0, _, _ => Res.oof
  | fuel + 1, f, s => runProg (lookupCell (CellGetValueWith (Evaluate fuel))) f.exec s

/-- The method `Cell::GetValue` of the cell `c` stored at `pos`. -/
def CellGetValue (fuel : Nat) (pos : Position) (c : Cell E) (s : Sheet E) :
    Res (Sheet E) (Value E.Num) :=
  CellGetValueWith (Evaluate fuel) pos c s

/-- The call `GetCell(pos)->GetValue()` on a position that holds a cell. -/
def GetValue (fuel : Nat) (s : Sheet E) (pos : Position) : Option (Res (Sheet E) (Value E.Num)) :=
  (cellAt s pos).map (fun c => CellGetValue fuel pos c s)

/-- The call `GetCell(pos)->GetText()` on a position that holds a cell. -/
def GetText (s : Sheet E) (pos : Position) : Option String :=
  (cellAt s pos).map Cell.GetText

/-! ## cell.cpp: cycle detection -/

/-- Outcome of the cycle search: returned true, returned false (with the visited
set), threw, or no return within the recursion budget. -/
inductive Dfs where
  | yes
  | no (visited_cells : List (Option Nat))
  | throw (e : Err)
  | oof

/-- The address held by a cell pointer. -/
def ptrOf (p : Option (Cell E)) : Option Nat := p.map Cell.addr

/-- The loop over the referenced cells inside `HasCircleDependency`, given the
recursive call `rec`. -/
def circleLoop (s : Sheet E) (rec : Position → List (Option Nat) → Dfs) :
    List Position → List (Option Nat) → Dfs
  | [], visited_cells => Dfs.no visited_cells
  | cell_pos :: rest, visited_cells =>
    match GetCell s cell_pos with
    | Except.error e => Dfs.throw e
    | Except.ok cell_pos_ptr =>
      if ptrOf cell_pos_ptr ∈ visited_cells then
        circleLoop s rec rest (List.insert (ptrOf cell_pos_ptr) visited_cells)
      else
        match rec cell_pos visited_cells with
        | Dfs.no visited1 => circleLoop s rec rest (List.insert (ptrOf cell_pos_ptr) visited1)
        | Dfs.yes => Dfs.yes
        | Dfs.throw e => Dfs.throw e
        | Dfs.oof => Dfs.oof

/-- The method `Cell::HasCircleDependency` of the cell with address `self`. -/
def HasCircleDependency (s : Sheet E) (self : Nat) :
    Nat → Position → List (Option Nat) → Dfs
  | 0, _, _ => Dfs.oof
  | fuel + 1, current_cell, visited_cells =>
    match GetCell s current_cell with
    | Except.error e => Dfs.throw e
    | Except.ok none => Dfs.no visited_cells
    | Except.ok (some cur_cell_ptr) =>
      if cur_cell_ptr.addr = self then Dfs.yes
      else
        circleLoop s (HasCircleDependency s self fuel) cur_cell_ptr.GetReferencedCells
          (List.insert (some cur_cell_ptr.addr) visited_cells)

/-- The loop of `Cell::CheckCircle` over the referenced cells of the candidate. -/
def checkLoop (s : Sheet E) (self : Nat) (fuel : Nat) :
    List Position → List (Option Nat) → Dfs
  | [], visited_cells => Dfs.no visited_cells
  | cell_pos :: rest, visited_cells =>
    match HasCircleDependency s self fuel cell_pos visited_cells with
    | Dfs.no visited1 => checkLoop s self fuel rest visited1
    | Dfs.yes => Dfs.yes
    | Dfs.throw e => Dfs.throw e
    | Dfs.oof => Dfs.oof

/-- The method `Cell::CheckCircle` of the cell with address `self` on the
candidate formula. -/
def CheckCircle (s : Sheet E) (self : Nat) (fuel : Nat) (cell_ptr : FormulaAST E.Num) : Dfs :=
  checkLoop s self fuel cell_ptr.GetReferencedCells []

/-! ## cell.cpp: reverse edges and `Set` -/

/-- The insertion into an `unordered_set` of addresses. -/
def setInsert (a : Nat) (l : List Nat) : List Nat := List.insert a l

/-- The removal from an `unordered_set` of addresses. -/
def setErase (a : Nat) (l : List Nat) : List Nat := l.filter (fun b => decide (b ≠ a))

/-- The method `Cell::AddInverseDependencies` of the cell with address `self`,
over the referenced cells `refs` of its implementation. -/
def AddInverseDependencies (self : Nat) : List Position → Sheet E → Res (Sheet E) Unit
  | [], s => Res.ret () s
  | cell :: rest, s =>
    match GetCell s cell with
    | Except.error e => Res.throw e s
    | Except.ok none => AddInverseDependencies self rest s
    | Except.ok (some _) =>
      AddInverseDependencies self rest
        (modifyCell s cell
          (fun c => ⟨c.addr, c.impl_, c.cache_, setInsert self c.influencing_cells_⟩))

/-- The method `Cell::DeleteInverseDependenciesAndCache` of the cell with address
`self`, over the referenced cells `refs` of its implementation. -/
def DeleteInverseDependenciesAndCache (self : Nat) : List Position → Sheet E → Res (Sheet E) Unit
  | [], s => Res.ret () s
  | cell :: rest, s =>
    match GetCell s cell with
    | Except.error e => Res.throw e s
    | Except.ok none => DeleteInverseDependenciesAndCache self rest s
    | Except.ok (some _) =>
      DeleteInverseDependenciesAndCache self rest
        (modifyCell s cell
          (fun c => ⟨c.addr, c.impl_, none, setErase self c.influencing_cells_⟩))

/-- The test `text.size() > 1 && text[0] == FORMULA_SIGN` of `Cell::Set`.  The
source counts bytes and the model characters; the sign is a one-byte character,
so a text that starts with it has more than one byte iff it has more than one
character. -/
def isFormulaText (text : String) : Bool :=
  decide (1 < text.data.length) && decide (text.data.head? = some FORMULA_SIGN)

/-- The call `text.substr(1)`. -/
def substr1 (text : String) : String := String.mk text.data.tail

/-- The method `Cell::Set` of the cell `self` stored at `pos`. -/
def CellSet (fuel : Nat) (s : Sheet E) (pos : Position) (self : Cell E) (text : String) :
    Res (Sheet E) Unit :=
  if isFormulaText text then
    match E.ParseFormulaAST (substr1 text) with
    | none => Res.throw Err.FormulaException s
    | some temp =>
      match CheckCircle s self.addr fuel temp with
      | Dfs.throw e => Res.throw e s
      | Dfs.oof => Res.oof
      | Dfs.yes => Res.throw Err.CircularDependency s
      | Dfs.no _ =>
        match DeleteInverseDependenciesAndCache self.addr self.GetReferencedCells s with
        | Res.throw e s1 => Res.throw e s1
        | Res.oof => Res.oof
        | Res.ret _ s1 =>
          match Evaluate fuel temp (setImpl s1 pos (Impl.FormulaImpl temp)) with
          | Res.throw e s2 => Res.throw e s2
          | Res.oof => Res.oof
          | Res.ret v s2 =>
            AddInverseDependencies self.addr temp.GetReferencedCells
              (setCache s2 pos (some v.toValue))
  else if !text.data.isEmpty then
    Res.ret ()
      (setCache (setImpl s pos (Impl.TextImpl text)) pos (some (Value.text (TextImplGetValue text))))
  else Res.ret () (setImpl s pos Impl.EmptyImpl)

/-- The method `Cell::Clear`. -/
def CellClear (s : Sheet E) (pos : Position) : Sheet E := setImpl s pos Impl.EmptyImpl

/-! ## sheet.cpp: `SetCell` -/

/-- The lines of `Sheet::SetCell` before the call of `Cell::Set`: the storage is
grown and an empty slot at `pos` receives a new cell. -/
def prepare (s : Sheet E) (pos : Position) : Sheet E :=
  match slotAt (IncreaseSheetSize s pos).sheet_ pos.row.toNat pos.col.toNat with
  | some _ => IncreaseSheetSize s pos
  | none =>
    ⟨setSlot (IncreaseSheetSize s pos).sheet_ pos.row.toNat pos.col.toNat
        (some (newCell (IncreaseSheetSize s pos).next)),
      (IncreaseSheetSize s pos).next + 1⟩

/-- The method `Sheet::SetCell`. -/
def SetCell (fuel : Nat) (s : Sheet E) (pos : Position) (text : String) : Res (Sheet E) Unit :=
  if pos.IsValid then
    match slotAt (IncreaseSheetSize s pos).sheet_ pos.row.toNat pos.col.toNat with
    | some new_cell => CellSet fuel (prepare s pos) pos new_cell text
    | none => CellSet fuel (prepare s pos) pos (newCell (IncreaseSheetSize s pos).next) text
  else Res.throw Err.InvalidPosition s

/-! ## A small instance of the engine

The instance covers sums of natural-number literals and cell references written
without blanks; numbers are the integers, which `double` represents exactly in
the range used below. -/

/-- Sums of literals and cell references. -/
inductive DemoExpr where
  | num (n : Int)
  | ref (p : Position)
  | add (a b : DemoExpr)

/-- The decimal value of a string of digits. -/
def digitsValue (cs : List Char) : Nat :=
  cs.foldl (fun acc ch => acc * 10 + (ch.toNat - 48)) 0

/-- The column index of a string of capital letters, bijective base 26 from
`A = 0`. -/
def lettersValue (cs : List Char) : Int :=
  (cs.foldl (fun acc ch => acc * 26 + (ch.toNat - 64)) 0 : Nat) - 1

/-- Capital letter. -/
def isCapital (ch : Char) : Bool := decide (65 ≤ ch.toNat) && decide (ch.toNat ≤ 90)

/-- Decimal digit. -/
def isDecimal (ch : Char) : Bool := decide (48 ≤ ch.toNat) && decide (ch.toNat ≤ 57)

/-- A string of digits without a superfluous leading zero. -/
def isNumeral (cs : List Char) : Bool :=
  !cs.isEmpty && cs.all isDecimal && (decide (cs.length = 1) || cs.head? != some '0')

/-- Read a literal or a cell reference such as `A1`. -/
def demoAtom (cs : List Char) : Option DemoExpr :=
  if isNumeral (cs.dropWhile isCapital) then
    if (cs.takeWhile isCapital).isEmpty then some (DemoExpr.num (digitsValue cs))
    else if Position.IsValid
        ⟨(digitsValue (cs.dropWhile isCapital) : Int) - 1, lettersValue (cs.takeWhile isCapital)⟩ then
      some (DemoExpr.ref
        ⟨(digitsValue (cs.dropWhile isCapital) : Int) - 1, lettersValue (cs.takeWhile isCapital)⟩)
    else none
  else none

/-- Split a string at the plus signs. -/
def splitPlus : List Char → List Char → List (List Char)
  | [], cur => [cur]
  | ch :: rest, cur => if ch = '+' then cur :: splitPlus rest [] else splitPlus rest (cur ++ [ch])

/-- Read the atoms of a sum and associate them to the left. -/
def demoSum : List (List Char) → DemoExpr → Option DemoExpr
  | [], acc => some acc
  | a :: rest, acc =>
    match demoAtom a with
    | none => none
    | some e => demoSum rest (DemoExpr.add acc e)

/-- Read a sum of atoms. -/
def demoRead (text : String) : Option DemoExpr :=
  match splitPlus text.data [] with
  | [] => none
  | a :: rest =>
    match demoAtom a with
    | none => none
    | some e => demoSum rest e

/-- The referenced positions in order of appearance. -/
def DemoExpr.refs : DemoExpr → List Position
  | DemoExpr.num _ => []
  | DemoExpr.ref p => [p]
  | DemoExpr.add a b => a.refs ++ b.refs

/-- Row-major comparison of positions. -/
def lexLt (a b : Position) : Bool :=
  decide (a.row < b.row) || (decide (a.row = b.row) && decide (a.col < b.col))

/-- Insertion into a list sorted row-major. -/
def sortedInsert (p : Position) : List Position → List Position
  | [] => [p]
  | q :: rest => if lexLt q p then q :: sortedInsert p rest else p :: q :: rest

/-- Execution of a sum, operands from left to right; an error value of an
operand ends the execution with that error. -/
def DemoExpr.prog : DemoExpr → (Int → Prog Int) → Prog Int
  | DemoExpr.num n, k => k n
  | DemoExpr.ref p, k =>
    Prog.ask p (fun v =>
      match v with
      | FValue.number x => k x
      | FValue.error e => Prog.done (FValue.error e))
  | DemoExpr.add a b, k => a.prog (fun x => b.prog (fun y => k (x + y)))

/-- The engine instance: integers for numbers, digit strings for `std::stod`,
sums for formulas, row-major order for `operator<`. -/
def demo : Engine :=
  ⟨Int, 0,
   fun t => if isNumeral t.data then some (digitsValue t.data : Int) else none,
   fun t => (demoRead t).map
     (fun e => ⟨e.refs.foldr sortedInsert [], t, e.prog (fun x => Prog.done (FValue.number x))⟩),
   lexLt⟩

/-- The sheet after a list of calls, each `(pos, some text)` for `SetCell` and
`(pos, none)` for `ClearCell`, whatever each call returned; `none` when a call
does not return within the budget. -/
def runCalls (fuel : Nat) : List (Position × Option String) → Sheet E → Option (Sheet E)
  | [], s => some s
  | (pos, some text) :: rest, s =>
    match SetCell fuel s pos text with
    | Res.ret _ s1 => runCalls fuel rest s1
    | Res.throw _ s1 => runCalls fuel rest s1
    | Res.oof => none
  | (pos, none) :: rest, s =>
    match ClearCell s pos with
    | Res.ret _ s1 => runCalls fuel rest s1
    | Res.throw _ s1 => runCalls fuel rest s1
    | Res.oof => none

/-! ## Names used in the examples -/

/-- The value a call returned, if it returned. -/
def Res.value {σ α : Type} : Res σ α → Option α
  | Res.ret a _ => some a
  | Res.throw _ _ => none
  | Res.oof => none

/-- The sheet with every cache emptied: reading a value from it evaluates the
current contents from scratch. -/
def clearCaches (s : Sheet E) : Sheet E :=
  ⟨s.sheet_.map (fun row => row.map (fun p => p.map
      (fun c => ⟨c.addr, c.impl_, none, c.influencing_cells_⟩))), s.next⟩

/-- The sheet after a list of calls on the empty sheet. -/
def sheetAfter (fuel : Nat) (calls : List (Position × Option String)) : Sheet E :=
  (runCalls fuel calls emptySheet).getD emptySheet

/-- Position A1. -/
def A1 : Position := ⟨0, 0⟩

/-- Position A2. -/
def A2 : Position := ⟨1, 0⟩

/-- Position A3. -/
def A3 : Position := ⟨2, 0⟩

/-- Position B1. -/
def B1 : Position := ⟨0, 1⟩

/-- Position Z9. -/
def Z9 : Position := ⟨8, 25⟩

/-- The exception a call ended with, if it threw. -/
def Res.thrown {σ α : Type} : Res σ α → Option Err
  | Res.ret _ _ => none
  | Res.throw e _ => some e
  | Res.oof => none

/-- The sheet a call left behind, whether it returned or threw. -/
def Res.sheet {σ α : Type} : Res σ α → Option σ
  | Res.ret _ s => some s
  | Res.throw _ s => some s
  | Res.oof => none

/-! ## Predicates used in the statements -/

/-- Every stored cell has an address handed out by the counter, and no two
slots hold cells with the same address. -/
def AddrInv (s : Sheet E) : Prop :=
  (∀ r c cell, slotAt s.sheet_ r c = some cell → cell.addr < s.next) ∧
  (∀ r c r1 c1 x y, slotAt s.sheet_ r c = some x → slotAt s.sheet_ r1 c1 = some y →
    x.addr = y.addr → r = r1 ∧ c = c1)

/-- The storage `s1` extends the storage `s`: every cell of `s` is still in its
slot, every other cell of `s1` is a newly constructed cell with a new address,
and no row got shorter. -/
def Grows (s s1 : Sheet E) : Prop :=
  s.next ≤ s1.next ∧
  (∀ r c cell, slotAt s.sheet_ r c = some cell → slotAt s1.sheet_ r c = some cell) ∧
  (∀ r c cell, slotAt s1.sheet_ r c = some cell →
    slotAt s.sheet_ r c = some cell ∨
      (slotAt s.sheet_ r c = none ∧ cell = newCell cell.addr ∧
        s.next ≤ cell.addr ∧ cell.addr < s1.next)) ∧
  (∀ r c r1 c1 x y, slotAt s1.sheet_ r c = some x → slotAt s1.sheet_ r1 c1 = some y →
    x.addr = y.addr → slotAt s.sheet_ r c = none → slotAt s.sheet_ r1 c1 = none →
    r = r1 ∧ c = c1) ∧
  s.sheet_.length ≤ s1.sheet_.length ∧
  ∀ r, rowLen s.sheet_ r ≤ rowLen s1.sheet_ r

/-- The sheets `s` and `s1` differ at most in caches and reverse sets: same
counter, same extent, and slot by slot the same address and implementation. -/
def SameShape (s s1 : Sheet E) : Prop :=
  s1.next = s.next ∧ s1.sheet_.length = s.sheet_.length ∧
  (∀ r, rowLen s1.sheet_ r = rowLen s.sheet_ r) ∧
  ∀ r c, (slotAt s1.sheet_ r c).map (fun x => (x.addr, x.impl_)) =
    (slotAt s.sheet_ r c).map (fun x => (x.addr, x.impl_))

/-- Whatever sheet the call left behind has the shape of `s`. -/
def Keeps {α : Type} (s : Sheet E) (r : Res (Sheet E) α) : Prop :=
  ∀ s1, r.sheet = some s1 → SameShape s s1

/-- Whatever sheet the call left behind is related to `s` by `R`. -/
def KeepsR {α : Type} (R : Sheet E → Sheet E → Prop) (s : Sheet E) (r : Res (Sheet E) α) : Prop :=
  ∀ s1, r.sheet = some s1 → R s s1

/-- The sheets `s` and `s1` differ at most in caches: same counter, same extent,
and slot by slot the same address, implementation and reverse set. -/
def SameCells (s s1 : Sheet E) : Prop :=
  s1.next = s.next ∧ s1.sheet_.length = s.sheet_.length ∧
  (∀ r, rowLen s1.sheet_ r = rowLen s.sheet_ r) ∧
  ∀ r c, (slotAt s1.sheet_ r c).map (fun x => (x.addr, x.impl_, x.influencing_cells_)) =
    (slotAt s.sheet_ r c).map (fun x => (x.addr, x.impl_, x.influencing_cells_))

/-- The formula the engine instance reads from a text (the literal 0 where it
reads none). -/
def demoFormula (t : String) : FormulaAST demo.Num :=
  (demo.ParseFormulaAST t).getD ⟨[], "0", Prog.done (FValue.number demo.zero)⟩

/-- The forward-reference edge `u → v`: position `v` is in `GetReferencedCells`
of the cell stored at `u`. -/
def Edge (s : Sheet E) (u v : Position) : Prop :=
  ∃ c, cellAt s u = some c ∧ v ∈ c.GetReferencedCells

/-- The forward-reference graph has no directed cycle. -/
def Acyclic (s : Sheet E) : Prop := ∀ u, ¬ Relation.TransGen (Edge s) u u

/-- The sheets reached from the empty sheet by calls of SetCell and ClearCell,
with any arguments, whether a call returned or threw. -/
inductive Reachable : Sheet E → Prop where
  | empty : Reachable emptySheet
  | setCell (fuel : Nat) (s s1 : Sheet E) (pos : Position) (text : String) :
      Reachable s → (SetCell fuel s pos text).sheet = some s1 → Reachable s1
  | clearCell (s s1 : Sheet E) (pos : Position) :
      Reachable s → (ClearCell s pos).sheet = some s1 → Reachable s1

/-- Every cell whose address entered the visited set between `vis0` and `vis1`
has the pointers of all its referenced positions in `vis1`. -/
def Closed (s : Sheet E) (vis0 vis1 : List (Option Nat)) : Prop :=
  ∀ u cu, cellAt s u = some cu → some cu.addr ∈ vis1 → some cu.addr ∉ vis0 →
    ∀ v ∈ cu.GetReferencedCells, ∃ pv, GetCell s v = Except.ok pv ∧ ptrOf pv ∈ vis1

/-- The bidirectional-edge property I1: for every position `u` holding a cell and
every position `v`, `v` is in the reference list of the cell at `u` iff a cell
is stored at `v` and has the cell of `u` in its reverse set. -/
def I1 (s : Sheet E) : Prop :=
  ∀ u v cu, cellAt s u = some cu →
    (v ∈ cu.GetReferencedCells ↔
      ∃ cv, cellAt s v = some cv ∧ cu.addr ∈ cv.influencing_cells_)

/-- Every address in a reverse set was handed out by the counter. -/
def RevBound (s : Sheet E) : Prop :=
  ∀ q cq, cellAt s q = some cq → ∀ a ∈ cq.influencing_cells_, a < s.next

/-- The sheets reached from the empty sheet by SetCell calls that return or are
rejected as a cycle or a syntax error, where every formula given references
only positions that hold a cell once the storage has been grown for the call,
and no cell with references is given a text that is not a formula. -/
inductive Maintained : Sheet E → Prop where
  | empty : Maintained emptySheet
  | setCell (fuel : Nat) (s s1 : Sheet E) (pos : Position) (text : String) :
      Maintained s →
      (SetCell fuel s pos text).sheet = some s1 →
      (SetCell fuel s pos text).thrown ≠ some Err.InvalidPosition →
      (isFormulaText text = true → ∀ temp, E.ParseFormulaAST (substr1 text) = some temp →
        ∀ x ∈ temp.GetReferencedCells, (cellAt (prepare s pos) x).isSome = true) →
      (isFormulaText text = false → ∀ c, cellAt s pos = some c → c.GetReferencedCells = []) →
      Maintained s1

/-- The pointers to all stored cells. -/
def storedPtrs (s : Sheet E) : List (Option Nat) :=
  (s.sheet_.flatten.filterMap id).map (fun c => some c.addr)

/-- The number of stored cells that are not in the visited set. -/
def unvisited (s : Sheet E) (vis : List (Option Nat)) : Nat :=
  ((storedPtrs s).toFinset \ vis.toFinset).card

/-! ## formula.cpp and sheet.cpp: printing

The output stream is modelled by the string of the characters written to it. -/

/-- The function `operator<<(std::ostream&, FormulaError)` of formula.cpp: the
characters it writes, whatever the category of the error. -/
def writeFormulaError (_fe : FormulaError) : String := "#DIV/0!"

/-- The visitor `output << item` of `PrintValues` on the three alternatives of a
value; `render` is the formatting of a `double` by the stream. -/
def writeValue (render : E.Num → String) : Value E.Num → String
  | Value.text t => t
  | Value.number x => render x
  | Value.error e => writeFormulaError e

/-- The element access `sheet_[r][c]`: the pointer held by the slot, defined only
when `r` is a stored row and `c` is below the size of that row. -/
def elemAt (g : List (List (Option (Cell E)))) (r c : Nat) : Option (Option (Cell E)) :=
  match g[r]? with
  | none => none
  | some row => row[c]?

/-- Outcome of `PrintTexts`: normal return with the text written, or an element
access `sheet_[r][c]` outside the stored row, where the behaviour of the
program is undefined. -/
inductive Printed where
  | text (output : String)
  | outOfRange (r c : Nat)
deriving DecidableEq

/-- Outcome of `PrintValues`: normal return with the text written and the sheet
left behind, an exception leaving the call, an element access `sheet_[r][c]`
outside the stored row, where the behaviour of the program is undefined, or no
return within the recursion budget. -/
inductive PrintRes (σ : Type) where
  | ret (output : String) (s : σ)
  | throw (e : Err) (s : σ)
  | outOfRange (r c : Nat)
  | oof

/-- The text written by a print call that returned. -/
def PrintRes.value {σ : Type} : PrintRes σ → Option String
  | PrintRes.ret output _ => some output
  | PrintRes.throw _ _ => none
  | PrintRes.outOfRange _ _ => none
  | PrintRes.oof => none

/-- The element access outside a stored row at which a print call stopped being
defined. -/
def PrintRes.undefinedAt {σ : Type} : PrintRes σ → Option (Nat × Nat)
  | PrintRes.outOfRange r c => some (r, c)
  | _ => none

/-- The inner loop of `PrintTexts` on row `r`: `n` more columns from column `c`.
The reference `cell` is bound by the element access `sheet_[r][c]` before the
test of `c` against the size of the row. -/
def printTextsCols (s : Sheet E) (r : Nat) : Nat → Nat → String → Printed
  | 0, _, output => Printed.text output
  | n + 1, c, output =>
    let output1 := if 0 < c then output ++ "\t" else output
    match elemAt s.sheet_ r c with
    | none => Printed.outOfRange r c
    | some cell =>
      if c < rowLen s.sheet_ r then
        match cell with
        | some cell => printTextsCols s r n (c + 1) (output1 ++ cell.GetText)
        | none => printTextsCols s r n (c + 1) output1
      else printTextsCols s r n (c + 1) output1

/-- The outer loop of `PrintTexts`: `n` more rows from row `r`, each of `cols`
columns. -/
def printTextsRows (s : Sheet E) (cols : Nat) : Nat → Nat → String → Printed
  | 0, _, output => Printed.text output
  | n + 1, r, output =>
    match printTextsCols s r cols 0 output with
    | Printed.text out1 => printTextsRows s cols n (r + 1) (out1 ++ "\n")
    | Printed.outOfRange r1 c1 => Printed.outOfRange r1 c1

/-- The method `Sheet::PrintTexts`.  The method is `const` and calls nothing that
changes a text, so `GetPrintableSize()` has the same value at every loop test. -/
def PrintTexts (s : Sheet E) : Printed :=
  printTextsRows s (GetPrintableSize s).cols.toNat (GetPrintableSize s).rows.toNat 0 ""

/-- The inner loop of `PrintValues` on row `r`: `n` more columns from column `c`;
`Cell::GetValue` may fill caches, so the sheet is passed along.  The reference
`cell` is bound by the element access `sheet_[r][c]` before the test of `c`
against the size of the row. -/
def printValuesCols (fuel : Nat) (render : E.Num → String) (r : Nat) :
    Nat → Nat → Sheet E → String → PrintRes (Sheet E)
  | 0, _, s, output => PrintRes.ret output s
  | n + 1, c, s, output =>
    let output1 := if 0 < c then output ++ "\t" else output
    match elemAt s.sheet_ r c with
    | none => PrintRes.outOfRange r c
    | some cell =>
      if c < rowLen s.sheet_ r then
        match cell with
        | some cell =>
          match CellGetValue fuel ⟨r, c⟩ cell s with
          | Res.ret v s1 =>
            printValuesCols fuel render r n (c + 1) s1 (output1 ++ writeValue render v)
          | Res.throw e s1 => PrintRes.throw e s1
          | Res.oof => PrintRes.oof
        | none => printValuesCols fuel render r n (c + 1) s output1
      else printValuesCols fuel render r n (c + 1) s output1

/-- The outer loop of `PrintValues`: `n` more rows from row `r`, each of `cols`
columns. -/
def printValuesRows (fuel : Nat) (render : E.Num → String) (cols : Nat) :
    Nat → Nat → Sheet E → String → PrintRes (Sheet E)
  | 0, _, s, output => PrintRes.ret output s
  | n + 1, r, s, output =>
    match printValuesCols fuel render r cols 0 s output with
    | PrintRes.ret out1 s1 => printValuesRows fuel render cols n (r + 1) s1 (out1 ++ "\n")
    | PrintRes.throw e s1 => PrintRes.throw e s1
    | PrintRes.outOfRange r1 c1 => PrintRes.outOfRange r1 c1
    | PrintRes.oof => PrintRes.oof

/-- The method `Sheet::PrintValues`; `fuel` bounds the nesting of formula
evaluations.  `GetPrintableSize()` reads texts only, and the calls of
`Cell::GetValue` in the loop assign caches only, so it has the same value at
every loop test. -/
def PrintValues (fuel : Nat) (render : E.Num → String) (s : Sheet E) : PrintRes (Sheet E) :=
  printValuesRows fuel render (GetPrintableSize s).cols.toNat (GetPrintableSize s).rows.toNat 0 s ""

/-- The row and column of every element access `sheet_[r][c]` made by the loops
of `PrintValues` and `PrintTexts`, in order. -/
def printAccesses (s : Sheet E) : List (Nat × Nat) :=
  (List.range (GetPrintableSize s).rows.toNat).flatMap
    (fun r => (List.range (GetPrintableSize s).cols.toNat).map (fun c => (r, c)))

/-- The formatting of an integer by the stream. -/
def demoRender (x : Int) : String := toString x

/-- The text at a position: `GetText` of the cell there, and the empty text where
`GetCell` returns null. -/
def textAt (s : Sheet E) (q : Position) : String :=
  match cellAt s q with
  | some c => c.GetText
  | none => ""

/-- Every reference stored in the sheet is a valid position. -/
def RefsValid (s : Sheet E) : Prop :=
  ∀ u c, cellAt s u = some c → ∀ v ∈ c.GetReferencedCells, v.IsValid = true

/-- Every formula stored in a slot was returned by `ParseFormulaAST` and
references valid positions only. -/
def FormulasOK (s : Sheet E) : Prop :=
  ∀ r c cell f, slotAt s.sheet_ r c = some cell → cell.impl_ = Impl.FormulaImpl f →
    (∃ t, E.ParseFormulaAST t = some f) ∧ ∀ v ∈ f.GetReferencedCells, v.IsValid = true

/-! ## The printed grid as the specification words it -/

/-- A printed row: the fields separated by single tab characters and terminated
by a single newline. -/
def rowText (fields : List String) : String := String.intercalate "\t" fields ++ "\n"

/-- The printed grid: the rows one after the other. -/
def gridText (rows : List (List String)) : String := String.join (rows.map rowText)

/-- The text of the cell stored in slot `(r, c)`, and the empty text when the
slot holds no cell. -/
def slotText (s : Sheet E) (r c : Nat) : String :=
  match slotAt s.sheet_ r c with
  | some cell => cell.GetText
  | none => ""

/-- The fields of a row written one after the other to `output`, from column
`c` on, with a tab before every field but the one of column 0. -/
def appendFields : Nat → String → List String → String
  | _, output, [] => output
  | c, output, f :: rest =>
    appendFields (c + 1) ((if 0 < c then output ++ "\t" else output) ++ f) rest

/-- Every position on which the program calls the lookup is in `l`, whatever
the lookup returns. -/
def AsksIn {Num : Type} (l : List Position) : Prog Num → Prop
  | Prog.done _ => True
  | Prog.ask p k => p ∈ l ∧ ∀ v, AsksIn l (k v)

/-- The contract of the formula engine used for evaluation: `Execute` of a
parsed formula calls the lookup only on positions of `GetCells()`. -/
def EngineWF (E : Engine) : Prop :=
  ∀ t f, E.ParseFormulaAST t = some f → AsksIn f.cells f.exec

/-- The call `GetValue` on the cell at `u` returns within the budget `n`, on
every sheet that differs from `s` at most in caches. -/
def ReturnsAt (s : Sheet E) (n : Nat) (u : Position) : Prop :=
  ∀ fuel, n ≤ fuel → ∀ s1, SameCells s s1 → ∀ c1, cellAt s1 u = some c1 →
    ∃ v s2, CellGetValue fuel u c1 s1 = Res.ret v s2

/-- The call `GetValue` on the cell at `q` of the sheet `s` returns `v`, for some
budget. -/
def Val (s : Sheet E) (q : Position) (v : Value E.Num) : Prop :=
  ∃ fuel c s2, cellAt s q = some c ∧ CellGetValue fuel q c s = Res.ret v s2

/-- The sheet `t` is the sheet `s` with more caches filled, each with the value
that `GetValue` returns on `s`. -/
def Coh (s t : Sheet E) : Prop :=
  SameCells s t ∧
  ∀ q c ct, cellAt s q = some c → cellAt t q = some ct →
    (c.cache_ = none ∨ ct.cache_ = c.cache_) ∧ ∀ v, ct.cache_ = some v → Val s q v

/-- What the visitor of `PrintValues` writes for the value returned by `GetValue`
of the cell at `q`, and nothing when there is no cell. -/
def valueTextAt (fuel : Nat) (render : E.Num → String) (s : Sheet E) (q : Position) : String :=
  match GetValue fuel s q with
  | some (Res.ret v _) => writeValue render v
  | _ => ""

/-- The field of row `r` and column `c` in the output of `PrintValues`. -/
def valueText (fuel : Nat) (render : E.Num → String) (s : Sheet E) (r c : Nat) : String :=
  valueTextAt fuel render s ⟨r, c⟩

/-- Every cell stored in a slot that is not a valid position is Empty. -/
def SlotsValid (s : Sheet E) : Prop :=
  ∀ r c cell, slotAt s.sheet_ r c = some cell → cell.impl_ ≠ Impl.EmptyImpl →
    Position.IsValid ⟨r, c⟩ = true

/-- Every row inside the printable size has a slot for every printable column,
so that no element access of the print loops is outside a stored row. -/
def RowsCover (s : Sheet E) : Prop :=
  ∀ r, r < (GetPrintableSize s).rows.toNat →
    (GetPrintableSize s).cols.toNat ≤ rowLen s.sheet_ r

/-! # Theorems -/

/-! ## Basic facts about the storage -/

theorem GetCell_invalid (s : Sheet E) (pos : Position) (h : pos.IsValid = false) :
    GetCell s pos = Except.error Err.InvalidPosition := by
  simp [GetCell, h]

theorem GetCell_valid (s : Sheet E) (pos : Position) (h : pos.IsValid = true) :
    GetCell s pos = Except.ok (cellAt s pos) := by
  simp [cellAt, GetCell, h]
  split <;> rfl

theorem cellAt_some {s : Sheet E} {pos : Position} {c : Cell E} (h : cellAt s pos = some c) :
    pos.IsValid = true ∧ IsActualPosition s pos = true ∧
      slotAt s.sheet_ pos.row.toNat pos.col.toNat = some c := by
  unfold cellAt GetCell at h
  by_cases hv : pos.IsValid = true
  · by_cases ha : IsActualPosition s pos = true
    · simp [hv, ha] at h
      exact ⟨hv, ha, h⟩
    · simp [hv, ha] at h
  · simp [hv] at h

theorem IncreaseSheetSize_actual {s : Sheet E} {pos : Position}
    (h : IsActualPosition s pos = true) : IncreaseSheetSize s pos = s := by
  unfold IsActualPosition at h
  by_cases hv : pos.IsValid = true
  · simp only [hv, if_true] at h
    by_cases h1 : (decide (0 ≤ pos.row) && decide (pos.row < (s.sheet_.length : Int))) = true
    · simp only [h1, if_true] at h
      by_cases h2 : (decide (0 ≤ pos.col) &&
          decide (pos.col < (rowLen s.sheet_ pos.row.toNat : Int))) = true
      · simp only [Bool.and_eq_true, decide_eq_true_eq] at h1 h2
        unfold IncreaseSheetSize growRows
        have e1 : ¬ ((s.sheet_.length : Int) < pos.row + 1) := by omega
        rw [if_neg e1]
        unfold growCols
        have e2 : ¬ ((rowLen s.sheet_ pos.row.toNat : Int) < pos.col + 1) := by omega
        rw [if_neg e2]
      · simp [h2] at h
    · simp [h1] at h
  · simp [hv] at h

theorem prepare_of_cell {s : Sheet E} {pos : Position} {c : Cell E} (h : cellAt s pos = some c) :
    prepare s pos = s := by
  obtain ⟨_, ha, hs⟩ := cellAt_some h
  unfold prepare
  rw [IncreaseSheetSize_actual ha, hs]


/-! ## The only exception below `Cell::Set` is `InvalidPosition` -/

theorem GetCell_error {s : Sheet E} {pos : Position} {e : Err}
    (h : GetCell s pos = Except.error e) : e = Err.InvalidPosition := by
  unfold GetCell at h
  split at h
  · split at h <;> cases h
  · cases h; rfl

theorem Delete_throw {self : Nat} {refs : List Position} {s s1 : Sheet E} {e : Err}
    (h : DeleteInverseDependenciesAndCache self refs s = Res.throw e s1) :
    e = Err.InvalidPosition := by
  induction refs generalizing s with
  | nil => simp [DeleteInverseDependenciesAndCache] at h
  | cons q rest ih =>
    simp only [DeleteInverseDependenciesAndCache] at h
    split at h
    · rename_i e1 he
      cases h
      exact GetCell_error he
    · exact ih h
    · exact ih h

theorem Add_throw {self : Nat} {refs : List Position} {s s1 : Sheet E} {e : Err}
    (h : AddInverseDependencies self refs s = Res.throw e s1) :
    e = Err.InvalidPosition := by
  induction refs generalizing s with
  | nil => simp [AddInverseDependencies] at h
  | cons q rest ih =>
    simp only [AddInverseDependencies] at h
    split at h
    · rename_i e1 he
      cases h
      exact GetCell_error he
    · exact ih h
    · exact ih h

theorem runProg_throw {look : Position → Sheet E → Res (Sheet E) (LookupRet E.Num)}
    (hlook : ∀ p s e s1, look p s = Res.throw e s1 → e = Err.InvalidPosition)
    (prog : Prog E.Num) :
    ∀ (s s1 : Sheet E) (e : Err), runProg look prog s = Res.throw e s1 → e = Err.InvalidPosition := by
  induction prog with
  | done v => intro s s1 e h; simp [runProg] at h
  | ask p k ih =>
    intro s s1 e h
    simp only [runProg] at h
    split at h
    · exact ih _ _ _ _ h
    · cases h
    · rename_i e1 s2 hl
      cases h
      exact hlook _ _ _ _ hl
    · cases h

theorem CellGetValueWith_throw {ev : FormulaAST E.Num → Sheet E → Res (Sheet E) (FValue E.Num)}
    (hev : ∀ f s e s1, ev f s = Res.throw e s1 → e = Err.InvalidPosition)
    {pos : Position} {c : Cell E} {s s1 : Sheet E} {e : Err}
    (h : CellGetValueWith ev pos c s = Res.throw e s1) : e = Err.InvalidPosition := by
  unfold CellGetValueWith at h
  split at h
  · cases h
  · split at h
    · cases h
    · cases h
    · split at h
      · cases h
      · rename_i e1 s2 he
        cases h
        exact hev _ _ _ _ he
      · cases h

theorem lookupCell_throw {gv : Position → Cell E → Sheet E → Res (Sheet E) (Value E.Num)}
    (hgv : ∀ p c s e s1, gv p c s = Res.throw e s1 → e = Err.InvalidPosition)
    {pos : Position} {s s1 : Sheet E} {e : Err}
    (h : lookupCell gv pos s = Res.throw e s1) : e = Err.InvalidPosition := by
  unfold lookupCell at h
  split at h
  · split at h
    · rename_i e1 he
      cases h
      exact GetCell_error he
    · cases h
    · split at h
      · cases h
      · cases h
      · cases h
      · rename_i e1 s2 he
        cases h
        exact hgv _ _ _ _ _ he
      · cases h
  · split at h <;> cases h

theorem Evaluate_throw : ∀ (fuel : Nat) (f : FormulaAST E.Num) (s s1 : Sheet E) (e : Err),
    Evaluate fuel f s = Res.throw e s1 → e = Err.InvalidPosition := by
  intro fuel
  induction fuel with
  | zero => intro f s s1 e h; simp [Evaluate] at h
  | succ n ih =>
    intro f s s1 e h
    simp only [Evaluate] at h
    refine runProg_throw ?_ f.exec s s1 e h
    intro p s2 e2 s3 hl
    refine lookupCell_throw ?_ hl
    intro p2 c2 s4 e4 s5 hg
    exact CellGetValueWith_throw (fun f s e s1 h => ih f s s1 e h) hg

/-- Where `Cell::Set` throws `CircularDependency` or `FormulaException`, the sheet
is the one it was called on. -/
theorem CellSet_reject {fuel : Nat} {s s1 : Sheet E} {pos : Position} {self : Cell E}
    {text : String} {e : Err} (h : CellSet fuel s pos self text = Res.throw e s1)
    (he : e = Err.CircularDependency ∨ e = Err.FormulaException) : s1 = s := by
  unfold CellSet at h
  split at h
  · split at h
    · cases h; rfl
    · split at h
      · cases h; rfl
      · cases h
      · cases h; rfl
      · split at h
        · rename_i e1 s2 hd
          cases h
          have := Delete_throw hd
          subst this
          rcases he with he | he <;> cases he
        · cases h
        · split at h
          · rename_i e1 s3 hev
            cases h
            have := Evaluate_throw _ _ _ _ _ hev
            subst this
            rcases he with he | he <;> cases he
          · cases h
          · have := Add_throw h
            subst this
            rcases he with he | he <;> cases he
  · split at h <;> cases h


/-! ## C1 -/

/-- C1 (failing input): after SetCell(A1,"1"), SetCell(A2,"=A1+1"),
SetCell(A3,"=A2+1") the call GetValue(A3) returns 3 and leaves the sheet as it
is. After the further call SetCell(A1,"5") the cache of A3 is present and still
holds 3, so GetValue(A3) returns 3, while evaluating the current contents from
scratch gives 7. -/
theorem C1_stale_cache_after_edit :
    GetValue 5 (sheetAfter 5 [(A1, some "1"), (A2, some "=A1+1"), (A3, some "=A2+1")] : Sheet demo)
        A3 =
      some (Res.ret (Value.number (3 : Int))
        (sheetAfter 5 [(A1, some "1"), (A2, some "=A1+1"), (A3, some "=A2+1")])) ∧
    (runCalls 5 [(A1, some "1"), (A2, some "=A1+1"), (A3, some "=A2+1"), (A1, some "5")]
        (emptySheet : Sheet demo)).map
      (fun s => ((cellAt s A3).map Cell.cache_,
                 (GetValue 5 s A3).map Res.value,
                 (GetValue 5 (clearCaches s) A3).map Res.value)) =
      some (some (some (Value.number (3 : Int))),
            some (some (Value.number (3 : Int))),
            some (some (Value.number (7 : Int)))) :=
  ⟨rfl, rfl⟩

/-! ## C3 -/

/-- C3: when the position already holds a cell and SetCell is rejected with
CircularDependency or with a formula syntax error, the sheet after the call is
the sheet before it; so GetText and GetValue of that cell (contents, text and
cache) are what they were. -/
theorem C3_rejected_edit_leaves_cell (fuel : Nat) (s : Sheet E) (p : Position) (text : String)
    (hcell : (cellAt s p).isSome = true)
    (hrej : (SetCell fuel s p text).thrown = some Err.CircularDependency ∨
      (SetCell fuel s p text).thrown = some Err.FormulaException) :
    (SetCell fuel s p text).sheet = some s ∧
      ∀ s1, (SetCell fuel s p text).sheet = some s1 →
        GetText s1 p = GetText s p ∧ cellAt s1 p = cellAt s p ∧
          ∀ fuel1, GetValue fuel1 s1 p = GetValue fuel1 s p := by
  obtain ⟨c, hc⟩ := Option.isSome_iff_exists.mp hcell
  obtain ⟨hv, ha, hs⟩ := cellAt_some hc
  have hset : SetCell fuel s p text = CellSet fuel s p c text := by
    unfold SetCell
    rw [if_pos hv, prepare_of_cell hc, IncreaseSheetSize_actual ha, hs]
  have key : (SetCell fuel s p text).sheet = some s := by
    rw [hset] at hrej ⊢
    cases hr : CellSet fuel s p c text with
    | ret a s1 => rw [hr] at hrej; simp [Res.thrown] at hrej
    | oof => rw [hr] at hrej; simp [Res.thrown] at hrej
    | throw e s1 =>
      rw [hr] at hrej
      simp only [Res.thrown, Option.some.injEq] at hrej
      rw [CellSet_reject hr hrej]
      rfl
  refine ⟨key, ?_⟩
  intro s1 h1
  rw [key] at h1
  cases h1
  exact ⟨rfl, rfl, fun _ => rfl⟩

/-- C3 at a concrete input: on the sheet holding "1" in A1, SetCell(A1,"=A1") is
rejected as a cycle and leaves that sheet. -/
theorem C3_rejected_edit_witness :
    (SetCell 5 (sheetAfter 5 [(A1, some "1")] : Sheet demo) A1 "=A1").thrown
        = some Err.CircularDependency ∧
      (SetCell 5 (sheetAfter 5 [(A1, some "1")] : Sheet demo) A1 "=A1").sheet
        = some (sheetAfter 5 [(A1, some "1")]) :=
  ⟨rfl, (C3_rejected_edit_leaves_cell 5 (sheetAfter 5 [(A1, some "1")] : Sheet demo) A1 "=A1"
    rfl (Or.inl rfl)).1⟩

/-! ## C10 -/

/-- C10: on an invalid position (row or column negative or not below the
maximum) SetCell, GetCell and ClearCell fail with InvalidPosition and leave the
sheet as it is; on a valid position GetCell and ClearCell do not fail. -/
theorem C10_position_validation (s : Sheet E) (pos : Position) :
    ((pos.row < 0 ∨ pos.col < 0 ∨ MAX_ROWS ≤ pos.row ∨ MAX_COLS ≤ pos.col) →
      (∀ fuel text, SetCell fuel s pos text = Res.throw Err.InvalidPosition s) ∧
        GetCell s pos = Except.error Err.InvalidPosition ∧
        ClearCell s pos = Res.throw Err.InvalidPosition s) ∧
    ((0 ≤ pos.row ∧ 0 ≤ pos.col ∧ pos.row < MAX_ROWS ∧ pos.col < MAX_COLS) →
      (∃ p, GetCell s pos = Except.ok p) ∧ ∃ s1, ClearCell s pos = Res.ret () s1) := by
  constructor
  · intro h
    have hv : pos.IsValid = false := by
      unfold Position.IsValid
      rcases h with h | h | h | h <;> simp <;> omega
    refine ⟨?_, GetCell_invalid s pos hv, ?_⟩
    · intro fuel text
      simp [SetCell, hv]
    · simp [ClearCell, hv]
  · intro h
    have hv : pos.IsValid = true := by
      unfold Position.IsValid
      simp
      omega
    refine ⟨⟨_, GetCell_valid s pos hv⟩, ?_⟩
    unfold ClearCell
    rw [if_pos hv]
    split
    · exact ⟨_, rfl⟩
    · exact ⟨_, rfl⟩

/-- C10 at concrete inputs: row -1 is refused by SetCell on the sheet holding
"1" in A1, and GetCell(Z9) on that sheet does not fail. -/
theorem C10_position_validation_witness :
    SetCell 5 (sheetAfter 5 [(A1, some "1")] : Sheet demo) ⟨-1, 0⟩ "x"
        = Res.throw Err.InvalidPosition (sheetAfter 5 [(A1, some "1")]) ∧
      ∃ p, GetCell (sheetAfter 5 [(A1, some "1")] : Sheet demo) Z9 = Except.ok p :=
  ⟨((C10_position_validation (sheetAfter 5 [(A1, some "1")] : Sheet demo) ⟨-1, 0⟩).1
      (Or.inl (by decide))).1 5 "x",
   ((C10_position_validation (sheetAfter 5 [(A1, some "1")] : Sheet demo) Z9).2
      (by decide)).1⟩

/-! ## The printable size -/

theorem hasText_iff {s : Sheet E} {r c : Nat} :
    hasText s r c = true ↔ ∃ cell, slotAt s.sheet_ r c = some cell ∧ cell.GetText ≠ "" := by
  unfold hasText
  cases h : slotAt s.sheet_ r c with
  | none => simp
  | some cell =>
    simp only [Option.some.injEq, exists_eq_left', Bool.not_eq_true', List.isEmpty_eq_false]
    constructor
    · intro h1 h2
      rw [h2] at h1
      exact h1 rfl
    · intro h1 h2
      apply h1
      cases hg : cell.GetText with
      | mk d => rw [hg] at h2; simp at h2; rw [h2]

theorem slotAt_some_lt {g : List (List (Option (Cell E)))} {r c : Nat} {cell : Cell E}
    (h : slotAt g r c = some cell) : r < g.length ∧ c < rowLen g r := by
  unfold slotAt at h
  cases hr : g[r]? with
  | none => simp [hr] at h
  | some row =>
    simp only [hr] at h
    have h1 : r < g.length := by
      by_contra hn
      have := List.getElem?_eq_none (Nat.le_of_not_lt hn)
      rw [this] at hr
      cases hr
    refine ⟨h1, ?_⟩
    simp only [rowLen, hr, Option.getD_some]
    by_contra hn
    have := List.getElem?_eq_none (Nat.le_of_not_lt hn)
    rw [this] at h
    cases h

theorem scanCols_spec (s : Sheet E) (r : Nat) : ∀ (n : Nat) (sz : Size),
    (sz.rows ≤ (scanCols s r n sz).rows ∧ sz.cols ≤ (scanCols s r n sz).cols) ∧
    (∀ c, c < n → hasText s r c = true →
      (r : Int) + 1 ≤ (scanCols s r n sz).rows ∧ (c : Int) + 1 ≤ (scanCols s r n sz).cols) ∧
    ((scanCols s r n sz).rows = sz.rows ∨
      ∃ c, hasText s r c = true ∧ (scanCols s r n sz).rows = (r : Int) + 1) ∧
    ((scanCols s r n sz).cols = sz.cols ∨
      ∃ c, hasText s r c = true ∧ (scanCols s r n sz).cols = (c : Int) + 1) := by
  intro n
  induction n with
  | zero =>
    intro sz
    simp [scanCols]
  | succ n ih =>
    intro sz
    simp only [scanCols]
    by_cases ht : hasText s r n = true
    · simp only [ht, if_true]
      obtain ⟨R, hR1, hR2, hR3⟩ : ∃ R : Int, max sz.rows ((r : Int) + 1) = R ∧ sz.rows ≤ R ∧
          (r : Int) + 1 ≤ R ∧ (R = sz.rows ∨ R = (r : Int) + 1) :=
        ⟨_, rfl, le_max_left _ _, le_max_right _ _, max_choice _ _⟩
      obtain ⟨C, hC1, hC2, hC3⟩ : ∃ C : Int, max sz.cols ((n : Int) + 1) = C ∧ sz.cols ≤ C ∧
          (n : Int) + 1 ≤ C ∧ (C = sz.cols ∨ C = (n : Int) + 1) :=
        ⟨_, rfl, le_max_left _ _, le_max_right _ _, max_choice _ _⟩
      rw [hR1, hC1]
      obtain ⟨⟨m1, m2⟩, cov, t1, t2⟩ := ih ⟨R, C⟩
      simp only at m1 m2 t1 t2
      have g1 : sz.rows ≤ (scanCols s r n ⟨R, C⟩).rows := by omega
      have g2 : sz.cols ≤ (scanCols s r n ⟨R, C⟩).cols := by omega
      refine ⟨⟨g1, g2⟩, ?_, ?_, ?_⟩
      · intro c hc hcT
        by_cases hcn : c = n
        · subst hcn
          constructor <;> omega
        · exact cov c (by omega) hcT
      · rcases t1 with t1 | t1
        · rcases hR3.2 with h | h
          · left
            omega
          · right
            refine ⟨n, ht, ?_⟩
            omega
        · right
          exact t1
      · rcases t2 with t2 | t2
        · rcases hC3.2 with h | h
          · left
            omega
          · right
            refine ⟨n, ht, ?_⟩
            omega
        · right
          exact t2
    · simp only [ht, Bool.false_eq_true, if_false]
      obtain ⟨⟨m1, m2⟩, cov, t1, t2⟩ := ih sz
      refine ⟨⟨m1, m2⟩, ?_, t1, t2⟩
      intro c hc hcT
      by_cases hcn : c = n
      · subst hcn
        exact absurd hcT ht
      · exact cov c (by omega) hcT

theorem scanRows_spec (s : Sheet E) : ∀ (n : Nat) (sz : Size),
    (sz.rows ≤ (scanRows s n sz).rows ∧ sz.cols ≤ (scanRows s n sz).cols) ∧
    (∀ r c, r < n → hasText s r c = true →
      (r : Int) + 1 ≤ (scanRows s n sz).rows ∧ (c : Int) + 1 ≤ (scanRows s n sz).cols) ∧
    ((scanRows s n sz).rows = sz.rows ∨
      ∃ r c, hasText s r c = true ∧ (scanRows s n sz).rows = (r : Int) + 1) ∧
    ((scanRows s n sz).cols = sz.cols ∨
      ∃ r c, hasText s r c = true ∧ (scanRows s n sz).cols = (c : Int) + 1) := by
  intro n
  induction n with
  | zero =>
    intro sz
    simp [scanRows]
  | succ n ih =>
    intro sz
    simp only [scanRows]
    obtain ⟨⟨c1, c2⟩, ccov, ct1, ct2⟩ := scanCols_spec s n (rowLen s.sheet_ n) sz
    obtain ⟨⟨m1, m2⟩, cov, t1, t2⟩ :=
      ih (scanCols s n (rowLen s.sheet_ n) sz)
    have g1 : sz.rows ≤ (scanRows s n (scanCols s n (rowLen s.sheet_ n) sz)).rows := by
      omega
    have g2 : sz.cols ≤ (scanRows s n (scanCols s n (rowLen s.sheet_ n) sz)).cols := by
      omega
    refine ⟨⟨g1, g2⟩, ?_, ?_, ?_⟩
    · intro r c hr hT
      by_cases hrn : r = n
      · subst hrn
        obtain ⟨cell, hcell, _⟩ := hasText_iff.mp hT
        have hlt := (slotAt_some_lt hcell).2
        have := ccov c hlt hT
        omega
      · exact cov r c (by omega) hT
    · rcases t1 with t1 | t1
      · rcases ct1 with ct1 | ⟨c, hc, ct1⟩
        · left
          omega
        · right
          refine ⟨n, c, hc, ?_⟩
          omega
      · right
        exact t1
    · rcases t2 with t2 | t2
      · rcases ct2 with ct2 | ⟨c, hc, ct2⟩
        · left
          omega
        · right
          refine ⟨n, c, hc, ?_⟩
          omega
      · right
        exact t2

/-! ## C9 -/

/-- C9: GetPrintableSize is the tight bounding rectangle of the cells with
non-empty text: every such cell at (r, c) has r + 1 ≤ rows and c + 1 ≤ cols;
rows is 0 or r + 1 for some such cell, cols is 0 or c + 1 for some such cell;
when no stored cell has non-empty text the size is (0, 0), whatever is
allocated. -/
theorem C9_printable_size_tight (s : Sheet E) :
    (∀ r c cell, slotAt s.sheet_ r c = some cell → cell.GetText ≠ "" →
      (r : Int) + 1 ≤ (GetPrintableSize s).rows ∧ (c : Int) + 1 ≤ (GetPrintableSize s).cols) ∧
    ((GetPrintableSize s).rows = 0 ∨
      ∃ r c cell, slotAt s.sheet_ r c = some cell ∧ cell.GetText ≠ "" ∧
        (GetPrintableSize s).rows = (r : Int) + 1) ∧
    ((GetPrintableSize s).cols = 0 ∨
      ∃ r c cell, slotAt s.sheet_ r c = some cell ∧ cell.GetText ≠ "" ∧
        (GetPrintableSize s).cols = (c : Int) + 1) ∧
    ((∀ r c cell, slotAt s.sheet_ r c = some cell → cell.GetText = "") →
      GetPrintableSize s = ⟨0, 0⟩) := by
  obtain ⟨_, cov, t1, t2⟩ := scanRows_spec s s.sheet_.length ⟨0, 0⟩
  have none_of : (∀ r c cell, slotAt s.sheet_ r c = some cell → cell.GetText = "") →
      ∀ r c, ¬ hasText s r c = true := by
    intro h r c hT
    obtain ⟨cell, hc, hne⟩ := hasText_iff.mp hT
    exact hne (h r c cell hc)
  refine ⟨?_, ?_, ?_, ?_⟩
  · intro r c cell hc hne
    have hT : hasText s r c = true := hasText_iff.mpr ⟨cell, hc, hne⟩
    exact cov r c (slotAt_some_lt hc).1 hT
  · rcases t1 with t1 | ⟨r, c, hT, t1⟩
    · left
      exact t1
    · right
      obtain ⟨cell, hc, hne⟩ := hasText_iff.mp hT
      exact ⟨r, c, cell, hc, hne, t1⟩
  · rcases t2 with t2 | ⟨r, c, hT, t2⟩
    · left
      exact t2
    · right
      obtain ⟨cell, hc, hne⟩ := hasText_iff.mp hT
      exact ⟨r, c, cell, hc, hne, t2⟩
  · intro h
    have hn := none_of h
    have e1 : (GetPrintableSize s).rows = 0 := by
      rcases t1 with t1 | ⟨r, c, hT, _⟩
      · exact t1
      · exact absurd hT (hn r c)
    have e2 : (GetPrintableSize s).cols = 0 := by
      rcases t2 with t2 | ⟨r, c, hT, _⟩
      · exact t2
      · exact absurd hT (hn r c)
    cases hg : GetPrintableSize s with
    | mk rows cols =>
      rw [hg] at e1 e2
      simp only at e1 e2
      rw [e1, e2]

/-- C9 at a concrete input: with "x" in A1 alone the printable size is (1, 1),
although the storage holds four slots. -/
theorem C9_printable_size_example :
    GetPrintableSize (sheetAfter 5 [(A1, some "x")] : Sheet demo) = ⟨1, 1⟩ ∧
      (sheetAfter 5 [(A1, some "x")] : Sheet demo).sheet_.length = 2 := by
  constructor <;> rfl

/-! ## Slots of a changed storage -/

theorem slotAt_none_of_row {g : List (List (Option (Cell E)))} {r c : Nat}
    (h : g.length ≤ r) : slotAt g r c = none := by
  unfold slotAt
  rw [List.getElem?_eq_none h]

theorem slotAt_none_of_col {g : List (List (Option (Cell E)))} {r c : Nat}
    (h : rowLen g r ≤ c) : slotAt g r c = none := by
  unfold slotAt
  unfold rowLen at h
  cases hr : g[r]? with
  | none => rfl
  | some row =>
    rw [hr] at h
    simp only [Option.getD_some] at h
    simp only
    rw [List.getElem?_eq_none h]

theorem length_modifyGrid (g : List (List (Option (Cell E)))) (r c : Nat) (f : Cell E → Cell E) :
    (modifyGrid g r c f).length = g.length := by
  simp [modifyGrid]

theorem rowLen_modifyGrid (g : List (List (Option (Cell E)))) (r c : Nat) (f : Cell E → Cell E)
    (r1 : Nat) : rowLen (modifyGrid g r c f) r1 = rowLen g r1 := by
  unfold rowLen modifyGrid
  rw [List.getElem?_modify]
  cases g[r1]? with
  | none => rfl
  | some row =>
    simp only [Option.map_eq_map, Option.map_some', Option.getD_some]
    split <;> simp

theorem slotAt_modifyGrid (g : List (List (Option (Cell E)))) (r c : Nat) (f : Cell E → Cell E)
    (r1 c1 : Nat) :
    slotAt (modifyGrid g r c f) r1 c1 =
      if r1 = r ∧ c1 = c then (slotAt g r c).map f else slotAt g r1 c1 := by
  unfold slotAt modifyGrid
  rw [List.getElem?_modify]
  by_cases hr : r1 = r
  · subst hr
    cases g[r1]? with
    | none => simp
    | some row =>
      simp only [Option.map_eq_map, Option.map_some', if_true, true_and]
      rw [List.getElem?_modify]
      by_cases hc : c1 = c
      · subst hc
        cases row[c1]? with
        | none => simp
        | some p => simp
      · have hc2 : ¬ c = c1 := fun h => hc h.symm
        cases row[c1]? with
        | none => simp [hc]
        | some p => simp [hc, hc2]
  · have hr2 : ¬ r = r1 := fun h => hr h.symm
    cases g[r1]? with
    | none => simp [hr]
    | some row => simp [hr, hr2]

theorem length_setSlot (g : List (List (Option (Cell E)))) (r c : Nat) (p : Option (Cell E)) :
    (setSlot g r c p).length = g.length := by
  simp [setSlot]

theorem rowLen_setSlot (g : List (List (Option (Cell E)))) (r c : Nat) (p : Option (Cell E))
    (r1 : Nat) : rowLen (setSlot g r c p) r1 = rowLen g r1 := by
  unfold rowLen setSlot
  rw [List.getElem?_modify]
  cases g[r1]? with
  | none => rfl
  | some row =>
    simp only [Option.map_eq_map, Option.map_some', Option.getD_some]
    split <;> simp

theorem slotAt_setSlot (g : List (List (Option (Cell E)))) (r c : Nat) (p : Option (Cell E))
    (r1 c1 : Nat) :
    slotAt (setSlot g r c p) r1 c1 =
      if r1 = r ∧ c1 = c ∧ r < g.length ∧ c < rowLen g r then p else slotAt g r1 c1 := by
  unfold slotAt setSlot rowLen
  rw [List.getElem?_modify]
  by_cases hr : r1 = r
  · subst hr
    by_cases hlen : r1 < g.length
    · rw [List.getElem?_eq_getElem hlen]
      simp only [Option.map_eq_map, Option.map_some', if_true, true_and, Option.getD_some, hlen]
      rw [List.getElem?_set]
      by_cases hc : c1 = c
      · subst hc
        by_cases hcl : c1 < g[r1].length
        · simp [hcl]
        · simp [hcl]
          rw [List.getElem?_eq_none (Nat.le_of_not_lt hcl)]
      · have hc2 : ¬ c = c1 := fun h => hc h.symm
        simp [hc, hc2]
    · rw [List.getElem?_eq_none (Nat.le_of_not_lt hlen)]
      simp [hlen]
  · have hr2 : ¬ r = r1 := fun h => hr h.symm
    cases g[r1]? with
    | none => simp [hr]
    | some row => simp [hr, hr2]

theorem modify_eq_self_of {α : Type} (f : α → α) : ∀ (l : List α) (n : Nat),
    (∀ a, l[n]? = some a → f a = a) → l.modify f n = l := by
  intro l
  induction l with
  | nil => intro n _; simp
  | cons x xs ih =>
    intro n h
    cases n with
    | zero =>
      simp only [List.modify_zero_cons]
      rw [h x (by simp)]
    | succ n =>
      simp only [List.modify_succ_cons]
      rw [ih n (fun a ha => h a (by simpa using ha))]

theorem set_eq_self_of {α : Type} : ∀ (l : List α) (n : Nat) (a : α),
    (n < l.length → l[n]? = some a) → l.set n a = l := by
  intro l
  induction l with
  | nil => intro n a _; simp
  | cons x xs ih =>
    intro n a h
    cases n with
    | zero =>
      have := h (by simp)
      simp at this
      simp [this]
    | succ n =>
      simp only [List.set_cons_succ]
      rw [ih n a (fun hn => by simpa using h (by simpa using hn))]

theorem setSlot_none_of_none {g : List (List (Option (Cell E)))} {r c : Nat}
    (h : slotAt g r c = none) : setSlot g r c none = g := by
  unfold setSlot
  apply modify_eq_self_of
  intro row hrow
  apply set_eq_self_of
  intro hc
  unfold slotAt at h
  rw [hrow] at h
  simp only at h
  rw [List.getElem?_eq_getElem hc] at h ⊢
  simp only at h
  rw [h]

/-! ## Cells at positions -/

theorem IsValid_iff {pos : Position} :
    pos.IsValid = true ↔ 0 ≤ pos.row ∧ 0 ≤ pos.col ∧ pos.row < MAX_ROWS ∧ pos.col < MAX_COLS := by
  unfold Position.IsValid
  simp only [Bool.and_eq_true, decide_eq_true_eq]
  tauto

theorem IsActualPosition_iff {s : Sheet E} {pos : Position} (hv : pos.IsValid = true) :
    IsActualPosition s pos = true ↔
      pos.row.toNat < s.sheet_.length ∧ pos.col.toNat < rowLen s.sheet_ pos.row.toNat := by
  have h := IsValid_iff.mp hv
  unfold IsActualPosition
  simp only [hv, if_true]
  constructor
  · intro h1
    split at h1
    · rename_i h2
      split at h1
      · rename_i h3
        simp only [Bool.and_eq_true, decide_eq_true_eq] at h2 h3
        omega
      · cases h1
    · cases h1
  · intro ⟨h1, h2⟩
    have e1 : (decide (0 ≤ pos.row) && decide (pos.row < (s.sheet_.length : Int))) = true := by
      simp only [Bool.and_eq_true, decide_eq_true_eq]
      omega
    have e2 : (decide (0 ≤ pos.col) &&
        decide (pos.col < (rowLen s.sheet_ pos.row.toNat : Int))) = true := by
      simp only [Bool.and_eq_true, decide_eq_true_eq]
      omega
    simp only [e1, e2, if_true]

theorem cellAt_valid {s : Sheet E} {pos : Position} (hv : pos.IsValid = true) :
    cellAt s pos = slotAt s.sheet_ pos.row.toNat pos.col.toNat := by
  unfold cellAt GetCell
  simp only [hv, if_true]
  by_cases ha : IsActualPosition s pos = true
  · simp only [ha, if_true]
  · simp only [ha, Bool.false_eq_true, if_false]
    have := (IsActualPosition_iff (s := s) hv).not.mp ha
    by_cases h1 : pos.row.toNat < s.sheet_.length
    · have h2 : rowLen s.sheet_ pos.row.toNat ≤ pos.col.toNat := by
        by_contra hn
        exact this ⟨h1, by omega⟩
      rw [slotAt_none_of_col h2]
    · rw [slotAt_none_of_row (Nat.le_of_not_lt h1)]

theorem cellAt_invalid {s : Sheet E} {pos : Position} (hv : pos.IsValid = false) :
    cellAt s pos = none := by
  unfold cellAt
  rw [GetCell_invalid s pos hv]

theorem coords_inj {p q : Position} (hp : p.IsValid = true) (hq : q.IsValid = true)
    (hr : p.row.toNat = q.row.toNat) (hc : p.col.toNat = q.col.toNat) : p = q := by
  have h1 := IsValid_iff.mp hp
  have h2 := IsValid_iff.mp hq
  cases p with
  | mk pr pc =>
    cases q with
    | mk qr qc =>
      simp only at h1 h2 hr hc
      simp only [Position.mk.injEq]
      omega

theorem GetCell_eq (s : Sheet E) (pos : Position) :
    GetCell s pos = if pos.IsValid then Except.ok (cellAt s pos) else Except.error Err.InvalidPosition := by
  by_cases hv : pos.IsValid = true
  · rw [GetCell_valid s pos hv, if_pos hv]
  · have hv2 : pos.IsValid = false := by simpa using hv
    rw [GetCell_invalid s pos hv2]
    simp [hv2]

theorem cellAt_setSlot {s : Sheet E} {pos q : Position} (p : Option (Cell E)) (n : Nat)
    (hv : pos.IsValid = true) :
    cellAt (⟨setSlot s.sheet_ pos.row.toNat pos.col.toNat p, n⟩ : Sheet E) q =
      if q = pos ∧ IsActualPosition s pos = true then p else cellAt s q := by
  by_cases hq : q.IsValid = true
  · rw [cellAt_valid hq, cellAt_valid hq, slotAt_setSlot]
    by_cases hqp : q = pos
    · subst hqp
      simp only [true_and, IsActualPosition_iff hv]
    · have : ¬ (q.row.toNat = pos.row.toNat ∧ q.col.toNat = pos.col.toNat ∧
          pos.row.toNat < s.sheet_.length ∧ pos.col.toNat < rowLen s.sheet_ pos.row.toNat) := by
        intro ⟨h1, h2, _⟩
        exact hqp (coords_inj hq hv h1 h2)
      simp only [this, if_false, hqp, false_and]
  · have hq2 : q.IsValid = false := by simpa using hq
    rw [cellAt_invalid hq2, cellAt_invalid hq2]
    have : q ≠ pos := by
      intro h
      rw [h] at hq
      exact hq hv
    simp [this]

/-- The effect of `Sheet::ClearCell` on a valid position. -/
theorem ClearCell_resets (s : Sheet E) (p : Position) (hv : p.IsValid = true) :
    ∃ s1, ClearCell s p = Res.ret () s1 ∧
      GetCell s1 p = Except.ok none ∧
      (∀ q, q ≠ p → GetCell s1 q = GetCell s q) ∧
      (cellAt s p = none → s1 = s) := by
  unfold ClearCell
  rw [if_pos hv]
  by_cases ha : IsActualPosition s p = true
  · rw [if_pos ha]
    refine ⟨_, rfl, ?_, ?_, ?_⟩
    · rw [GetCell_eq, if_pos hv, cellAt_setSlot none s.next hv]
      simp [ha]
    · intro q hq
      rw [GetCell_eq, GetCell_eq s q, cellAt_setSlot none s.next hv]
      simp [hq]
    · intro hn
      rw [cellAt_valid hv] at hn
      rw [setSlot_none_of_none hn]
  · rw [if_neg ha]
    refine ⟨_, rfl, ?_, fun _ _ => rfl, fun _ => rfl⟩
    rw [GetCell_valid s p hv]
    unfold cellAt GetCell
    simp [hv, ha]

/-! ## C7 -/

/-- C7 (counterexample): after SetCell(A1,"x") a cell is stored at A1, and after
ClearCell(A1) the handle GetCell(A1) is null: the slot does not keep its cell. -/
theorem C7_clear_destroys_cell :
    (cellAt (sheetAfter 5 [(A1, some "x")] : Sheet demo) A1).isSome = true ∧
      (ClearCell (sheetAfter 5 [(A1, some "x")] : Sheet demo) A1).thrown = none ∧
      GetCell (sheetAfter 5 [(A1, some "x"), (A1, none)] : Sheet demo) A1 = Except.ok none :=
  ⟨rfl, rfl, rfl⟩

/-- C7 (amended): on a valid position ClearCell returns normally and resets the
slot: afterwards GetCell(p) is null (the cell is destroyed together with its
reverse set), the handle of every other position is what it was, and when no
cell is stored at p the sheet is unchanged. -/
theorem C7_clear_resets_slot (s : Sheet E) (p : Position) (hv : p.IsValid = true) :
    ∃ s1, ClearCell s p = Res.ret () s1 ∧
      GetCell s1 p = Except.ok none ∧
      (∀ q, q ≠ p → GetCell s1 q = GetCell s q) ∧
      (cellAt s p = none → s1 = s) :=
  ClearCell_resets s p hv

/-- C7 (amended) at a concrete input: ClearCell(A1) on the sheet holding "x" in
A1. -/
theorem C7_clear_resets_slot_witness :
    ∃ s1, ClearCell (sheetAfter 5 [(A1, some "x")] : Sheet demo) A1 = Res.ret () s1 ∧
      GetCell s1 A1 = Except.ok none ∧
      (∀ q, q ≠ A1 → GetCell s1 q = GetCell (sheetAfter 5 [(A1, some "x")] : Sheet demo) q) ∧
      (cellAt (sheetAfter 5 [(A1, some "x")] : Sheet demo) A1 = none →
        s1 = sheetAfter 5 [(A1, some "x")]) :=
  C7_clear_resets_slot (sheetAfter 5 [(A1, some "x")] : Sheet demo) A1 (by decide)

/-! ## The storage after `IncreaseSheetSize` -/

theorem length_resize {α : Type} (xs : List α) (n : Nat) (d : α) : (resize xs n d).length = n := by
  unfold resize
  simp only [List.length_append, List.length_take, List.length_replicate]
  omega

theorem getElem?_resize_of_le {α : Type} (xs : List α) (n : Nat) (d : α) (h : xs.length ≤ n)
    (i : Nat) :
    (resize xs n d)[i]? = if i < xs.length then xs[i]? else if i < n then some d else none := by
  unfold resize
  rw [List.take_of_length_le h, List.getElem?_append]
  by_cases h1 : i < xs.length
  · simp only [h1, if_true]
  · simp only [h1, if_false]
    rw [List.getElem?_replicate]
    by_cases h2 : i < n
    · have : i - xs.length < n - xs.length := by omega
      simp only [this, h2, if_true]
    · have : ¬ i - xs.length < n - xs.length := by omega
      simp only [this, h2, if_false]

theorem pushCells_eq : ∀ (n : Nat) (row : List (Option (Cell E))) (a : Nat),
    pushCells row n a = row ++ (List.range n).map (fun i => some (newCell (a + i))) := by
  intro n
  induction n with
  | zero => intro row a; simp [pushCells]
  | succ n ih =>
    intro row a
    simp only [pushCells]
    rw [ih, List.range_succ_eq_map]
    simp only [List.append_assoc, List.singleton_append, List.map_cons, List.map_map,
      Nat.add_zero]
    congr 2
    apply List.map_congr_left
    intro i _
    simp only [Function.comp_apply]
    congr 2
    omega

theorem pushRows_zero_cols : ∀ (count : Nat) (g : List (List (Option (Cell E)))) (a : Nat),
    pushRows g 0 count a =
      (g ++ (List.range count).map (fun i => [some (newCell (a + i))]), a + count) := by
  intro count
  induction count with
  | zero => intro g a; simp [pushRows]
  | succ n ih =>
    intro g a
    simp only [pushRows]
    rw [ih, List.range_succ_eq_map]
    simp only [List.replicate_zero, Nat.zero_add, List.append_assoc, List.singleton_append,
      List.map_cons, List.map_map, Nat.add_zero, Prod.mk.injEq]
    constructor
    · congr 2
      simp only [pushCells, List.nil_append, List.cons.injEq, true_and, List.map_inj_left,
        Function.comp_apply, and_true, Option.some.injEq]
      intro i _
      congr 1
      omega
    · omega

theorem getElem?_pushBackAll : ∀ (g : List (List (Option (Cell E)))) (a r : Nat),
    (pushBackAll g a)[r]? = (g[r]?).map (fun row => row ++ [some (newCell (a + r))]) := by
  intro g
  induction g with
  | nil => intro a r; simp [pushBackAll]
  | cons row rest ih =>
    intro a r
    cases r with
    | zero => simp [pushBackAll]
    | succ r =>
      simp only [pushBackAll, List.getElem?_cons_succ]
      rw [ih]
      congr 1
      funext row1
      congr 4
      omega

theorem length_pushBackAll : ∀ (g : List (List (Option (Cell E)))) (a : Nat),
    (pushBackAll g a).length = g.length := by
  intro g
  induction g with
  | nil => intro a; simp [pushBackAll]
  | cons row rest ih => intro a; simp [pushBackAll, ih]

theorem rowLen_lt_of_lt {g : List (List (Option (Cell E)))} {r c : Nat} (h : c < rowLen g r) :
    r < g.length := by
  by_contra hn
  unfold rowLen at h
  rw [List.getElem?_eq_none (Nat.le_of_not_lt hn)] at h
  simp at h

theorem rowLen_pushBackAll (g : List (List (Option (Cell E)))) (a r : Nat) :
    rowLen (pushBackAll g a) r = if r < g.length then rowLen g r + 1 else 0 := by
  unfold rowLen
  rw [getElem?_pushBackAll]
  by_cases h : r < g.length
  · rw [List.getElem?_eq_getElem h]
    simp [h]
  · rw [List.getElem?_eq_none (Nat.le_of_not_lt h)]
    simp [h]

theorem slotAt_pushBackAll (g : List (List (Option (Cell E)))) (a r c : Nat) :
    slotAt (pushBackAll g a) r c =
      if r < g.length ∧ c = rowLen g r then some (newCell (a + r)) else slotAt g r c := by
  unfold slotAt rowLen
  rw [getElem?_pushBackAll]
  by_cases h : r < g.length
  · rw [List.getElem?_eq_getElem h]
    simp only [Option.map_some', Option.getD_some, h, true_and]
    rw [List.getElem?_append]
    by_cases hc : c < g[r].length
    · have : ¬ c = g[r].length := by omega
      simp only [hc, if_true, this, if_false]
    · simp only [hc, if_false]
      by_cases hc2 : c = g[r].length
      · subst hc2
        simp
      · have : c - g[r].length ≠ 0 := by omega
        simp only [hc2, if_false]
        rw [List.getElem?_eq_none (Nat.le_of_not_lt hc)]
        cases hk : c - g[r].length with
        | zero => exact absurd hk this
        | succ k => simp
  · rw [List.getElem?_eq_none (Nat.le_of_not_lt h)]
    simp [h]

/-! ## Extensions of the storage -/

theorem Grows_refl (s : Sheet E) : Grows s s := by
  refine ⟨Nat.le_refl _, fun _ _ _ h => h, fun _ _ _ h => Or.inl h, ?_, Nat.le_refl _,
    fun _ => Nat.le_refl _⟩
  intro r c r1 c1 x y hx _ _ hn _
  rw [hn] at hx
  cases hx

theorem Grows_trans {s s1 s2 : Sheet E} (h1 : Grows s s1) (h2 : Grows s1 s2) : Grows s s2 := by
  obtain ⟨n1, f1, o1, d1, l1, w1⟩ := h1
  obtain ⟨n2, f2, o2, d2, l2, w2⟩ := h2
  refine ⟨Nat.le_trans n1 n2, fun r c cell h => f2 r c cell (f1 r c cell h), ?_, ?_,
    Nat.le_trans l1 l2, fun r => Nat.le_trans (w1 r) (w2 r)⟩
  · intro r c cell h
    rcases o2 r c cell h with h3 | ⟨h3, h4, h5, h6⟩
    · rcases o1 r c cell h3 with h7 | ⟨h7, h8, h9, h10⟩
      · exact Or.inl h7
      · exact Or.inr ⟨h7, h8, h9, by omega⟩
    · right
      refine ⟨?_, h4, by omega, h6⟩
      cases hs : slotAt s.sheet_ r c with
      | none => rfl
      | some c0 =>
        rw [f1 r c c0 hs] at h3
        cases h3
  · intro r c r1 c1 x y hx hy hxy hnx hny
    rcases o2 r c x hx with hx1 | ⟨hx1, _, hx3, _⟩
    · rcases o2 r1 c1 y hy with hy1 | ⟨hy1, _, hy3, _⟩
      · exact d1 r c r1 c1 x y hx1 hy1 hxy hnx hny
      · rcases o1 r c x hx1 with hx4 | ⟨_, _, _, hx7⟩
        · rw [hnx] at hx4
          cases hx4
        · omega
    · rcases o2 r1 c1 y hy with hy1 | ⟨hy1, _, hy3, _⟩
      · rcases o1 r1 c1 y hy1 with hy4 | ⟨_, _, _, hy7⟩
        · rw [hny] at hy4
          cases hy4
        · omega
      · exact d2 r c r1 c1 x y hx hy hxy hx1 hy1

theorem AddrInv_of_Grows {s s1 : Sheet E} (h : Grows s s1) (hi : AddrInv s) : AddrInv s1 := by
  obtain ⟨n1, f1, o1, d1, _, _⟩ := h
  obtain ⟨b, d⟩ := hi
  constructor
  · intro r c cell hc
    rcases o1 r c cell hc with h1 | ⟨_, _, _, h4⟩
    · have := b r c cell h1
      omega
    · exact h4
  · intro r c r1 c1 x y hx hy hxy
    rcases o1 r c x hx with hx1 | ⟨hx1, _, hx3, _⟩
    · rcases o1 r1 c1 y hy with hy1 | ⟨hy1, _, hy3, _⟩
      · exact d r c r1 c1 x y hx1 hy1 hxy
      · have := b r c x hx1
        omega
    · rcases o1 r1 c1 y hy with hy1 | ⟨hy1, _, hy3, _⟩
      · have := b r1 c1 y hy1
        omega
      · exact d1 r c r1 c1 x y hx hy hxy hx1 hy1

theorem newCell_addr (a : Nat) : (newCell a : Cell E).addr = a := rfl

/-- Adding empty rows. -/
theorem Grows_resize_rows (g : List (List (Option (Cell E)))) (a n : Nat) (h : g.length ≤ n) :
    Grows (⟨g, a⟩ : Sheet E) ⟨resize g n [], a⟩ ∧
      ∀ r, rowLen (resize g n []) r = rowLen g r := by
  have hrow : ∀ r, rowLen (resize g n []) r = rowLen g r := by
    intro r
    unfold rowLen
    rw [getElem?_resize_of_le g n [] h]
    by_cases h1 : r < g.length
    · simp only [h1, if_true]
    · simp only [h1, if_false]
      rw [List.getElem?_eq_none (Nat.le_of_not_lt h1)]
      split <;> rfl
  have hslot : ∀ r c, slotAt (resize g n []) r c = slotAt g r c := by
    intro r c
    unfold slotAt
    rw [getElem?_resize_of_le g n [] h]
    by_cases h1 : r < g.length
    · simp only [h1, if_true]
    · simp only [h1, if_false]
      rw [List.getElem?_eq_none (Nat.le_of_not_lt h1)]
      by_cases h2 : r < n
      · simp [h2]
      · simp [h2]
  refine ⟨⟨Nat.le_refl _, ?_, ?_, ?_, ?_, ?_⟩, hrow⟩
  · intro r c cell hc
    simp only [hslot]
    exact hc
  · intro r c cell hc
    simp only [hslot] at hc
    exact Or.inl hc
  · intro r c r1 c1 x y hx _ _ hn _
    simp only [hslot] at hx
    simp only at hn
    rw [hn] at hx
    cases hx
  · simp only [length_resize]
    exact h
  · intro r
    simp only [hrow]
    exact Nat.le_refl _

/-- Growing one row by null pointers. -/
theorem Grows_resize_row (g : List (List (Option (Cell E)))) (a r0 m : Nat)
    (h : rowLen g r0 ≤ m) :
    Grows (⟨g, a⟩ : Sheet E) ⟨g.modify (fun row => resize row m none) r0, a⟩ ∧
      (g.modify (fun row => resize row m none) r0).length = g.length ∧
      ∀ r, rowLen (g.modify (fun row => resize row m none) r0) r =
        if r = r0 ∧ r < g.length then m else rowLen g r := by
  have hrow : ∀ r, rowLen (g.modify (fun row => resize row m none) r0) r =
      if r = r0 ∧ r < g.length then m else rowLen g r := by
    intro r
    unfold rowLen
    rw [List.getElem?_modify]
    by_cases h1 : r < g.length
    · rw [List.getElem?_eq_getElem h1]
      by_cases h2 : r = r0
      · subst h2
        simp [h1, length_resize]
      · have h3 : ¬ r0 = r := fun e => h2 e.symm
        simp [h2, h3]
    · rw [List.getElem?_eq_none (Nat.le_of_not_lt h1)]
      simp [h1]
  have hslot : ∀ r c, slotAt (g.modify (fun row => resize row m none) r0) r c = slotAt g r c := by
    intro r c
    unfold slotAt
    rw [List.getElem?_modify]
    by_cases h1 : r < g.length
    · rw [List.getElem?_eq_getElem h1]
      by_cases h2 : r = r0
      · subst h2
        have hl : g[r].length ≤ m := by
          unfold rowLen at h
          rw [List.getElem?_eq_getElem h1] at h
          simpa using h
        simp only [Option.map_eq_map, Option.map_some', if_true]
        rw [getElem?_resize_of_le _ _ _ hl]
        by_cases h3 : c < g[r].length
        · simp only [h3, if_true]
        · simp only [h3, if_false]
          rw [List.getElem?_eq_none (Nat.le_of_not_lt h3)]
          by_cases h4 : c < m
          · simp [h4]
          · simp [h4]
      · have h3 : ¬ r0 = r := fun e => h2 e.symm
        simp [h3]
    · rw [List.getElem?_eq_none (Nat.le_of_not_lt h1)]
      simp
  refine ⟨⟨Nat.le_refl _, ?_, ?_, ?_, ?_, ?_⟩, by simp, hrow⟩
  · intro r c cell hc
    simp only [hslot]
    exact hc
  · intro r c cell hc
    simp only [hslot] at hc
    exact Or.inl hc
  · intro r c r1 c1 x y hx _ _ hn _
    simp only [hslot] at hx
    simp only at hn
    rw [hn] at hx
    cases hx
  · simp
  · intro r
    simp only [hrow]
    split
    · rename_i h1
      rw [h1.1]
      exact h
    · exact Nat.le_refl _

/-- Appending rows of one new cell each. -/
theorem Grows_push_rows (g : List (List (Option (Cell E)))) (a count : Nat) :
    Grows (⟨g, a⟩ : Sheet E)
        ⟨g ++ (List.range count).map (fun i => [some (newCell (a + i))]), a + count⟩ ∧
      ∀ r, r < g.length →
        rowLen (g ++ (List.range count).map (fun i => [some (newCell (a + i))])) r = rowLen g r := by
  have hrow : ∀ r, r < g.length →
      rowLen (g ++ (List.range count).map (fun i => [some (newCell (E := E) (a + i))])) r
        = rowLen g r := by
    intro r hr
    unfold rowLen
    rw [List.getElem?_append_left hr]
  have hslot : ∀ r c,
      slotAt (g ++ (List.range count).map (fun i => [some (newCell (E := E) (a + i))])) r c =
        if r < g.length then slotAt g r c
        else if r - g.length < count ∧ c = 0 then some (newCell (a + (r - g.length)))
        else none := by
    intro r c
    unfold slotAt
    by_cases h1 : r < g.length
    · rw [List.getElem?_append_left h1]
      simp only [h1, if_true]
    · rw [List.getElem?_append_right (Nat.le_of_not_lt h1)]
      simp only [h1, if_false]
      by_cases h2 : r - g.length < count
      · rw [List.getElem?_map, List.getElem?_range h2]
        simp only [Option.map_some', h2, true_and]
        cases c with
        | zero => simp
        | succ c => simp
      · rw [List.getElem?_eq_none (by simpa using Nat.le_of_not_lt h2)]
        simp [h2]
  have hold : ∀ r c, g.length ≤ r → slotAt g r c = none := fun r c h => slotAt_none_of_row h
  refine ⟨⟨Nat.le_add_right _ _, ?_, ?_, ?_, ?_, ?_⟩, hrow⟩
  · intro r c cell hc
    have hr := (slotAt_some_lt hc).1
    simp only [hslot, hr, if_true]
    exact hc
  · intro r c cell hc
    simp only [hslot] at hc
    by_cases h1 : r < g.length
    · simp only [h1, if_true] at hc
      exact Or.inl hc
    · simp only [h1, if_false] at hc
      right
      split at hc
      · rename_i h2
        cases hc
        refine ⟨hold r c (Nat.le_of_not_lt h1), rfl, ?_, ?_⟩
        · simp only [newCell_addr]
          omega
        · simp only [newCell_addr]
          omega
      · cases hc
  · intro r c r1 c1 x y hx hy hxy hnx hny
    simp only [hslot] at hx hy
    simp only at hnx hny
    by_cases h1 : r < g.length
    · simp only [h1, if_true] at hx
      rw [hnx] at hx
      cases hx
    · by_cases h2 : r1 < g.length
      · simp only [h2, if_true] at hy
        rw [hny] at hy
        cases hy
      · simp only [h1, h2, if_false] at hx hy
        split at hx
        · split at hy
          · rename_i h3 h4
            cases hx
            cases hy
            simp only [newCell_addr] at hxy
            omega
          · cases hy
        · cases hx
  · simp
  · intro r
    by_cases h1 : r < g.length
    · rw [hrow r h1]
    · have : rowLen g r = 0 := by
        unfold rowLen
        rw [List.getElem?_eq_none (Nat.le_of_not_lt h1)]
        rfl
      rw [this]
      exact Nat.zero_le _

/-- Appending one new cell to every row. -/
theorem Grows_push_back_all (g : List (List (Option (Cell E)))) (a : Nat) :
    Grows (⟨g, a⟩ : Sheet E) ⟨pushBackAll g a, a + g.length⟩ := by
  have hold : ∀ r, slotAt g r (rowLen g r) = none := fun r => slotAt_none_of_col (Nat.le_refl _)
  refine ⟨Nat.le_add_right _ _, ?_, ?_, ?_, ?_, ?_⟩
  · intro r c cell hc
    have hcl := (slotAt_some_lt hc).2
    have : ¬ (r < g.length ∧ c = rowLen g r) := by
      intro ⟨_, h2⟩
      simp only at hcl
      omega
    simp only [slotAt_pushBackAll, this, if_false]
    exact hc
  · intro r c cell hc
    simp only [slotAt_pushBackAll] at hc
    split at hc
    · rename_i h1
      cases hc
      right
      refine ⟨?_, rfl, ?_, ?_⟩
      · simp only
        rw [h1.2]
        exact hold r
      · simp only [newCell_addr]
        omega
      · simp only [newCell_addr]
        omega
    · exact Or.inl hc
  · intro r c r1 c1 x y hx hy hxy hnx hny
    simp only [slotAt_pushBackAll] at hx hy
    simp only at hnx hny
    split at hx
    · split at hy
      · rename_i h1 h2
        cases hx
        cases hy
        simp only [newCell_addr] at hxy
        have : r = r1 := by omega
        subst this
        exact ⟨rfl, by rw [h1.2, h2.2]⟩
      · rw [hny] at hy
        cases hy
    · rw [hnx] at hx
      cases hx
  · simp only [length_pushBackAll]
    exact Nat.le_refl _
  · intro r
    simp only [rowLen_pushBackAll]
    split
    · omega
    · rename_i h1
      have : rowLen g r = 0 := by
        unfold rowLen
        rw [List.getElem?_eq_none (Nat.le_of_not_lt h1)]
        rfl
      omega

/-- Putting a new cell into a null slot. -/
theorem Grows_set_new (g : List (List (Option (Cell E)))) (a r0 c0 : Nat)
    (h : slotAt g r0 c0 = none) :
    Grows (⟨g, a⟩ : Sheet E) ⟨setSlot g r0 c0 (some (newCell a)), a + 1⟩ := by
  refine ⟨Nat.le_add_right _ _, ?_, ?_, ?_, ?_, ?_⟩
  · intro r c cell hc
    simp only [slotAt_setSlot]
    split
    · rename_i h1
      simp only at hc
      rw [h1.1, h1.2.1, h] at hc
      cases hc
    · exact hc
  · intro r c cell hc
    simp only [slotAt_setSlot] at hc
    split at hc
    · rename_i h1
      cases hc
      right
      refine ⟨?_, rfl, ?_, ?_⟩
      · simp only
        rw [h1.1, h1.2.1]
        exact h
      · simp only [newCell_addr]
        exact Nat.le_refl _
      · simp only [newCell_addr]
        omega
    · exact Or.inl hc
  · intro r c r1 c1 x y hx hy hxy hnx hny
    simp only [slotAt_setSlot] at hx hy
    simp only at hnx hny
    split at hx
    · split at hy
      · rename_i h1 h2
        exact ⟨by rw [h1.1, h2.1], by rw [h1.2.1, h2.2.1]⟩
      · rw [hny] at hy
        cases hy
    · rw [hnx] at hx
      cases hx
  · simp only [length_setSlot]
    exact Nat.le_refl _
  · intro r
    simp only [rowLen_setSlot]
    exact Nat.le_refl _

theorem rowLen_of_le {g : List (List (Option (Cell E)))} {r : Nat} (h : g.length ≤ r) :
    rowLen g r = 0 := by
  unfold rowLen
  rw [List.getElem?_eq_none h]
  rfl

theorem growRows_spec (s : Sheet E) (pos : Position) (hv : pos.IsValid = true) :
    Grows s (growRows s pos) ∧ pos.row.toNat < (growRows s pos).sheet_.length := by
  have hp := IsValid_iff.mp hv
  unfold growRows
  by_cases h1 : (s.sheet_.length : Int) < pos.row + 1
  · rw [if_pos h1]
    have hle : s.sheet_.length ≤ (pos.row + 1).toNat := by omega
    obtain ⟨g1, r1⟩ := Grows_resize_rows s.sheet_ s.next (pos.row + 1).toNat hle
    have hcols : rowLen (resize s.sheet_ (pos.row + 1).toNat []) pos.row.toNat = 0 := by
      rw [r1]
      exact rowLen_of_le (by omega)
    rw [hcols, pushRows_zero_cols]
    obtain ⟨g2, _⟩ := Grows_push_rows (E := E) (resize s.sheet_ (pos.row + 1).toNat []) s.next
      (pos.row + 1 - (s.sheet_.length : Int)).toNat
    refine ⟨Grows_trans g1 g2, ?_⟩
    simp only [List.length_append, length_resize]
    omega
  · rw [if_neg h1]
    exact ⟨Grows_refl s, by omega⟩

theorem growCols_spec (s : Sheet E) (pos : Position) (hv : pos.IsValid = true)
    (hr : pos.row.toNat < s.sheet_.length) :
    Grows s (growCols s pos) ∧ pos.row.toNat < (growCols s pos).sheet_.length ∧
      pos.col.toNat < rowLen (growCols s pos).sheet_ pos.row.toNat := by
  have hp := IsValid_iff.mp hv
  unfold growCols
  by_cases h1 : (rowLen s.sheet_ pos.row.toNat : Int) < pos.col + 1
  · rw [if_pos h1]
    have hle : rowLen s.sheet_ pos.row.toNat ≤ (pos.col + 1).toNat := by omega
    obtain ⟨g1, l1, r1⟩ := Grows_resize_row s.sheet_ s.next pos.row.toNat (pos.col + 1).toNat hle
    have g2 := Grows_push_back_all (E := E)
      (s.sheet_.modify (fun row => resize row (pos.col + 1).toNat none) pos.row.toNat) s.next
    refine ⟨Grows_trans g1 g2, ?_, ?_⟩
    · simp only [length_pushBackAll, l1]
      exact hr
    · simp only [rowLen_pushBackAll, l1, hr, if_true, r1, true_and]
      omega
  · rw [if_neg h1]
    exact ⟨Grows_refl s, hr, by omega⟩

theorem IncreaseSheetSize_spec (s : Sheet E) (pos : Position) (hv : pos.IsValid = true) :
    Grows s (IncreaseSheetSize s pos) ∧
      pos.row.toNat < (IncreaseSheetSize s pos).sheet_.length ∧
      pos.col.toNat < rowLen (IncreaseSheetSize s pos).sheet_ pos.row.toNat := by
  obtain ⟨g1, h1⟩ := growRows_spec s pos hv
  obtain ⟨g2, h2, h3⟩ := growCols_spec (growRows s pos) pos hv h1
  exact ⟨Grows_trans g1 g2, h2, h3⟩

theorem prepare_spec (s : Sheet E) (pos : Position) (hv : pos.IsValid = true) :
    Grows s (prepare s pos) ∧
      (∃ c, cellAt (prepare s pos) pos = some c ∧
        (slotAt (IncreaseSheetSize s pos).sheet_ pos.row.toNat pos.col.toNat = some c ∨
          (slotAt (IncreaseSheetSize s pos).sheet_ pos.row.toNat pos.col.toNat = none ∧
            c = newCell (IncreaseSheetSize s pos).next))) := by
  obtain ⟨g1, h1, h2⟩ := IncreaseSheetSize_spec s pos hv
  unfold prepare
  cases hs : slotAt (IncreaseSheetSize s pos).sheet_ pos.row.toNat pos.col.toNat with
  | some c =>
    simp only
    refine ⟨g1, c, ?_, Or.inl rfl⟩
    rw [cellAt_valid hv, hs]
  | none =>
    simp only
    refine ⟨Grows_trans g1 (Grows_set_new _ _ _ _ hs), _, ?_, Or.inr ⟨trivial, rfl⟩⟩
    rw [cellAt_valid hv, slotAt_setSlot]
    simp [h1, h2]

/-! ## Calls that touch only caches and reverse sets -/

theorem SameShape_refl (s : Sheet E) : SameShape s s :=
  ⟨rfl, rfl, fun _ => rfl, fun _ _ => rfl⟩

theorem SameShape_trans {s s1 s2 : Sheet E} (h1 : SameShape s s1) (h2 : SameShape s1 s2) :
    SameShape s s2 :=
  ⟨h2.1.trans h1.1, h2.2.1.trans h1.2.1, fun r => (h2.2.2.1 r).trans (h1.2.2.1 r),
    fun r c => (h2.2.2.2 r c).trans (h1.2.2.2 r c)⟩

theorem SameShape_symm {s s1 : Sheet E} (h : SameShape s s1) : SameShape s1 s :=
  ⟨h.1.symm, h.2.1.symm, fun r => (h.2.2.1 r).symm, fun r c => (h.2.2.2 r c).symm⟩

theorem SameShape_modifyCell (s : Sheet E) (pos : Position) (f : Cell E → Cell E)
    (hf : ∀ c, (f c).addr = c.addr ∧ (f c).impl_ = c.impl_) :
    SameShape s (modifyCell s pos f) := by
  refine ⟨rfl, length_modifyGrid _ _ _ _, fun r => rowLen_modifyGrid _ _ _ _ r, ?_⟩
  intro r c
  simp only [modifyCell, slotAt_modifyGrid]
  split
  · rename_i h
    rw [h.1, h.2]
    cases slotAt s.sheet_ pos.row.toNat pos.col.toNat with
    | none => rfl
    | some x => simp [hf x]
  · rfl

theorem SameShape_setCache (s : Sheet E) (pos : Position) (v : Option (Value E.Num)) :
    SameShape s (setCache s pos v) :=
  SameShape_modifyCell s pos _ (fun _ => ⟨rfl, rfl⟩)

theorem SameShape_setImpl {s s1 : Sheet E} (h : SameShape s s1) (pos : Position) (i : Impl E) :
    SameShape (setImpl s pos i) (setImpl s1 pos i) := by
  refine ⟨h.1, ?_, ?_, ?_⟩
  · simp only [setImpl, modifyCell, length_modifyGrid]
    exact h.2.1
  · intro r
    simp only [setImpl, modifyCell, rowLen_modifyGrid]
    exact h.2.2.1 r
  · intro r c
    simp only [setImpl, modifyCell, slotAt_modifyGrid]
    split
    · have := h.2.2.2 pos.row.toNat pos.col.toNat
      cases h1 : slotAt s1.sheet_ pos.row.toNat pos.col.toNat with
      | none =>
        cases h2 : slotAt s.sheet_ pos.row.toNat pos.col.toNat with
        | none => rfl
        | some y => rw [h1, h2] at this; simp at this
      | some x =>
        cases h2 : slotAt s.sheet_ pos.row.toNat pos.col.toNat with
        | none => rw [h1, h2] at this; simp at this
        | some y =>
          rw [h1, h2] at this
          simp only [Option.map_some', Option.some.injEq, Prod.mk.injEq] at this
          simp [this.1]
    · exact h.2.2.2 r c

theorem Keeps_ret {α : Type} {s s1 : Sheet E} (a : α) (h : SameShape s s1) :
    Keeps s (Res.ret a s1) := by
  intro s2 h2
  cases h2
  exact h

theorem Keeps_throw {α : Type} {s s1 : Sheet E} (e : Err) (h : SameShape s s1) :
    Keeps s (Res.throw (α := α) e s1) := by
  intro s2 h2
  cases h2
  exact h

theorem Keeps_oof {α : Type} (s : Sheet E) : Keeps s (Res.oof : Res (Sheet E) α) := by
  intro s2 h2
  cases h2

theorem Keeps_of_shape {α : Type} {s s1 : Sheet E} {r : Res (Sheet E) α}
    (h : SameShape s s1) (hr : Keeps s1 r) : Keeps s r :=
  fun s2 h2 => SameShape_trans h (hr s2 h2)

theorem Delete_keeps (self : Nat) : ∀ (refs : List Position) (s : Sheet E),
    Keeps s (DeleteInverseDependenciesAndCache self refs s) := by
  intro refs
  induction refs with
  | nil => intro s; exact Keeps_ret _ (SameShape_refl s)
  | cons q rest ih =>
    intro s
    simp only [DeleteInverseDependenciesAndCache]
    split
    · exact Keeps_throw _ (SameShape_refl s)
    · exact ih s
    · refine Keeps_of_shape ?_ (ih _)
      exact SameShape_modifyCell s q _ (fun _ => ⟨rfl, rfl⟩)

theorem Add_keeps (self : Nat) : ∀ (refs : List Position) (s : Sheet E),
    Keeps s (AddInverseDependencies self refs s) := by
  intro refs
  induction refs with
  | nil => intro s; exact Keeps_ret _ (SameShape_refl s)
  | cons q rest ih =>
    intro s
    simp only [AddInverseDependencies]
    split
    · exact Keeps_throw _ (SameShape_refl s)
    · exact ih s
    · refine Keeps_of_shape ?_ (ih _)
      exact SameShape_modifyCell s q _ (fun _ => ⟨rfl, rfl⟩)

theorem runProg_keepsR {R : Sheet E → Sheet E → Prop} (hrefl : ∀ s, R s s)
    (htrans : ∀ s s1 s2, R s s1 → R s1 s2 → R s s2)
    {look : Position → Sheet E → Res (Sheet E) (LookupRet E.Num)}
    (hlook : ∀ p s, KeepsR R s (look p s)) (prog : Prog E.Num) :
    ∀ s : Sheet E, KeepsR R s (runProg look prog s) := by
  induction prog with
  | done v =>
    intro s s1 h
    cases h
    exact hrefl s
  | ask p k ih =>
    intro s
    simp only [runProg]
    have hl := hlook p s
    split
    · rename_i v s1 h1
      rw [h1] at hl
      intro s2 h2
      exact htrans _ _ _ (hl s1 rfl) (ih v s1 s2 h2)
    · rename_i e s1 h1
      rw [h1] at hl
      intro s2 h2
      cases h2
      exact hl _ rfl
    · rename_i e s1 h1
      rw [h1] at hl
      intro s2 h2
      cases h2
      exact hl _ rfl
    · intro s2 h2
      cases h2

theorem CellGetValueWith_keepsR {R : Sheet E → Sheet E → Prop} (hrefl : ∀ s, R s s)
    (htrans : ∀ s s1 s2, R s s1 → R s1 s2 → R s s2)
    (hcache : ∀ s pos v, R s (setCache s pos v))
    {ev : FormulaAST E.Num → Sheet E → Res (Sheet E) (FValue E.Num)}
    (hev : ∀ f s, KeepsR R s (ev f s)) (pos : Position) (c : Cell E) (s : Sheet E) :
    KeepsR R s (CellGetValueWith ev pos c s) := by
  unfold CellGetValueWith
  split
  · intro s2 h2
    cases h2
    exact hrefl s
  · split
    · intro s2 h2
      cases h2
      exact hcache _ _ _
    · intro s2 h2
      cases h2
      exact hcache _ _ _
    · rename_i f _
      have he := hev f s
      split
      · rename_i v s1 h1
        rw [h1] at he
        intro s2 h2
        cases h2
        exact htrans _ _ _ (he s1 rfl) (hcache _ _ _)
      · rename_i e s1 h1
        rw [h1] at he
        intro s2 h2
        cases h2
        exact he _ rfl
      · intro s2 h2
        cases h2

theorem lookupCell_keepsR {R : Sheet E → Sheet E → Prop} (hrefl : ∀ s, R s s)
    {gv : Position → Cell E → Sheet E → Res (Sheet E) (Value E.Num)}
    (hgv : ∀ p c s, KeepsR R s (gv p c s)) (pos : Position) (s : Sheet E) :
    KeepsR R s (lookupCell gv pos s) := by
  unfold lookupCell
  split
  · split
    · intro s2 h2
      cases h2
      exact hrefl s
    · intro s2 h2
      cases h2
      exact hrefl s
    · rename_i c hc
      have hg := hgv pos c s
      split
      · rename_i t s1 h1
        rw [h1] at hg
        intro s2 h2
        cases h2
        exact hg _ rfl
      · rename_i t s1 h1
        rw [h1] at hg
        intro s2 h2
        cases h2
        exact hg _ rfl
      · rename_i t s1 h1
        rw [h1] at hg
        intro s2 h2
        cases h2
        exact hg _ rfl
      · rename_i t s1 h1
        rw [h1] at hg
        intro s2 h2
        cases h2
        exact hg _ rfl
      · intro s2 h2
        cases h2
  · split
    · intro s2 h2
      cases h2
      exact hrefl s
    · intro s2 h2
      cases h2
      exact hrefl s

/-- Evaluation changes the sheet only by assignments to caches: any relation
between sheets that is reflexive, transitive and holds across an assignment to a
cache holds between the sheet before and the sheet after an evaluation. -/
theorem Evaluate_keepsR {R : Sheet E → Sheet E → Prop} (hrefl : ∀ s, R s s)
    (htrans : ∀ s s1 s2, R s s1 → R s1 s2 → R s s2)
    (hcache : ∀ s pos v, R s (setCache s pos v)) :
    ∀ (fuel : Nat) (f : FormulaAST E.Num) (s : Sheet E), KeepsR R s (Evaluate fuel f s) := by
  intro fuel
  induction fuel with
  | zero =>
    intro f s s2 h2
    cases h2
  | succ n ih =>
    intro f s
    simp only [Evaluate]
    exact runProg_keepsR hrefl htrans (fun p s1 => lookupCell_keepsR hrefl
      (fun p2 c2 s2 => CellGetValueWith_keepsR hrefl htrans hcache ih p2 c2 s2) p s1) f.exec s

theorem Evaluate_keeps (fuel : Nat) (f : FormulaAST E.Num) (s : Sheet E) :
    Keeps s (Evaluate fuel f s) :=
  Evaluate_keepsR SameShape_refl (fun _ _ _ h1 h2 => SameShape_trans h1 h2)
    SameShape_setCache fuel f s

/-- The sheet `Cell::Set` leaves behind, whether it returns or throws: the sheet
it was called on up to caches and reverse sets, possibly with the
implementation of the cell replaced by the text, the empty or the checked
formula implementation. -/
theorem CellSet_sheet {fuel : Nat} {s s1 : Sheet E} {pos : Position} {self : Cell E}
    {text : String} (h : (CellSet fuel s pos self text).sheet = some s1) :
    SameShape s s1 ∨
    (isFormulaText text = false ∧
      ∃ i, (i = Impl.TextImpl text ∨ i = Impl.EmptyImpl) ∧ SameShape (setImpl s pos i) s1) ∨
    (∃ temp vis, isFormulaText text = true ∧ E.ParseFormulaAST (substr1 text) = some temp ∧
      CheckCircle s self.addr fuel temp = Dfs.no vis ∧
      SameShape (setImpl s pos (Impl.FormulaImpl temp)) s1) := by
  unfold CellSet at h
  by_cases hf : isFormulaText text = true
  · rw [if_pos hf] at h
    cases hp : E.ParseFormulaAST (substr1 text) with
    | none =>
      rw [hp] at h
      cases h
      exact Or.inl (SameShape_refl _)
    | some temp =>
      rw [hp] at h
      simp only at h
      cases hc : CheckCircle s self.addr fuel temp with
      | yes => rw [hc] at h; cases h; exact Or.inl (SameShape_refl _)
      | throw e => rw [hc] at h; cases h; exact Or.inl (SameShape_refl _)
      | oof => rw [hc] at h; cases h
      | no vis =>
        rw [hc] at h
        simp only at h
        have hd := Delete_keeps self.addr self.GetReferencedCells s
        cases hdel : DeleteInverseDependenciesAndCache self.addr self.GetReferencedCells s with
        | oof => rw [hdel] at h; cases h
        | throw e sd =>
          rw [hdel] at h hd
          cases h
          exact Or.inl (hd _ rfl)
        | ret u sd =>
          rw [hdel] at h hd
          simp only at h
          have hsd : SameShape s sd := hd _ rfl
          have h1 := SameShape_setImpl hsd pos (Impl.FormulaImpl temp)
          have he := Evaluate_keeps fuel temp (setImpl sd pos (Impl.FormulaImpl temp))
          right
          right
          refine ⟨temp, vis, hf, rfl, hc, ?_⟩
          cases hev : Evaluate fuel temp (setImpl sd pos (Impl.FormulaImpl temp)) with
          | oof => rw [hev] at h; cases h
          | throw e se =>
            rw [hev] at h he
            cases h
            exact SameShape_trans h1 (he _ rfl)
          | ret v se =>
            rw [hev] at h he
            simp only at h
            have h2 : SameShape (setImpl s pos (Impl.FormulaImpl temp))
                (setCache se pos (some v.toValue)) :=
              SameShape_trans (SameShape_trans h1 (he _ rfl)) (SameShape_setCache _ _ _)
            exact SameShape_trans h2 (Add_keeps _ _ _ s1 h)
  · have hf2 : isFormulaText text = false := by simpa using hf
    rw [if_neg hf] at h
    right
    left
    refine ⟨hf2, ?_⟩
    split at h
    · cases h
      exact ⟨_, Or.inl rfl, SameShape_setCache _ _ _⟩
    · cases h
      exact ⟨_, Or.inr rfl, SameShape_refl _⟩

/-! ## C4 -/

theorem Grows_cellAt {s s1 : Sheet E} (h : Grows s s1) {q : Position} {c : Cell E}
    (hc : cellAt s q = some c) : cellAt s1 q = some c := by
  have hv := (cellAt_some hc).1
  rw [cellAt_valid hv] at hc ⊢
  exact h.2.1 _ _ _ hc

theorem SetCell_eq_CellSet (fuel : Nat) (s : Sheet E) (p : Position) (text : String)
    (hv : p.IsValid = true) :
    ∃ c, cellAt (prepare s p) p = some c ∧
      SetCell fuel s p text = CellSet fuel (prepare s p) p c text := by
  obtain ⟨_, c, hc, hor⟩ := prepare_spec s p hv
  refine ⟨c, hc, ?_⟩
  unfold SetCell
  rw [if_pos hv]
  rcases hor with h | ⟨h, hn⟩
  · rw [h]
  · rw [h, hn]

/-- C4 (counterexample): on a fresh sheet SetCell(A1,"=A1") is rejected as a
cycle, GetCell(A1) and GetCell(B1) were null before the call, and after it both
positions hold a cell. -/
theorem C4_rejected_call_changes_sheet :
    (SetCell 5 (emptySheet : Sheet demo) A1 "=A1").thrown = some Err.CircularDependency ∧
      GetCell (emptySheet : Sheet demo) A1 = Except.ok none ∧
      GetCell (emptySheet : Sheet demo) B1 = Except.ok none ∧
      (cellAt (sheetAfter 5 [(A1, some "=A1")] : Sheet demo) A1).isSome = true ∧
      (cellAt (sheetAfter 5 [(A1, some "=A1")] : Sheet demo) B1).isSome = true :=
  ⟨rfl, rfl, rfl, rfl, rfl⟩

/-- C4 (amended): when SetCell(p, text) on a valid position is rejected with
CircularDependency or a formula syntax error, the sheet left behind is the one
made by the storage growth for p and the creation of an Empty cell at p: every
cell stored before the call is still in its slot with its text, cache and
reverse set, p holds a cell, and when p already held a cell the sheet is exactly
the sheet before the call. -/
theorem C4_rejected_call_keeps_stored_cells (fuel : Nat) (s : Sheet E) (p : Position)
    (text : String) (hv : p.IsValid = true)
    (hrej : (SetCell fuel s p text).thrown = some Err.CircularDependency ∨
      (SetCell fuel s p text).thrown = some Err.FormulaException) :
    (SetCell fuel s p text).sheet = some (prepare s p) ∧
      (∀ q c, cellAt s q = some c → cellAt (prepare s p) q = some c) ∧
      (cellAt (prepare s p) p).isSome = true ∧
      ((cellAt s p).isSome = true → prepare s p = s) := by
  obtain ⟨c, hc, hset⟩ := SetCell_eq_CellSet fuel s p text hv
  obtain ⟨hg, _⟩ := prepare_spec s p hv
  refine ⟨?_, fun q c0 h0 => Grows_cellAt hg h0, by rw [hc]; rfl, ?_⟩
  · rw [hset] at hrej ⊢
    cases hr : CellSet fuel (prepare s p) p c text with
    | ret a s1 => rw [hr] at hrej; simp [Res.thrown] at hrej
    | oof => rw [hr] at hrej; simp [Res.thrown] at hrej
    | throw e s1 =>
      rw [hr] at hrej
      simp only [Res.thrown, Option.some.injEq] at hrej
      rw [CellSet_reject hr hrej]
      rfl
  · intro h
    obtain ⟨c0, h0⟩ := Option.isSome_iff_exists.mp h
    exact prepare_of_cell h0

/-- C4 (amended) at a concrete input: the rejected SetCell(A2,"=A2") on the sheet
holding "1" in A1. -/
theorem C4_rejected_call_witness :
    (SetCell 5 (sheetAfter 5 [(A1, some "1")] : Sheet demo) A2 "=A2").thrown
        = some Err.CircularDependency ∧
      (SetCell 5 (sheetAfter 5 [(A1, some "1")] : Sheet demo) A2 "=A2").sheet
        = some (prepare (sheetAfter 5 [(A1, some "1")]) A2) :=
  ⟨rfl, (C4_rejected_call_keeps_stored_cells 5 (sheetAfter 5 [(A1, some "1")] : Sheet demo) A2
    "=A2" (by decide) (Or.inl rfl)).1⟩

/-! ## C8 -/

theorem SameShape_cellAt_isSome {s s1 : Sheet E} (h : SameShape s s1) (q : Position) :
    (cellAt s1 q).isSome = (cellAt s q).isSome := by
  by_cases hv : q.IsValid = true
  · rw [cellAt_valid hv, cellAt_valid hv]
    have := h.2.2.2 q.row.toNat q.col.toNat
    cases h1 : slotAt s1.sheet_ q.row.toNat q.col.toNat <;>
      cases h2 : slotAt s.sheet_ q.row.toNat q.col.toNat <;>
      rw [h1, h2] at this <;> simp at this ⊢
  · have hv2 : q.IsValid = false := by simpa using hv
    rw [cellAt_invalid hv2, cellAt_invalid hv2]

theorem cellAt_modifyCell (s : Sheet E) (pos q : Position) (f : Cell E → Cell E)
    (hv : pos.IsValid = true) :
    cellAt (modifyCell s pos f) q = if q = pos then (cellAt s pos).map f else cellAt s q := by
  by_cases hq : q.IsValid = true
  · rw [cellAt_valid hq, cellAt_valid hq]
    simp only [modifyCell, slotAt_modifyGrid]
    by_cases hqp : q = pos
    · subst hqp
      simp [cellAt_valid hq]
    · have : ¬ (q.row.toNat = pos.row.toNat ∧ q.col.toNat = pos.col.toNat) :=
        fun ⟨h1, h2⟩ => hqp (coords_inj hq hv h1 h2)
      simp only [this, hqp, if_false]
  · have hq2 : q.IsValid = false := by simpa using hq
    rw [cellAt_invalid hq2, cellAt_invalid hq2]
    have : q ≠ pos := by
      intro h
      rw [h] at hq
      exact hq hv
    simp [this]

theorem cellAt_setImpl_isSome (s : Sheet E) (pos q : Position) (i : Impl E)
    (hv : pos.IsValid = true) :
    (cellAt (setImpl s pos i) q).isSome = (cellAt s q).isSome := by
  unfold setImpl
  rw [cellAt_modifyCell s pos q _ hv]
  split
  · rename_i h
    rw [h]
    cases cellAt s pos <;> rfl
  · rfl

theorem setInsert_idem (a : Nat) (l : List Nat) : setInsert a (setInsert a l) = setInsert a l := by
  unfold setInsert
  exact List.insert_of_mem (List.mem_insert_self a l)

theorem setErase_idem (a : Nat) (l : List Nat) : setErase a (setErase a l) = setErase a l := by
  unfold setErase
  rw [List.filter_filter]
  simp

theorem mem_setInsert {a b : Nat} {l : List Nat} : b ∈ setInsert a l ↔ b = a ∨ b ∈ l := by
  unfold setInsert
  exact List.mem_insert_iff

theorem mem_setErase {a b : Nat} {l : List Nat} : b ∈ setErase a l ↔ b ∈ l ∧ b ≠ a := by
  unfold setErase
  simp [List.mem_filter]

theorem GetCell_ok_valid {s : Sheet E} {pos : Position} {p : Option (Cell E)}
    (h : GetCell s pos = Except.ok p) : pos.IsValid = true ∧ cellAt s pos = p := by
  by_cases hv : pos.IsValid = true
  · rw [GetCell_valid s pos hv] at h
    cases h
    exact ⟨hv, rfl⟩
  · have hv2 : pos.IsValid = false := by simpa using hv
    rw [GetCell_invalid s pos hv2] at h
    cases h

/-- A loop that applies an idempotent update `f` to the cell of every listed
position updates exactly the cells at the listed positions, once. -/
theorem foldCells_spec (f : Cell E → Cell E) (hf : ∀ c, f (f c) = f c)
    (loop : List Position → Sheet E → Res (Sheet E) Unit)
    (hnil : ∀ s, loop [] s = Res.ret () s)
    (hcons : ∀ q rest s, loop (q :: rest) s =
      match GetCell s q with
      | Except.error e => Res.throw e s
      | Except.ok none => loop rest s
      | Except.ok (some _) => loop rest (modifyCell s q f)) :
    ∀ (refs : List Position) (s s1 : Sheet E), loop refs s = Res.ret () s1 →
      (∀ x ∈ refs, x.IsValid = true) ∧
      ∀ q, cellAt s1 q = (cellAt s q).map (fun c => if q ∈ refs then f c else c) := by
  intro refs
  induction refs with
  | nil =>
    intro s s1 h
    rw [hnil] at h
    cases h
    refine ⟨by simp, fun q => ?_⟩
    cases cellAt s q <;> simp
  | cons q0 rest ih =>
    intro s s1 h
    rw [hcons] at h
    cases hg : GetCell s q0 with
    | error e => rw [hg] at h; cases h
    | ok p =>
      obtain ⟨hv, hp⟩ := GetCell_ok_valid hg
      rw [hg] at h
      cases p with
      | none =>
        simp only at h
        obtain ⟨h1, h2⟩ := ih s s1 h
        refine ⟨?_, fun q => ?_⟩
        · intro x hx
          rcases List.mem_cons.mp hx with hx | hx
          · rw [hx]; exact hv
          · exact h1 x hx
        · rw [h2 q]
          by_cases hq : q = q0
          · subst hq
            rw [hp]
            rfl
          · cases cellAt s q with
            | none => rfl
            | some c => simp [hq]
      | some c0 =>
        simp only at h
        obtain ⟨h1, h2⟩ := ih _ s1 h
        refine ⟨?_, fun q => ?_⟩
        · intro x hx
          rcases List.mem_cons.mp hx with hx | hx
          · rw [hx]; exact hv
          · exact h1 x hx
        · rw [h2 q, cellAt_modifyCell s q0 q f hv]
          by_cases hq : q = q0
          · subst hq
            rw [hp]
            simp only [if_true, Option.map_some', List.mem_cons, true_or]
            split
            · rw [hf]
            · rfl
          · simp only [hq, if_false]
            cases cellAt s q with
            | none => rfl
            | some c => simp [hq]

theorem Add_spec (self : Nat) (refs : List Position) (s s1 : Sheet E)
    (h : AddInverseDependencies self refs s = Res.ret () s1) :
    (∀ x ∈ refs, x.IsValid = true) ∧
      ∀ q, cellAt s1 q = (cellAt s q).map (fun c =>
        if q ∈ refs then ⟨c.addr, c.impl_, c.cache_, setInsert self c.influencing_cells_⟩
        else c) := by
  refine foldCells_spec
    (fun c => ⟨c.addr, c.impl_, c.cache_, setInsert self c.influencing_cells_⟩) ?_
    (AddInverseDependencies self) (fun _ => rfl) ?_ refs s s1 h
  · intro c
    simp only [setInsert_idem]
  · intro q rest s
    simp only [AddInverseDependencies]

theorem Delete_spec (self : Nat) (refs : List Position) (s s1 : Sheet E)
    (h : DeleteInverseDependenciesAndCache self refs s = Res.ret () s1) :
    (∀ x ∈ refs, x.IsValid = true) ∧
      ∀ q, cellAt s1 q = (cellAt s q).map (fun c =>
        if q ∈ refs then ⟨c.addr, c.impl_, none, setErase self c.influencing_cells_⟩
        else c) := by
  refine foldCells_spec
    (fun c => ⟨c.addr, c.impl_, none, setErase self c.influencing_cells_⟩) ?_
    (DeleteInverseDependenciesAndCache self) (fun _ => rfl) ?_ refs s s1 h
  · intro c
    simp only [setErase_idem]
  · intro q rest s
    simp only [DeleteInverseDependenciesAndCache]

/-! ## A successful formula edit, step by step -/

theorem SameShape_cellAt {s s1 : Sheet E} (h : SameShape s s1) {q : Position} {c : Cell E}
    (hc : cellAt s q = some c) :
    ∃ c1, cellAt s1 q = some c1 ∧ c1.addr = c.addr ∧ c1.impl_ = c.impl_ := by
  have hv := (cellAt_some hc).1
  rw [cellAt_valid hv] at hc ⊢
  have := h.2.2.2 q.row.toNat q.col.toNat
  rw [hc] at this
  cases h1 : slotAt s1.sheet_ q.row.toNat q.col.toNat with
  | none => rw [h1] at this; simp at this
  | some c1 =>
    rw [h1] at this
    simp only [Option.map_some', Option.some.injEq, Prod.mk.injEq] at this
    exact ⟨c1, rfl, this.1, this.2⟩

theorem SameCells_refl (s : Sheet E) : SameCells s s :=
  ⟨rfl, rfl, fun _ => rfl, fun _ _ => rfl⟩

theorem SameCells_trans {s s1 s2 : Sheet E} (h1 : SameCells s s1) (h2 : SameCells s1 s2) :
    SameCells s s2 :=
  ⟨h2.1.trans h1.1, h2.2.1.trans h1.2.1, fun r => (h2.2.2.1 r).trans (h1.2.2.1 r),
    fun r c => (h2.2.2.2 r c).trans (h1.2.2.2 r c)⟩

theorem SameCells_setCache (s : Sheet E) (pos : Position) (v : Option (Value E.Num)) :
    SameCells s (setCache s pos v) := by
  refine ⟨rfl, length_modifyGrid _ _ _ _, fun r => rowLen_modifyGrid _ _ _ _ r, ?_⟩
  intro r c
  simp only [setCache, modifyCell, slotAt_modifyGrid]
  split
  · rename_i h
    rw [h.1, h.2]
    cases slotAt s.sheet_ pos.row.toNat pos.col.toNat with
    | none => rfl
    | some x => simp
  · rfl

theorem SameCells_cellAt {s s1 : Sheet E} (h : SameCells s s1) (q : Position) :
    (cellAt s1 q).map (fun x => (x.addr, x.impl_, x.influencing_cells_)) =
      (cellAt s q).map (fun x => (x.addr, x.impl_, x.influencing_cells_)) := by
  by_cases hv : q.IsValid = true
  · rw [cellAt_valid hv, cellAt_valid hv]
    exact h.2.2.2 _ _
  · have hv2 : q.IsValid = false := by simpa using hv
    rw [cellAt_invalid hv2, cellAt_invalid hv2]

theorem Evaluate_sameCells {fuel : Nat} {f : FormulaAST E.Num} {s s1 : Sheet E}
    (h : (Evaluate fuel f s).sheet = some s1) : SameCells s s1 :=
  Evaluate_keepsR SameCells_refl (fun _ _ _ h1 h2 => SameCells_trans h1 h2)
    SameCells_setCache fuel f s s1 h

/-- The steps of `Cell::Set` when it installs a formula and returns. -/
theorem CellSet_formula_ret {fuel : Nat} {s s1 : Sheet E} {pos : Position} {self : Cell E}
    {text : String} (hf : isFormulaText text = true)
    (h : CellSet fuel s pos self text = Res.ret () s1) :
    ∃ temp vis sd se v,
      E.ParseFormulaAST (substr1 text) = some temp ∧
      CheckCircle s self.addr fuel temp = Dfs.no vis ∧
      DeleteInverseDependenciesAndCache self.addr self.GetReferencedCells s = Res.ret () sd ∧
      Evaluate fuel temp (setImpl sd pos (Impl.FormulaImpl temp)) = Res.ret v se ∧
      AddInverseDependencies self.addr temp.GetReferencedCells
        (setCache se pos (some v.toValue)) = Res.ret () s1 := by
  unfold CellSet at h
  rw [if_pos hf] at h
  cases hp : E.ParseFormulaAST (substr1 text) with
  | none => rw [hp] at h; cases h
  | some temp =>
    rw [hp] at h
    simp only at h
    cases hc : CheckCircle s self.addr fuel temp with
    | yes => rw [hc] at h; cases h
    | throw e => rw [hc] at h; cases h
    | oof => rw [hc] at h; cases h
    | no vis =>
      rw [hc] at h
      simp only at h
      cases hdel : DeleteInverseDependenciesAndCache self.addr self.GetReferencedCells s with
      | oof => rw [hdel] at h; cases h
      | throw e sd => rw [hdel] at h; cases h
      | ret u sd =>
        rw [hdel] at h
        simp only at h
        cases hev : Evaluate fuel temp (setImpl sd pos (Impl.FormulaImpl temp)) with
        | oof => rw [hev] at h; cases h
        | throw e se => rw [hev] at h; cases h
        | ret v se =>
          rw [hev] at h
          simp only at h
          exact ⟨temp, vis, sd, se, v, rfl, hc, rfl, hev, h⟩

theorem Closed_refl (s : Sheet E) (vis : List (Option Nat)) : Closed s vis vis :=
  fun _ _ _ h1 h2 => absurd h1 h2

theorem Closed_trans {s : Sheet E} {a b c : List (Option Nat)} (hbc : b ⊆ c)
    (h1 : Closed s a b) (h2 : Closed s b c) : Closed s a c := by
  intro u cu hu hc ha v hv
  by_cases hb : some cu.addr ∈ b
  · obtain ⟨pv, hg, hp⟩ := h1 u cu hu hb ha v hv
    exact ⟨pv, hg, hbc hp⟩
  · exact h2 u cu hu hc hb v hv

theorem Closed_insert {s : Sheet E} {a b : List (Option Nat)} {x : Option Nat}
    (hx : x = none ∨ x ∈ b) (h : Closed s a b) : Closed s a (List.insert x b) := by
  intro u cu hu hc ha v hv
  have hc2 : some cu.addr ∈ b := by
    rcases List.mem_insert_iff.mp hc with h1 | h1
    · rcases hx with hx | hx
      · rw [hx] at h1
        cases h1
      · rw [h1]
        exact hx
    · exact h1
  obtain ⟨pv, hg, hp⟩ := h u cu hu hc2 ha v hv
  exact ⟨pv, hg, List.mem_insert_iff.mpr (Or.inr hp)⟩

theorem circleLoop_spec (s : Sheet E) (self : Nat) (rec : Position → List (Option Nat) → Dfs)
    (hrec : ∀ cur vis vis1, some self ∉ vis → rec cur vis = Dfs.no vis1 →
      vis ⊆ vis1 ∧ some self ∉ vis1 ∧
        (∃ pc, GetCell s cur = Except.ok pc ∧ (pc = none ∨ ptrOf pc ∈ vis1)) ∧
        Closed s vis vis1) :
    ∀ (refs : List Position) (visA visB : List (Option Nat)), some self ∉ visA →
      circleLoop s rec refs visA = Dfs.no visB →
      visA ⊆ visB ∧ some self ∉ visB ∧
        (∀ v ∈ refs, ∃ pv, GetCell s v = Except.ok pv ∧ ptrOf pv ∈ visB) ∧
        Closed s visA visB := by
  intro refs
  induction refs with
  | nil =>
    intro visA visB hself h
    simp only [circleLoop] at h
    cases h
    exact ⟨fun _ h => h, hself, by simp, Closed_refl s visA⟩
  | cons q rest ih =>
    intro visA visB hself h
    simp only [circleLoop] at h
    cases hg : GetCell s q with
    | error e => rw [hg] at h; cases h
    | ok ptr =>
      rw [hg] at h
      simp only at h
      by_cases hm : ptrOf ptr ∈ visA
      · rw [if_pos hm] at h
        have hself2 : some self ∉ List.insert (ptrOf ptr) visA := by
          rw [List.insert_of_mem hm]
          exact hself
        obtain ⟨h1, h2, h3, h4⟩ := ih _ visB hself2 h
        have hsub : visA ⊆ List.insert (ptrOf ptr) visA :=
          fun x hx => List.mem_insert_iff.mpr (Or.inr hx)
        refine ⟨fun x hx => h1 (hsub hx), h2, ?_, ?_⟩
        · intro v hv
          rcases List.mem_cons.mp hv with hv | hv
          · rw [hv]
            exact ⟨ptr, hg, h1 (List.mem_insert_self _ _)⟩
          · exact h3 v hv
        · exact Closed_trans h1 (Closed_insert (Or.inr hm) (Closed_refl s visA)) h4
      · rw [if_neg hm] at h
        cases hr : rec q visA with
        | yes => rw [hr] at h; cases h
        | throw e => rw [hr] at h; cases h
        | oof => rw [hr] at h; cases h
        | no vis1 =>
          rw [hr] at h
          simp only at h
          obtain ⟨r1, r2, ⟨pc, hpc, r3⟩, r4⟩ := hrec q visA vis1 hself hr
          rw [hg] at hpc
          cases hpc
          have hx : ptrOf ptr = none ∨ ptrOf ptr ∈ vis1 := by
            rcases r3 with r3 | r3
            · left
              rw [r3]
              rfl
            · exact Or.inr r3
          have hself2 : some self ∉ List.insert (ptrOf ptr) vis1 := by
            intro hin
            rcases List.mem_insert_iff.mp hin with h5 | h5
            · rcases hx with hx | hx
              · rw [hx] at h5
                cases h5
              · rw [← h5] at hx
                exact r2 hx
            · exact r2 h5
          obtain ⟨h1, h2, h3, h4⟩ := ih _ visB hself2 h
          have hsub : vis1 ⊆ List.insert (ptrOf ptr) vis1 :=
            fun x hx => List.mem_insert_iff.mpr (Or.inr hx)
          refine ⟨fun x hx => h1 (hsub (r1 hx)), h2, ?_, ?_⟩
          · intro v hv
            rcases List.mem_cons.mp hv with hv | hv
            · rw [hv]
              exact ⟨ptr, hg, h1 (List.mem_insert_self _ _)⟩
            · exact h3 v hv
          · exact Closed_trans (fun x hx => h1 (hsub hx)) r4
              (Closed_trans h1 (Closed_insert hx (Closed_refl s vis1)) h4)

/-- No two positions hold cells with the same address. -/
theorem AddrInv_cellAt {s : Sheet E} (hi : AddrInv s) {u v : Position} {x y : Cell E}
    (hx : cellAt s u = some x) (hy : cellAt s v = some y) (h : x.addr = y.addr) : u = v := by
  have hu := (cellAt_some hx).1
  have hv := (cellAt_some hy).1
  rw [cellAt_valid hu] at hx
  rw [cellAt_valid hv] at hy
  obtain ⟨h1, h2⟩ := hi.2 _ _ _ _ _ _ hx hy h
  exact coords_inj hu hv h1 h2

theorem HasCircleDependency_spec (s : Sheet E) (self : Nat) (hi : AddrInv s) :
    ∀ (fuel : Nat) (cur : Position) (vis vis1 : List (Option Nat)), some self ∉ vis →
      HasCircleDependency s self fuel cur vis = Dfs.no vis1 →
      vis ⊆ vis1 ∧ some self ∉ vis1 ∧
        (∃ pc, GetCell s cur = Except.ok pc ∧ (pc = none ∨ ptrOf pc ∈ vis1)) ∧
        Closed s vis vis1 := by
  intro fuel
  induction fuel with
  | zero =>
    intro cur vis vis1 _ h
    simp [HasCircleDependency] at h
  | succ n ih =>
    intro cur vis vis1 hself h
    simp only [HasCircleDependency] at h
    cases hg : GetCell s cur with
    | error e => rw [hg] at h; cases h
    | ok pc =>
      rw [hg] at h
      cases pc with
      | none =>
        simp only at h
        cases h
        exact ⟨fun _ h => h, hself, ⟨none, rfl, Or.inl rfl⟩, Closed_refl s vis⟩
      | some c =>
        simp only at h
        by_cases hc : c.addr = self
        · rw [if_pos hc] at h
          cases h
        · rw [if_neg hc] at h
          have hself2 : some self ∉ List.insert (some c.addr) vis := by
            intro hin
            rcases List.mem_insert_iff.mp hin with h5 | h5
            · exact hc (Option.some.inj h5).symm
            · exact hself h5
          obtain ⟨h1, h2, h3, h4⟩ :=
            circleLoop_spec s self (HasCircleDependency s self n) ih _ _ vis1 hself2 h
          have hsub : vis ⊆ List.insert (some c.addr) vis :=
            fun x hx => List.mem_insert_iff.mpr (Or.inr hx)
          have hin : some c.addr ∈ vis1 := h1 (List.mem_insert_self _ _)
          refine ⟨fun x hx => h1 (hsub hx), h2, ⟨some c, rfl, Or.inr hin⟩, ?_⟩
          intro u cu hu hc1 hc0 v hv
          by_cases ha : some cu.addr ∈ List.insert (some c.addr) vis
          · rcases List.mem_insert_iff.mp ha with h5 | h5
            · have hcc := (GetCell_ok_valid hg).2
              have heq : cu.addr = c.addr := Option.some.inj h5
              have huv := AddrInv_cellAt hi hu hcc heq
              subst huv
              rw [hcc] at hu
              cases hu
              exact h3 v hv
            · exact absurd h5 hc0
          · exact h4 u cu hu hc1 ha v hv

theorem checkLoop_spec (s : Sheet E) (self : Nat) (fuel : Nat) (hi : AddrInv s) :
    ∀ (refs : List Position) (vis visF : List (Option Nat)), some self ∉ vis →
      checkLoop s self fuel refs vis = Dfs.no visF →
      vis ⊆ visF ∧ some self ∉ visF ∧
        (∀ v ∈ refs, ∃ pc, GetCell s v = Except.ok pc ∧ (pc = none ∨ ptrOf pc ∈ visF)) ∧
        Closed s vis visF := by
  intro refs
  induction refs with
  | nil =>
    intro vis visF hself h
    simp only [checkLoop] at h
    cases h
    exact ⟨fun _ h => h, hself, by simp, Closed_refl s vis⟩
  | cons q rest ih =>
    intro vis visF hself h
    simp only [checkLoop] at h
    cases hr : HasCircleDependency s self fuel q vis with
    | yes => rw [hr] at h; cases h
    | throw e => rw [hr] at h; cases h
    | oof => rw [hr] at h; cases h
    | no vis1 =>
      rw [hr] at h
      simp only at h
      obtain ⟨r1, r2, ⟨pc, hpc, r3⟩, r4⟩ := HasCircleDependency_spec s self hi fuel q vis vis1 hself hr
      obtain ⟨h1, h2, h3, h4⟩ := ih vis1 visF r2 h
      refine ⟨fun x hx => h1 (r1 hx), h2, ?_, Closed_trans h1 r4 h4⟩
      intro v hv
      rcases List.mem_cons.mp hv with hv | hv
      · rw [hv]
        refine ⟨pc, hpc, ?_⟩
        rcases r3 with r3 | r3
        · exact Or.inl r3
        · exact Or.inr (h1 r3)
      · exact h3 v hv

/-- From a visited cell of a closed visited set the edited cell is not reachable. -/
theorem Closed_no_path {s : Sheet E} {self : Cell E} {p : Position} {vis : List (Option Nat)}
    (hp : cellAt s p = some self) (hself : some self.addr ∉ vis) (hcl : Closed s [] vis)
    {v : Position} (hpath : Relation.ReflTransGen (Edge s) v p) :
    ∀ cv, cellAt s v = some cv → some cv.addr ∈ vis → False := by
  induction hpath using Relation.ReflTransGen.head_induction_on with
  | refl =>
    intro cv hcv hin
    rw [hp] at hcv
    cases hcv
    exact hself hin
  | head hedge hrest ih =>
    rename_i a b
    intro cv hcv hin
    obtain ⟨ca, hca, hb⟩ := hedge
    rw [hcv] at hca
    cases hca
    obtain ⟨pb, hgb, hpb⟩ := hcl a cv hcv hin (by simp) b hb
    have hbc : ∃ cb, cellAt s b = some cb := by
      cases hrest using Relation.ReflTransGen.head_induction_on with
      | refl => exact ⟨self, hp⟩
      | head h1 _ =>
        obtain ⟨cb, hcb, _⟩ := h1
        exact ⟨cb, hcb⟩
    obtain ⟨cb, hcb⟩ := hbc
    have := (GetCell_ok_valid hgb).2
    rw [hcb] at this
    rw [← this] at hpb
    exact ih cb hcb hpb

/-- When `CheckCircle` returns false, no referenced position of the candidate
reaches the position of the edited cell along forward references. -/
theorem CheckCircle_no_path {s : Sheet E} (hi : AddrInv s) {self : Cell E} {p : Position}
    (hp : cellAt s p = some self) {fuel : Nat} {temp : FormulaAST E.Num}
    {vis : List (Option Nat)} (h : CheckCircle s self.addr fuel temp = Dfs.no vis) :
    ∀ v ∈ temp.GetReferencedCells, ¬ Relation.ReflTransGen (Edge s) v p := by
  unfold CheckCircle at h
  obtain ⟨_, h2, h3, h4⟩ := checkLoop_spec s self.addr fuel hi _ [] vis (by simp) h
  intro v hv hpath
  obtain ⟨pc, hpc, hor⟩ := h3 v hv
  have hvc : ∃ cv, cellAt s v = some cv := by
    cases hpath using Relation.ReflTransGen.head_induction_on with
    | refl => exact ⟨self, hp⟩
    | head h1 _ =>
      obtain ⟨cb, hcb, _⟩ := h1
      exact ⟨cb, hcb⟩
  obtain ⟨cv, hcv⟩ := hvc
  have := (GetCell_ok_valid hpc).2
  rw [hcv] at this
  rcases hor with hor | hor
  · rw [hor] at this
    cases this
  · rw [← this] at hor
    exact Closed_no_path hp h2 h4 hpath cv hcv hor

/-! ## Invariants of the reachable sheets -/

theorem reaches_of_new_edges {α : Type} {r r1 : α → α → Prop} {p : α} {R : α → Prop}
    (hsub : ∀ u v, r1 u v → (u ≠ p ∧ r u v) ∨ (u = p ∧ R v)) {a : α}
    (h : Relation.ReflTransGen r1 a p) : Relation.ReflTransGen r a p := by
  induction h using Relation.ReflTransGen.head_induction_on with
  | refl => exact Relation.ReflTransGen.refl
  | head h1 _ ih =>
    rcases hsub _ _ h1 with ⟨_, h2⟩ | ⟨h2, _⟩
    · exact Relation.ReflTransGen.head h2 ih
    · rw [h2]

theorem through_of_new_edges {α : Type} {r r1 : α → α → Prop} {p : α} {R : α → Prop}
    (hsub : ∀ u v, r1 u v → (u ≠ p ∧ r u v) ∨ (u = p ∧ R v)) {u w : α}
    (h : Relation.TransGen r1 u w) :
    Relation.TransGen r u w ∨ (Relation.ReflTransGen r1 u p ∧ Relation.TransGen r1 p w) := by
  induction h with
  | single h1 =>
    rcases hsub _ _ h1 with ⟨_, h2⟩ | ⟨h2, _⟩
    · exact Or.inl (Relation.TransGen.single h2)
    · right
      subst h2
      exact ⟨Relation.ReflTransGen.refl, Relation.TransGen.single h1⟩
  | tail hub hbw ih =>
    rcases ih with ih | ⟨ih1, ih2⟩
    · rcases hsub _ _ hbw with ⟨_, h2⟩ | ⟨h2, _⟩
      · exact Or.inl (Relation.TransGen.tail ih h2)
      · right
        subst h2
        exact ⟨hub.to_reflTransGen, Relation.TransGen.single hbw⟩
    · exact Or.inr ⟨ih1, Relation.TransGen.tail ih2 hbw⟩

/-- Replacing the out-edges of one node `p` by edges to nodes that do not reach
`p` keeps a graph free of cycles. -/
theorem acyclic_of_new_edges {α : Type} {r r1 : α → α → Prop} {p : α} {R : α → Prop}
    (hr : ∀ u, ¬ Relation.TransGen r u u)
    (hsub : ∀ u v, r1 u v → (u ≠ p ∧ r u v) ∨ (u = p ∧ R v))
    (hno : ∀ v, R v → ¬ Relation.ReflTransGen r v p) :
    ∀ u, ¬ Relation.TransGen r1 u u := by
  intro u hu
  rcases through_of_new_edges hsub hu with h | ⟨h1, h2⟩
  · exact hr u h
  · have hpp : Relation.TransGen r1 p p := Relation.TransGen.trans_left h2 h1
    obtain ⟨b, hb, hbp⟩ := Relation.TransGen.head'_iff.mp hpp
    rcases hsub _ _ hb with ⟨h3, _⟩ | ⟨_, h3⟩
    · exact h3 rfl
    · exact hno b h3 (reaches_of_new_edges hsub hbp)

theorem acyclic_of_sub_edges {α : Type} {r r1 : α → α → Prop}
    (hr : ∀ u, ¬ Relation.TransGen r u u) (hsub : ∀ u v, r1 u v → r u v) :
    ∀ u, ¬ Relation.TransGen r1 u u :=
  fun u hu => hr u (Relation.TransGen.mono hsub hu)

theorem AddrInv_of_addr {s s1 : Sheet E} (hn : s1.next = s.next)
    (h : ∀ r c, (slotAt s1.sheet_ r c).map Cell.addr = (slotAt s.sheet_ r c).map Cell.addr)
    (hi : AddrInv s) : AddrInv s1 := by
  have key : ∀ r c x, slotAt s1.sheet_ r c = some x →
      ∃ y, slotAt s.sheet_ r c = some y ∧ y.addr = x.addr := by
    intro r c x hx
    have := h r c
    rw [hx] at this
    cases h2 : slotAt s.sheet_ r c with
    | none => rw [h2] at this; simp at this
    | some y =>
      rw [h2] at this
      simp only [Option.map_some', Option.some.injEq] at this
      exact ⟨y, rfl, this.symm⟩
  constructor
  · intro r c x hx
    obtain ⟨y, hy, ha⟩ := key r c x hx
    rw [hn, ← ha]
    exact hi.1 r c y hy
  · intro r c r1 c1 x y hx hy hxy
    obtain ⟨x0, hx0, ha⟩ := key r c x hx
    obtain ⟨y0, hy0, hb⟩ := key r1 c1 y hy
    exact hi.2 r c r1 c1 x0 y0 hx0 hy0 (by rw [ha, hb, hxy])

theorem AddrInv_of_SameShape {s s1 : Sheet E} (h : SameShape s s1) (hi : AddrInv s) :
    AddrInv s1 := by
  refine AddrInv_of_addr h.1 ?_ hi
  intro r c
  have := h.2.2.2 r c
  cases h1 : slotAt s1.sheet_ r c <;> cases h2 : slotAt s.sheet_ r c <;>
    rw [h1, h2] at this <;> simp at this ⊢
  exact this.1

theorem AddrInv_setImpl {s : Sheet E} (pos : Position) (i : Impl E) (hi : AddrInv s) :
    AddrInv (setImpl s pos i) := by
  refine @AddrInv_of_addr E s (setImpl s pos i) rfl ?_ hi
  intro r c
  simp only [setImpl, modifyCell, slotAt_modifyGrid]
  split
  · rename_i h
    rw [h.1, h.2]
    cases slotAt s.sheet_ pos.row.toNat pos.col.toNat <;> rfl
  · rfl

theorem Edge_of_SameShape {s s1 : Sheet E} (h : SameShape s s1) {u v : Position}
    (he : Edge s1 u v) : Edge s u v := by
  obtain ⟨c1, hc1, hv⟩ := he
  obtain ⟨c, hc, _, hi⟩ := SameShape_cellAt (SameShape_symm h) hc1
  refine ⟨c, hc, ?_⟩
  unfold Cell.GetReferencedCells at hv ⊢
  rw [hi]
  exact hv

theorem Edge_setImpl {s : Sheet E} {p : Position} (hv : p.IsValid = true) (i : Impl E)
    {u v : Position} (he : Edge (setImpl s p i) u v) :
    (u ≠ p ∧ Edge s u v) ∨ (u = p ∧ v ∈ i.GetReferencedCells) := by
  obtain ⟨c1, hc1, hm⟩ := he
  unfold setImpl at hc1
  rw [cellAt_modifyCell s p u _ hv] at hc1
  by_cases hu : u = p
  · right
    refine ⟨hu, ?_⟩
    rw [if_pos hu] at hc1
    cases h0 : cellAt s p with
    | none => rw [h0] at hc1; cases hc1
    | some c =>
      rw [h0] at hc1
      simp only [Option.map_some', Option.some.injEq] at hc1
      rw [← hc1] at hm
      exact hm
  · left
    rw [if_neg hu] at hc1
    exact ⟨hu, c1, hc1, hm⟩

theorem Edge_of_Grows {s s1 : Sheet E} (h : Grows s s1) {u v : Position} (he : Edge s1 u v) :
    Edge s u v := by
  obtain ⟨c1, hc1, hm⟩ := he
  have hu := (cellAt_some hc1).1
  rw [cellAt_valid hu] at hc1
  rcases h.2.2.1 _ _ _ hc1 with h1 | ⟨_, h2, _⟩
  · exact ⟨c1, by rw [cellAt_valid hu]; exact h1, hm⟩
  · rw [h2] at hm
    simp [newCell, Cell.GetReferencedCells, Impl.GetReferencedCells] at hm

theorem AddrInv_empty : AddrInv (emptySheet : Sheet E) := by
  constructor
  · intro r c x hx
    simp [emptySheet, slotAt] at hx
  · intro r c r1 c1 x y hx
    simp [emptySheet, slotAt] at hx

theorem Acyclic_empty : Acyclic (emptySheet : Sheet E) := by
  intro u hu
  obtain ⟨b, ⟨c, hc, _⟩, _⟩ := Relation.TransGen.head'_iff.mp hu
  have hv := (cellAt_some hc).1
  rw [cellAt_valid hv] at hc
  simp [emptySheet, slotAt] at hc

theorem ClearCell_sheet {s s1 : Sheet E} {pos : Position} (h : (ClearCell s pos).sheet = some s1) :
    s1 = s ∨ (pos.IsValid = true ∧
      s1 = ⟨setSlot s.sheet_ pos.row.toNat pos.col.toNat none, s.next⟩) := by
  unfold ClearCell at h
  by_cases hv : pos.IsValid = true
  · rw [if_pos hv] at h
    split at h
    · cases h
      exact Or.inr ⟨hv, rfl⟩
    · cases h
      exact Or.inl rfl
  · rw [if_neg hv] at h
    cases h
    exact Or.inl rfl

theorem Inv_ClearCell {s s1 : Sheet E} {pos : Position} (h : (ClearCell s pos).sheet = some s1)
    (hi : AddrInv s) (ha : Acyclic s) : AddrInv s1 ∧ Acyclic s1 := by
  rcases ClearCell_sheet h with h1 | ⟨hv, h1⟩
  · rw [h1]
    exact ⟨hi, ha⟩
  · subst h1
    have key : ∀ r c x,
        slotAt (setSlot s.sheet_ pos.row.toNat pos.col.toNat none) r c = some x →
          slotAt s.sheet_ r c = some x := by
      intro r c x hx
      rw [slotAt_setSlot] at hx
      split at hx
      · cases hx
      · exact hx
    refine ⟨⟨?_, ?_⟩, ?_⟩
    · intro r c x hx
      exact hi.1 r c x (key r c x hx)
    · intro r c r1 c1 x y hx hy hxy
      exact hi.2 r c r1 c1 x y (key r c x hx) (key r1 c1 y hy) hxy
    · refine acyclic_of_sub_edges ha ?_
      intro u v ⟨c, hc, hm⟩
      have hu := (cellAt_some hc).1
      rw [cellAt_valid hu] at hc
      exact ⟨c, by rw [cellAt_valid hu]; exact key _ _ _ hc, hm⟩

theorem Inv_SetCell {fuel : Nat} {s s1 : Sheet E} {pos : Position} {text : String}
    (h : (SetCell fuel s pos text).sheet = some s1)
    (hi : AddrInv s) (ha : Acyclic s) : AddrInv s1 ∧ Acyclic s1 := by
  by_cases hv : pos.IsValid = true
  · obtain ⟨c, hc, hset⟩ := SetCell_eq_CellSet fuel s pos text hv
    obtain ⟨hg, _⟩ := prepare_spec s pos hv
    have hi1 : AddrInv (prepare s pos) := AddrInv_of_Grows hg hi
    have ha1 : Acyclic (prepare s pos) :=
      acyclic_of_sub_edges ha (fun u v he => Edge_of_Grows hg he)
    rw [hset] at h
    rcases CellSet_sheet h with h1 | ⟨_, i, hi2, h1⟩ | ⟨temp, vis, _, _, hcc, h1⟩
    · exact ⟨AddrInv_of_SameShape h1 hi1,
        acyclic_of_sub_edges ha1 (fun u v he => Edge_of_SameShape h1 he)⟩
    · refine ⟨AddrInv_of_SameShape h1 (AddrInv_setImpl pos i hi1), ?_⟩
      refine acyclic_of_sub_edges ha1 ?_
      intro u v he
      rcases Edge_setImpl hv i (Edge_of_SameShape h1 he) with ⟨_, h2⟩ | ⟨_, h2⟩
      · exact h2
      · rcases hi2 with hi2 | hi2 <;> rw [hi2] at h2 <;>
          simp [Impl.GetReferencedCells] at h2
    · refine ⟨AddrInv_of_SameShape h1 (AddrInv_setImpl pos _ hi1), ?_⟩
      refine acyclic_of_new_edges (R := fun v => v ∈ temp.GetReferencedCells) ha1 ?_
        (CheckCircle_no_path hi1 hc hcc)
      intro u v he
      exact Edge_setImpl hv _ (Edge_of_SameShape h1 he)
  · unfold SetCell at h
    rw [if_neg hv] at h
    cases h
    exact ⟨hi, ha⟩

theorem Reachable_inv {s : Sheet E} (h : Reachable s) : AddrInv s ∧ Acyclic s := by
  induction h with
  | empty => exact ⟨AddrInv_empty, Acyclic_empty⟩
  | setCell fuel s s1 pos text _ hs ih => exact Inv_SetCell hs ih.1 ih.2
  | clearCell s s1 pos _ hs ih => exact Inv_ClearCell hs ih.1 ih.2

/-! ## C2 -/

/-- C2: after every finite sequence of SetCell and ClearCell calls from the empty
sheet, rejected calls included, the graph with an edge u → v whenever v is in
GetReferencedCells of the cell stored at u has no directed cycle. -/
theorem C2_reference_graph_acyclic (s : Sheet E) (h : Reachable s) :
    ∀ u, ¬ Relation.TransGen (Edge s) u u :=
  (Reachable_inv h).2

/-- C2 at a concrete input: the sheet after SetCell(A1,"=B1"), SetCell(B1,"=A1"),
the second call being rejected, is reachable and has no cycle. -/
theorem C2_reference_graph_acyclic_witness :
    (SetCell 5 (sheetAfter 5 [(A1, some "=B1")] : Sheet demo) B1 "=A1").thrown
        = some Err.CircularDependency ∧
      ∀ u, ¬ Relation.TransGen
        (Edge (sheetAfter 5 [(A1, some "=B1"), (B1, some "=A1")] : Sheet demo)) u u :=
  ⟨rfl, C2_reference_graph_acyclic (sheetAfter 5 [(A1, some "=B1"), (B1, some "=A1")] : Sheet demo)
    (Reachable.setCell 5 (sheetAfter 5 [(A1, some "=B1")]) _ B1 "=A1"
      (Reachable.setCell 5 emptySheet _ A1 "=B1" Reachable.empty rfl) rfl)⟩

/-! ## The reverse sets after a formula edit -/

theorem SameCells_cellAt_some {s s1 : Sheet E} (h : SameCells s s1) {q : Position} {c1 : Cell E}
    (hc : cellAt s1 q = some c1) :
    ∃ c, cellAt s q = some c ∧ c1.addr = c.addr ∧ c1.impl_ = c.impl_ ∧
      c1.influencing_cells_ = c.influencing_cells_ := by
  have := SameCells_cellAt h q
  rw [hc] at this
  cases h0 : cellAt s q with
  | none => rw [h0] at this; simp at this
  | some c =>
    rw [h0] at this
    simp only [Option.map_some', Option.some.injEq, Prod.mk.injEq] at this
    exact ⟨c, rfl, this.1, this.2.1, this.2.2⟩

/-- The cells after a formula edit that returned, in terms of the cells before
it: same address; the new formula at `pos`, the old implementation elsewhere;
the reverse set first without `self` where the old contents referenced the
cell, then with `self` where the new formula references it. -/
theorem formula_edit_cells {fuel : Nat} {s s1 : Sheet E} {pos : Position} {self : Cell E}
    {text : String} (hv : pos.IsValid = true) (hf : isFormulaText text = true)
    (h : CellSet fuel s pos self text = Res.ret () s1) :
    ∃ temp, E.ParseFormulaAST (substr1 text) = some temp ∧
      ∀ q c1, cellAt s1 q = some c1 →
        ∃ c, cellAt s q = some c ∧ c1.addr = c.addr ∧
          c1.impl_ = (if q = pos then Impl.FormulaImpl temp else c.impl_) ∧
          ∀ a, a ∈ c1.influencing_cells_ ↔
            (a = self.addr ∧ q ∈ temp.GetReferencedCells) ∨
              (a ∈ c.influencing_cells_ ∧ ¬ (a = self.addr ∧ q ∈ self.GetReferencedCells)) := by
  obtain ⟨temp, vis, sd, se, v, hp, _, hdel, hev, hadd⟩ := CellSet_formula_ret hf h
  refine ⟨temp, hp, ?_⟩
  intro q c1 hc1
  obtain ⟨_, hA⟩ := Add_spec _ _ _ _ hadd
  obtain ⟨_, hD⟩ := Delete_spec _ _ _ _ hdel
  have hE : SameCells (setImpl sd pos (Impl.FormulaImpl temp)) (setCache se pos (some v.toValue)) :=
    SameCells_trans (Evaluate_sameCells (by rw [hev]; rfl)) (SameCells_setCache _ _ _)
  -- the cell before the additions
  have h4 := hA q
  rw [hc1] at h4
  cases hc4 : cellAt (setCache se pos (some v.toValue)) q with
  | none => rw [hc4] at h4; cases h4
  | some c4 =>
    rw [hc4] at h4
    simp only [Option.map_some', Option.some.injEq] at h4
    obtain ⟨c2, hc2, e1, e2, e3⟩ := SameCells_cellAt_some hE hc4
    unfold setImpl at hc2
    rw [cellAt_modifyCell sd pos q _ hv] at hc2
    -- the cell after the deletions
    have hcd : ∃ cd, cellAt sd q = some cd ∧ c2.addr = cd.addr ∧
        c2.impl_ = (if q = pos then Impl.FormulaImpl temp else cd.impl_) ∧
        c2.influencing_cells_ = cd.influencing_cells_ := by
      by_cases hq : q = pos
      · rw [if_pos hq] at hc2
        rw [hq]
        cases h0 : cellAt sd pos with
        | none => rw [h0] at hc2; cases hc2
        | some cd =>
          rw [h0] at hc2
          simp only [Option.map_some', Option.some.injEq] at hc2
          refine ⟨cd, rfl, ?_, ?_, ?_⟩ <;> rw [← hc2]
          simp
      · rw [if_neg hq] at hc2
        exact ⟨c2, hc2, rfl, by rw [if_neg hq], rfl⟩
    obtain ⟨cd, hcd, d1, d2, d3⟩ := hcd
    have h0 := hD q
    rw [hcd] at h0
    cases hc : cellAt s q with
    | none => rw [hc] at h0; cases h0
    | some c =>
      rw [hc] at h0
      simp only [Option.map_some', Option.some.injEq] at h0
      have a14 : c1.addr = c4.addr := by
        rw [h4]
        split <;> rfl
      have i14 : c1.impl_ = c4.impl_ := by
        rw [h4]
        split <;> rfl
      have ad0 : cd.addr = c.addr := by
        rw [h0]
        split <;> rfl
      have id0 : cd.impl_ = c.impl_ := by
        rw [h0]
        split <;> rfl
      refine ⟨c, rfl, ?_, ?_, ?_⟩
      · rw [a14, e1, d1, ad0]
      · rw [i14, e2, d2]
        by_cases hq : q = pos
        · rw [if_pos hq, if_pos hq]
        · rw [if_neg hq, if_neg hq, id0]
      · intro a
        have i4 : c4.influencing_cells_ = cd.influencing_cells_ := by rw [e3, d3]
        have id : ∀ a, a ∈ cd.influencing_cells_ ↔
            (a ∈ c.influencing_cells_ ∧ ¬ (a = self.addr ∧ q ∈ self.GetReferencedCells)) := by
          intro a
          rw [h0]
          split
          · rename_i hq
            simp only [mem_setErase]
            constructor
            · intro ⟨x1, x2⟩
              exact ⟨x1, fun x3 => x2 x3.1⟩
            · intro ⟨x1, x2⟩
              exact ⟨x1, fun x3 => x2 ⟨x3, hq⟩⟩
          · rename_i hq
            constructor
            · intro x1
              exact ⟨x1, fun x3 => hq x3.2⟩
            · intro x1
              exact x1.1
        rw [h4]
        split
        · rename_i hq
          simp only [mem_setInsert, i4, id]
          constructor
          · intro x
            rcases x with x | x
            · exact Or.inl ⟨x, hq⟩
            · exact Or.inr x
          · intro x
            rcases x with x | x
            · exact Or.inl x.1
            · exact Or.inr x
        · rename_i hq
          rw [i4, id]
          constructor
          · intro x
            exact Or.inr x
          · intro x
            rcases x with x | x
            · exact absurd x.2 hq
            · exact x

/-! ## The bidirectional-edge property along maintained edits -/

theorem Maintained_reachable {s : Sheet E} (h : Maintained s) : Reachable s := by
  induction h with
  | empty => exact Reachable.empty
  | setCell fuel s s1 pos text _ hs _ _ _ ih => exact Reachable.setCell fuel s s1 pos text ih hs

theorem Grows_cellAt_inv {s s1 : Sheet E} (h : Grows s s1) {q : Position} {c : Cell E}
    (hc : cellAt s1 q = some c) :
    cellAt s q = some c ∨ (cellAt s q = none ∧ c = newCell c.addr ∧ s.next ≤ c.addr) := by
  have hv := (cellAt_some hc).1
  rw [cellAt_valid hv] at hc ⊢
  rcases h.2.2.1 _ _ _ hc with h1 | ⟨h1, h2, h3, _⟩
  · exact Or.inl h1
  · exact Or.inr ⟨h1, h2, h3⟩

theorem AddrInv_bound {s : Sheet E} (hi : AddrInv s) {q : Position} {c : Cell E}
    (hc : cellAt s q = some c) : c.addr < s.next := by
  have hv := (cellAt_some hc).1
  rw [cellAt_valid hv] at hc
  exact hi.1 _ _ _ hc

theorem I1_of_Grows {s s1 : Sheet E} (h : Grows s s1) (h1 : I1 s) (hb : RevBound s) :
    I1 s1 ∧ RevBound s1 := by
  constructor
  · intro u v cu hu
    rcases Grows_cellAt_inv h hu with hold | ⟨_, hnew, hge⟩
    · rw [h1 u v cu hold]
      constructor
      · intro ⟨cv, hcv, hin⟩
        exact ⟨cv, Grows_cellAt h hcv, hin⟩
      · intro ⟨cv, hcv, hin⟩
        rcases Grows_cellAt_inv h hcv with hvold | ⟨_, hvnew, _⟩
        · exact ⟨cv, hvold, hin⟩
        · rw [hvnew] at hin
          simp [newCell] at hin
    · constructor
      · intro hin
        rw [hnew] at hin
        simp [newCell, Cell.GetReferencedCells, Impl.GetReferencedCells] at hin
      · intro ⟨cv, hcv, hin⟩
        rcases Grows_cellAt_inv h hcv with hvold | ⟨_, hvnew, _⟩
        · have := hb v cv hvold _ hin
          omega
        · rw [hvnew] at hin
          simp [newCell] at hin
  · intro q cq hq a ha
    rcases Grows_cellAt_inv h hq with hold | ⟨_, hnew, _⟩
    · have := hb q cq hold a ha
      have := h.1
      omega
    · rw [hnew] at ha
      simp [newCell] at ha

/-- The property I1 and the bound on reverse sets only depend on the address,
the reference list and the reverse set of the cell at each position. -/
theorem I1_of_same {s s1 : Sheet E} (hn : s1.next = s.next)
    (h : ∀ q, (cellAt s1 q).map
        (fun x => (x.addr, x.GetReferencedCells, x.influencing_cells_)) =
      (cellAt s q).map (fun x => (x.addr, x.GetReferencedCells, x.influencing_cells_)))
    (h1 : I1 s) (hb : RevBound s) : I1 s1 ∧ RevBound s1 := by
  have key : ∀ q c1, cellAt s1 q = some c1 → ∃ c, cellAt s q = some c ∧ c1.addr = c.addr ∧
      c1.GetReferencedCells = c.GetReferencedCells ∧
      c1.influencing_cells_ = c.influencing_cells_ := by
    intro q c1 hc1
    have := h q
    rw [hc1] at this
    cases h0 : cellAt s q with
    | none => rw [h0] at this; simp at this
    | some c =>
      rw [h0] at this
      simp only [Option.map_some', Option.some.injEq, Prod.mk.injEq] at this
      exact ⟨c, rfl, this.1, this.2.1, this.2.2⟩
  have key2 : ∀ q c, cellAt s q = some c → ∃ c1, cellAt s1 q = some c1 ∧ c1.addr = c.addr ∧
      c1.GetReferencedCells = c.GetReferencedCells ∧
      c1.influencing_cells_ = c.influencing_cells_ := by
    intro q c hc
    have := h q
    rw [hc] at this
    cases h0 : cellAt s1 q with
    | none => rw [h0] at this; simp at this
    | some c1 =>
      rw [h0] at this
      simp only [Option.map_some', Option.some.injEq, Prod.mk.injEq] at this
      exact ⟨c1, rfl, this.1, this.2.1, this.2.2⟩
  constructor
  · intro u v cu1 hu
    obtain ⟨cu, hcu, ea, er, _⟩ := key u cu1 hu
    rw [er, h1 u v cu hcu, ea]
    constructor
    · intro ⟨cv, hcv, hin⟩
      obtain ⟨cv1, hcv1, _, _, ei⟩ := key2 v cv hcv
      exact ⟨cv1, hcv1, by rw [ei]; exact hin⟩
    · intro ⟨cv1, hcv1, hin⟩
      obtain ⟨cv, hcv, _, _, ei⟩ := key v cv1 hcv1
      exact ⟨cv, hcv, by rw [← ei]; exact hin⟩
  · intro q c1 hq a ha
    obtain ⟨c, hc, _, _, ei⟩ := key q c1 hq
    rw [hn]
    rw [ei] at ha
    exact hb q c hc a ha

theorem I1_text_edit {s : Sheet E} {pos : Position} {c : Cell E} (hv : pos.IsValid = true)
    (hc : cellAt s pos = some c) (hrefs : c.GetReferencedCells = [])
    (i : Impl E) (hi : i.GetReferencedCells = []) (v : Option (Value E.Num))
    (h1 : I1 s) (hb : RevBound s) :
    I1 (setCache (setImpl s pos i) pos v) ∧ RevBound (setCache (setImpl s pos i) pos v) ∧
      I1 (setImpl s pos i) ∧ RevBound (setImpl s pos i) := by
  have e1 : ∀ q, (cellAt (setImpl s pos i) q).map
      (fun x => (x.addr, x.GetReferencedCells, x.influencing_cells_)) =
      (cellAt s q).map (fun x => (x.addr, x.GetReferencedCells, x.influencing_cells_)) := by
    intro q
    unfold setImpl
    rw [cellAt_modifyCell s pos q _ hv]
    by_cases hq : q = pos
    · rw [if_pos hq, hq, hc]
      simp only [Option.map_some', Option.some.injEq, Prod.mk.injEq, true_and, and_true]
      rw [hrefs]
      exact hi
    · rw [if_neg hq]
  have e2 : ∀ q, (cellAt (setCache (setImpl s pos i) pos v) q).map
      (fun x => (x.addr, x.GetReferencedCells, x.influencing_cells_)) =
      (cellAt s q).map (fun x => (x.addr, x.GetReferencedCells, x.influencing_cells_)) := by
    intro q
    rw [← e1 q]
    unfold setCache
    rw [cellAt_modifyCell _ pos q _ hv]
    by_cases hq : q = pos
    · rw [if_pos hq, hq]
      cases cellAt (setImpl s pos i) pos <;> rfl
    · rw [if_neg hq]
  obtain ⟨a1, a2⟩ := @I1_of_same E s (setCache (setImpl s pos i) pos v) rfl e2 h1 hb
  obtain ⟨a3, a4⟩ := @I1_of_same E s (setImpl s pos i) rfl e1 h1 hb
  exact ⟨a1, a2, a3, a4⟩

theorem I1_formula_edit {fuel : Nat} {s s1 : Sheet E} {pos : Position} {self : Cell E}
    {text : String} (hv : pos.IsValid = true) (hf : isFormulaText text = true)
    (hself : cellAt s pos = some self)
    (h : CellSet fuel s pos self text = Res.ret () s1)
    (hex : ∀ temp, E.ParseFormulaAST (substr1 text) = some temp →
      ∀ x ∈ temp.GetReferencedCells, (cellAt s x).isSome = true)
    (hi : AddrInv s) (h1 : I1 s) (hb : RevBound s) : I1 s1 ∧ RevBound s1 := by
  obtain ⟨temp, hp, hcells⟩ := formula_edit_cells hv hf h
  have hsheet : (CellSet fuel s pos self text).sheet = some s1 := by rw [h]; rfl
  have hsome : ∀ q, (cellAt s1 q).isSome = (cellAt s q).isSome := by
    intro q
    rcases CellSet_sheet hsheet with h2 | ⟨_, i, _, h2⟩ | ⟨t2, _, _, _, _, h2⟩
    · exact SameShape_cellAt_isSome h2 q
    · rw [SameShape_cellAt_isSome h2 q, cellAt_setImpl_isSome _ _ _ _ hv]
    · rw [SameShape_cellAt_isSome h2 q, cellAt_setImpl_isSome _ _ _ _ hv]
  have hnext : s1.next = s.next := by
    rcases CellSet_sheet hsheet with h2 | ⟨_, i, _, h2⟩ | ⟨t2, _, _, _, _, h2⟩
    · exact h2.1
    · exact h2.1
    · exact h2.1
  have hto : ∀ q c, cellAt s q = some c → ∃ c1, cellAt s1 q = some c1 := by
    intro q c hc
    have := hsome q
    rw [hc] at this
    exact Option.isSome_iff_exists.mp this
  constructor
  · intro u v cu1 hu
    obtain ⟨cu, hcu, ea, ei, _⟩ := hcells u cu1 hu
    by_cases hup : u = pos
    · subst hup
      rw [hself] at hcu
      cases hcu
      have hrefs : cu1.GetReferencedCells = temp.GetReferencedCells := by
        unfold Cell.GetReferencedCells
        rw [ei, if_pos rfl]
        rfl
      rw [hrefs]
      constructor
      · intro hin
        obtain ⟨cv, hcv⟩ := Option.isSome_iff_exists.mp (hex temp hp v hin)
        obtain ⟨cv1, hcv1⟩ := hto v cv hcv
        obtain ⟨cv0, _, _, _, hm⟩ := hcells v cv1 hcv1
        exact ⟨cv1, hcv1, (hm _).mpr (Or.inl ⟨ea, hin⟩)⟩
      · intro ⟨cv1, hcv1, hin⟩
        obtain ⟨cv0, hcv0, _, _, hm⟩ := hcells v cv1 hcv1
        rcases (hm _).mp hin with ⟨_, h3⟩ | ⟨h3, h4⟩
        · exact h3
        · exfalso
          apply h4
          refine ⟨ea, ?_⟩
          rw [h1 u v self hself]
          rw [ea] at h3
          exact ⟨cv0, hcv0, h3⟩
    · have hne : cu.addr ≠ self.addr := by
        intro heq
        exact hup (AddrInv_cellAt hi hcu hself heq)
      have hrefs : cu1.GetReferencedCells = cu.GetReferencedCells := by
        unfold Cell.GetReferencedCells
        rw [ei, if_neg hup]
      rw [hrefs, h1 u v cu hcu, ea]
      constructor
      · intro ⟨cv, hcv, hin⟩
        obtain ⟨cv1, hcv1⟩ := hto v cv hcv
        obtain ⟨cv0, hcv0, _, _, hm⟩ := hcells v cv1 hcv1
        rw [hcv] at hcv0
        cases hcv0
        exact ⟨cv1, hcv1, (hm _).mpr (Or.inr ⟨hin, fun h5 => hne h5.1⟩)⟩
      · intro ⟨cv1, hcv1, hin⟩
        obtain ⟨cv0, hcv0, _, _, hm⟩ := hcells v cv1 hcv1
        rcases (hm _).mp hin with ⟨h3, _⟩ | ⟨h3, _⟩
        · exact absurd h3 hne
        · exact ⟨cv0, hcv0, h3⟩
  · intro q c1 hq a ha
    obtain ⟨c0, hc0, _, _, hm⟩ := hcells q c1 hq
    rw [hnext]
    rcases (hm a).mp ha with ⟨h3, _⟩ | ⟨h3, _⟩
    · rw [h3]
      exact AddrInv_bound hi hself
    · exact hb q c0 hc0 a h3

theorem CellSet_text_ret {fuel : Nat} {s s1 : Sheet E} {pos : Position} {self : Cell E}
    {text : String} (hf : isFormulaText text = false)
    (h : (CellSet fuel s pos self text).sheet = some s1) :
    s1 = setCache (setImpl s pos (Impl.TextImpl text)) pos
        (some (Value.text (TextImplGetValue text))) ∨
      s1 = setImpl s pos Impl.EmptyImpl := by
  unfold CellSet at h
  rw [hf] at h
  simp only [Bool.false_eq_true, if_false] at h
  split at h
  · cases h
    exact Or.inl rfl
  · cases h
    exact Or.inr rfl

theorem Err_cases (e : Err) (h : e ≠ Err.InvalidPosition) :
    e = Err.CircularDependency ∨ e = Err.FormulaException := by
  cases e
  · exact absurd rfl h
  · exact Or.inr rfl
  · exact Or.inl rfl

theorem Maintained_inv {s : Sheet E} (h : Maintained s) : I1 s ∧ RevBound s := by
  induction h with
  | empty =>
    constructor
    · intro u v cu hu
      have hv := (cellAt_some hu).1
      rw [cellAt_valid hv] at hu
      simp [emptySheet, slotAt] at hu
    · intro q cq hq
      have hv := (cellAt_some hq).1
      rw [cellAt_valid hv] at hq
      simp [emptySheet, slotAt] at hq
  | setCell fuel s s1 pos text hm hs hthrow hex hnoref ih =>
    obtain ⟨h1, hb⟩ := ih
    have hi : AddrInv s := (Reachable_inv (Maintained_reachable hm)).1
    by_cases hv : pos.IsValid = true
    · obtain ⟨c, hc, hset⟩ := SetCell_eq_CellSet fuel s pos text hv
      obtain ⟨hg, _⟩ := prepare_spec s pos hv
      obtain ⟨h1p, hbp⟩ := I1_of_Grows hg h1 hb
      have hip : AddrInv (prepare s pos) := AddrInv_of_Grows hg hi
      rw [hset] at hs hthrow
      cases hr : CellSet fuel (prepare s pos) pos c text with
      | oof => rw [hr] at hs; cases hs
      | throw e s2 =>
        rw [hr] at hs hthrow
        cases hs
        have he : e ≠ Err.InvalidPosition := fun h => hthrow (by rw [h]; rfl)
        rw [CellSet_reject hr (Err_cases e he)]
        exact ⟨h1p, hbp⟩
      | ret u s2 =>
        rw [hr] at hs
        cases hs
        by_cases hf : isFormulaText text = true
        · exact I1_formula_edit hv hf hc hr (hex hf) hip h1p hbp
        · have hf2 : isFormulaText text = false := by simpa using hf
          have hrefs : c.GetReferencedCells = [] := by
            rcases Grows_cellAt_inv hg hc with hold | ⟨_, hnew, _⟩
            · exact hnoref hf2 c hold
            · rw [hnew]
              rfl
          have hsh : (CellSet fuel (prepare s pos) pos c text).sheet = some s1 := by
            rw [hr]
            rfl
          rcases CellSet_text_ret hf2 hsh with h2 | h2
          · rw [h2]
            have := I1_text_edit hv hc hrefs (Impl.TextImpl text) rfl
              (some (Value.text (TextImplGetValue text))) h1p hbp
            exact ⟨this.1, this.2.1⟩
          · rw [h2]
            have := I1_text_edit hv hc hrefs Impl.EmptyImpl rfl none h1p hbp
            exact ⟨this.2.2.1, this.2.2.2⟩
    · unfold SetCell at hs
      rw [if_neg hv] at hs
      cases hs
      exact ⟨h1, hb⟩

/-! ## C5 -/

/-- C5 (counterexample): two reachable sheets on which the property I1 fails.
After SetCell(A1,"=Z9") position Z9 is in the reference list of A1 and holds no
cell, hence has no reverse set. After SetCell(A1,"1"), SetCell(B1,"=A1"),
SetCell(B1,"x") the cell of B1 has an empty reference list and is still in the
reverse set of the cell of A1. -/
theorem C5_edges_not_bidirectional :
    (Reachable (sheetAfter 5 [(A1, some "=Z9")] : Sheet demo) ∧
      ¬ I1 (sheetAfter 5 [(A1, some "=Z9")] : Sheet demo)) ∧
    (Reachable (sheetAfter 5 [(A1, some "1"), (B1, some "=A1"), (B1, some "x")] : Sheet demo) ∧
      ¬ I1 (sheetAfter 5 [(A1, some "1"), (B1, some "=A1"), (B1, some "x")] : Sheet demo)) := by
  refine ⟨⟨?_, ?_⟩, ?_, ?_⟩
  · exact Reachable.setCell 5 emptySheet _ A1 "=Z9" Reachable.empty rfl
  · intro h
    obtain ⟨cv, hcv, _⟩ := (h A1 Z9
      ⟨3, Impl.FormulaImpl (demoFormula "Z9"), some (Value.number (0 : Int)), []⟩ rfl).mp
      (by decide)
    cases hcv
  · exact Reachable.setCell 5 (sheetAfter 5 [(A1, some "1"), (B1, some "=A1")]) _ B1 "x"
      (Reachable.setCell 5 (sheetAfter 5 [(A1, some "1")]) _ B1 "=A1"
        (Reachable.setCell 5 emptySheet _ A1 "1" Reachable.empty rfl) rfl) rfl
  · intro h
    have hin := (h B1 A1 ⟨1, Impl.TextImpl "x", some (Value.text "x"), []⟩ rfl).mpr
      ⟨⟨3, Impl.TextImpl "1", some (Value.text "1"), [1]⟩, rfl, by decide⟩
    cases hin

/-- C5 (amended): after every finite sequence of SetCell calls from the empty
sheet that return or are rejected as a cycle or a syntax error, in which every
formula references only positions that hold a cell once the storage has been
grown for the call and no cell with references is rewritten as text or empty
text, for every position u holding a cell and every position v: v is in the
reference list of the cell at u iff a cell is stored at v and has the cell of u
in its reverse set. -/
theorem C5_edges_bidirectional_when_maintained (s : Sheet E) (h : Maintained s) :
    ∀ u v cu, cellAt s u = some cu →
      (v ∈ cu.GetReferencedCells ↔
        ∃ cv, cellAt s v = some cv ∧ cu.addr ∈ cv.influencing_cells_) :=
  (Maintained_inv h).1

/-- C5 (amended) at a concrete input: on the sheet after SetCell(A1,"1"),
SetCell(A2,"=A1+1"), which is maintained, A1 is in the reference list of the
cell of A2 (address 0), so that cell is in the reverse set of the cell of A1. -/
theorem C5_edges_bidirectional_witness :
    Maintained (sheetAfter 5 [(A1, some "1"), (A2, some "=A1+1")] : Sheet demo) ∧
      ∃ cv, cellAt (sheetAfter 5 [(A1, some "1"), (A2, some "=A1+1")] : Sheet demo) A1 = some cv ∧
        0 ∈ cv.influencing_cells_ := by
  have m1 : Maintained (sheetAfter 5 [(A1, some "1")] : Sheet demo) := by
    refine Maintained.setCell 5 emptySheet _ A1 "1" Maintained.empty rfl ?_ ?_ ?_
    · intro h
      cases h
    · intro h
      cases h
    · intro _ c hc
      cases hc
  have m2 : Maintained (sheetAfter 5 [(A1, some "1"), (A2, some "=A1+1")] : Sheet demo) := by
    refine Maintained.setCell 5 (sheetAfter 5 [(A1, some "1")]) _ A2 "=A1+1" m1 rfl ?_ ?_ ?_
    · intro h
      cases h
    · intro _ temp hp x hx
      have e : some temp = some (demoFormula "A1+1") := hp.symm.trans rfl
      cases e
      have hx1 : x = A1 := by
        have : (demoFormula "A1+1").GetReferencedCells = [A1] := rfl
        rw [this] at hx
        simpa using hx
      rw [hx1]
      rfl
    · intro h
      cases h
  refine ⟨m2, ?_⟩
  exact (C5_edges_bidirectional_when_maintained _ m2 A2 A1
    ⟨0, Impl.FormulaImpl (demoFormula "A1+1"), some (Value.number (2 : Int)), []⟩ rfl).mp
    (by decide)

/-! ## The outcome of a call does not depend on the recursion budget -/

theorem circleLoop_mono (s : Sheet E) (rec rec1 : Position → List (Option Nat) → Dfs)
    (h : ∀ q v, rec q v ≠ Dfs.oof → rec1 q v = rec q v) :
    ∀ (refs : List Position) (vis : List (Option Nat)),
      circleLoop s rec refs vis ≠ Dfs.oof → circleLoop s rec1 refs vis = circleLoop s rec refs vis := by
  intro refs
  induction refs with
  | nil => intro vis _; rfl
  | cons q rest ih =>
    intro vis hne
    simp only [circleLoop] at hne ⊢
    cases hg : GetCell s q with
    | error e => rfl
    | ok ptr =>
      rw [hg] at hne
      simp only at hne ⊢
      by_cases hm : ptrOf ptr ∈ vis
      · simp only [if_pos hm] at hne ⊢
        exact ih _ hne
      · simp only [if_neg hm] at hne ⊢
        have hr : rec q vis ≠ Dfs.oof := by
          intro h0
          rw [h0] at hne
          exact hne rfl
        rw [h q vis hr]
        cases h1 : rec q vis with
        | yes => rfl
        | throw e => rfl
        | oof => exact absurd h1 hr
        | no v1 =>
          rw [h1] at hne
          exact ih _ hne

theorem HasCircleDependency_succ (s : Sheet E) (self : Nat) :
    ∀ (n : Nat) (cur : Position) (vis : List (Option Nat)),
      HasCircleDependency s self n cur vis ≠ Dfs.oof →
        HasCircleDependency s self (n + 1) cur vis = HasCircleDependency s self n cur vis := by
  intro n
  induction n with
  | zero =>
    intro cur vis h
    exact absurd rfl h
  | succ n ih =>
    intro cur vis h
    simp only [HasCircleDependency] at h ⊢
    cases hg : GetCell s cur with
    | error e => rfl
    | ok pc =>
      cases pc with
      | none => rfl
      | some c =>
        rw [hg] at h
        simp only at h ⊢
        by_cases hc : c.addr = self
        · simp only [if_pos hc]
        · simp only [if_neg hc] at h ⊢
          exact circleLoop_mono s _ _ ih _ _ h

theorem checkLoop_succ (s : Sheet E) (self : Nat) (n : Nat) :
    ∀ (refs : List Position) (vis : List (Option Nat)),
      checkLoop s self n refs vis ≠ Dfs.oof →
        checkLoop s self (n + 1) refs vis = checkLoop s self n refs vis := by
  intro refs
  induction refs with
  | nil => intro vis _; rfl
  | cons q rest ih =>
    intro vis hne
    simp only [checkLoop] at hne ⊢
    have hr : HasCircleDependency s self n q vis ≠ Dfs.oof := by
      intro h0
      rw [h0] at hne
      exact hne rfl
    rw [HasCircleDependency_succ s self n q vis hr]
    cases h1 : HasCircleDependency s self n q vis with
    | yes => rfl
    | throw e => rfl
    | oof => exact absurd h1 hr
    | no v1 =>
      rw [h1] at hne
      exact ih _ hne

/-- A larger budget does not change what `CheckCircle` returned. -/
theorem CheckCircle_succ (s : Sheet E) (self : Nat) (n : Nat) (temp : FormulaAST E.Num)
    (h : CheckCircle s self n temp ≠ Dfs.oof) :
    CheckCircle s self (n + 1) temp = CheckCircle s self n temp :=
  checkLoop_succ s self n _ _ h

theorem runProg_mono {look look1 : Position → Sheet E → Res (Sheet E) (LookupRet E.Num)}
    (h : ∀ p s, look p s ≠ Res.oof → look1 p s = look p s) (prog : Prog E.Num) :
    ∀ s : Sheet E, runProg look prog s ≠ Res.oof → runProg look1 prog s = runProg look prog s := by
  induction prog with
  | done v => intro s _; rfl
  | ask p k ih =>
    intro s hne
    simp only [runProg] at hne ⊢
    have hl : look p s ≠ Res.oof := by
      intro h0
      rw [h0] at hne
      exact hne rfl
    rw [h p s hl]
    cases h1 : look p s with
    | oof => exact absurd h1 hl
    | throw e s1 => rfl
    | ret r s1 =>
      rw [h1] at hne
      cases r with
      | value v => exact ih v s1 hne
      | thrown e => rfl

theorem CellGetValueWith_mono {ev ev1 : FormulaAST E.Num → Sheet E → Res (Sheet E) (FValue E.Num)}
    (h : ∀ f s, ev f s ≠ Res.oof → ev1 f s = ev f s) (pos : Position) (c : Cell E) (s : Sheet E)
    (hne : CellGetValueWith ev pos c s ≠ Res.oof) :
    CellGetValueWith ev1 pos c s = CellGetValueWith ev pos c s := by
  unfold CellGetValueWith at hne ⊢
  cases hc : c.cache_ with
  | some v => rfl
  | none =>
    rw [hc] at hne
    simp only at hne ⊢
    cases hi : c.impl_ with
    | EmptyImpl => rfl
    | TextImpl t => rfl
    | FormulaImpl f =>
      rw [hi] at hne
      simp only at hne ⊢
      have hl : ev f s ≠ Res.oof := by
        intro h0
        rw [h0] at hne
        exact hne rfl
      rw [h f s hl]

theorem lookupCell_mono {gv gv1 : Position → Cell E → Sheet E → Res (Sheet E) (Value E.Num)}
    (h : ∀ p c s, gv p c s ≠ Res.oof → gv1 p c s = gv p c s) (pos : Position) (s : Sheet E)
    (hne : lookupCell gv pos s ≠ Res.oof) : lookupCell gv1 pos s = lookupCell gv pos s := by
  unfold lookupCell at hne ⊢
  split
  · rename_i hlt
    rw [if_pos hlt] at hne
    cases hg : GetCell s pos with
    | error e => rfl
    | ok p =>
      cases p with
      | none => rfl
      | some c =>
        rw [hg] at hne
        simp only at hne ⊢
        have hl : gv pos c s ≠ Res.oof := by
          intro h0
          rw [h0] at hne
          exact hne rfl
        rw [h pos c s hl]
  · rfl

/-- A larger budget does not change what `Evaluate` returned. -/
theorem Evaluate_succ : ∀ (n : Nat) (f : FormulaAST E.Num) (s : Sheet E),
    Evaluate n f s ≠ Res.oof → Evaluate (n + 1) f s = Evaluate n f s := by
  intro n
  induction n with
  | zero =>
    intro f s h
    exact absurd rfl h
  | succ n ih =>
    intro f s h
    simp only [Evaluate] at h ⊢
    refine runProg_mono ?_ f.exec s h
    intro p s1 h1
    refine lookupCell_mono ?_ p s1 h1
    intro p2 c2 s2 h2
    exact CellGetValueWith_mono ih p2 c2 s2 h2

theorem CellSet_succ (n : Nat) (s : Sheet E) (pos : Position) (self : Cell E) (text : String)
    (h : CellSet n s pos self text ≠ Res.oof) :
    CellSet (n + 1) s pos self text = CellSet n s pos self text := by
  unfold CellSet at h ⊢
  by_cases hf : isFormulaText text = true
  · simp only [if_pos hf] at h ⊢
    cases hp : E.ParseFormulaAST (substr1 text) with
    | none => rfl
    | some temp =>
      rw [hp] at h
      simp only at h ⊢
      have hc : CheckCircle s self.addr n temp ≠ Dfs.oof := by
        intro h0
        rw [h0] at h
        exact h rfl
      rw [CheckCircle_succ s self.addr n temp hc]
      cases hcc : CheckCircle s self.addr n temp with
      | yes => rfl
      | throw e => rfl
      | oof => exact absurd hcc hc
      | no vis =>
        rw [hcc] at h
        simp only at h ⊢
        cases hd : DeleteInverseDependenciesAndCache self.addr self.GetReferencedCells s with
        | oof => rfl
        | throw e sd => rfl
        | ret u sd =>
          rw [hd] at h
          simp only at h ⊢
          have he : Evaluate n temp (setImpl sd pos (Impl.FormulaImpl temp)) ≠ Res.oof := by
            intro h0
            rw [h0] at h
            exact h rfl
          rw [Evaluate_succ n temp _ he]
  · simp only [if_neg hf]

/-- A larger budget does not change the outcome of a `SetCell` call that ended
within the budget. -/
theorem SetCell_more_fuel (n m : Nat) (s : Sheet E) (pos : Position) (text : String)
    (hnm : n ≤ m) (h : SetCell n s pos text ≠ Res.oof) :
    SetCell m s pos text = SetCell n s pos text := by
  induction hnm with
  | refl => rfl
  | step hle ih =>
    rename_i k
    rw [← ih]
    have hk : SetCell k s pos text ≠ Res.oof := by rw [ih]; exact h
    unfold SetCell at hk ⊢
    by_cases hv : pos.IsValid = true
    · simp only [if_pos hv] at hk ⊢
      cases hs : slotAt (IncreaseSheetSize s pos).sheet_ pos.row.toNat pos.col.toNat with
      | none =>
        rw [hs] at hk
        exact CellSet_succ k _ _ _ _ hk
      | some c =>
        rw [hs] at hk
        exact CellSet_succ k _ _ _ _ hk
    · simp only [if_neg hv]

/-! ## The cycle search ends within a budget of the number of cells plus two -/

theorem slotAt_mem_storedPtrs {s : Sheet E} {r c : Nat} {cell : Cell E}
    (h : slotAt s.sheet_ r c = some cell) : some cell.addr ∈ storedPtrs s := by
  unfold slotAt at h
  cases hr : s.sheet_[r]? with
  | none => rw [hr] at h; cases h
  | some row =>
    rw [hr] at h
    simp only at h
    cases hc : row[c]? with
    | none => rw [hc] at h; cases h
    | some p =>
      rw [hc] at h
      simp only at h
      subst h
      unfold storedPtrs
      refine List.mem_map.mpr ⟨cell, ?_, rfl⟩
      refine List.mem_filterMap.mpr ⟨some cell, ?_, rfl⟩
      exact List.mem_flatten.mpr ⟨row, List.getElem?_mem hr, List.getElem?_mem hc⟩

theorem GetCell_mem_storedPtrs {s : Sheet E} {pos : Position} {cell : Cell E}
    (h : GetCell s pos = Except.ok (some cell)) : some cell.addr ∈ storedPtrs s := by
  obtain ⟨hv, hc⟩ := GetCell_ok_valid h
  rw [cellAt_valid hv] at hc
  exact slotAt_mem_storedPtrs hc

theorem unvisited_mono (s : Sheet E) {vis vis1 : List (Option Nat)} (h : vis ⊆ vis1) :
    unvisited s vis1 ≤ unvisited s vis := by
  unfold unvisited
  apply Finset.card_le_card
  intro x hx
  simp only [Finset.mem_sdiff, List.mem_toFinset] at hx ⊢
  exact ⟨hx.1, fun h1 => hx.2 (h h1)⟩

theorem unvisited_insert_le (s : Sheet E) (x : Option Nat) (vis : List (Option Nat)) :
    unvisited s (List.insert x vis) ≤ unvisited s vis :=
  unvisited_mono s (fun _ h => List.mem_insert_iff.mpr (Or.inr h))

theorem unvisited_insert_lt (s : Sheet E) {x : Option Nat} {vis : List (Option Nat)}
    (hx : x ∈ storedPtrs s) (hn : x ∉ vis) :
    unvisited s (List.insert x vis) < unvisited s vis := by
  unfold unvisited
  apply Finset.card_lt_card
  constructor
  · intro y hy
    simp only [Finset.mem_sdiff, List.mem_toFinset, List.mem_insert_iff] at hy ⊢
    exact ⟨hy.1, fun h1 => hy.2 (Or.inr h1)⟩
  · intro hsub
    have hin : x ∈ (storedPtrs s).toFinset \ vis.toFinset := by
      simp only [Finset.mem_sdiff, List.mem_toFinset]
      exact ⟨hx, hn⟩
    have := hsub hin
    rw [Finset.mem_sdiff, List.mem_toFinset, List.mem_toFinset] at this
    exact this.2 (List.mem_insert_self _ _)

theorem circleLoop_subset (s : Sheet E) (rec : Position → List (Option Nat) → Dfs)
    (hrec : ∀ q v v1, rec q v = Dfs.no v1 → v ⊆ v1) :
    ∀ (refs : List Position) (vis vis1 : List (Option Nat)),
      circleLoop s rec refs vis = Dfs.no vis1 → vis ⊆ vis1 := by
  intro refs
  induction refs with
  | nil =>
    intro vis vis1 h
    simp only [circleLoop] at h
    cases h
    exact fun _ h => h
  | cons q rest ih =>
    intro vis vis1 h
    simp only [circleLoop] at h
    cases hg : GetCell s q with
    | error e => rw [hg] at h; cases h
    | ok ptr =>
      rw [hg] at h
      simp only at h
      by_cases hm : ptrOf ptr ∈ vis
      · rw [if_pos hm] at h
        exact fun x hx => ih _ _ h (List.mem_insert_iff.mpr (Or.inr hx))
      · rw [if_neg hm] at h
        cases hr : rec q vis with
        | yes => rw [hr] at h; cases h
        | throw e => rw [hr] at h; cases h
        | oof => rw [hr] at h; cases h
        | no v1 =>
          rw [hr] at h
          simp only at h
          exact fun x hx => ih _ _ h (List.mem_insert_iff.mpr (Or.inr (hrec q vis v1 hr hx)))

theorem HasCircleDependency_subset (s : Sheet E) (self : Nat) :
    ∀ (n : Nat) (cur : Position) (vis vis1 : List (Option Nat)),
      HasCircleDependency s self n cur vis = Dfs.no vis1 → vis ⊆ vis1 := by
  intro n
  induction n with
  | zero =>
    intro cur vis vis1 h
    simp [HasCircleDependency] at h
  | succ n ih =>
    intro cur vis vis1 h
    simp only [HasCircleDependency] at h
    cases hg : GetCell s cur with
    | error e => rw [hg] at h; cases h
    | ok pc =>
      rw [hg] at h
      cases pc with
      | none =>
        simp only at h
        cases h
        exact fun _ h => h
      | some c =>
        simp only at h
        by_cases hc : c.addr = self
        · rw [if_pos hc] at h
          cases h
        · rw [if_neg hc] at h
          exact fun x hx => circleLoop_subset s _ ih _ _ _ h
            (List.mem_insert_iff.mpr (Or.inr hx))

theorem circleLoop_ends (s : Sheet E) (rec : Position → List (Option Nat) → Dfs) (k : Nat)
    (hsub : ∀ q v v1, rec q v = Dfs.no v1 → v ⊆ v1)
    (hrec : ∀ q v, (∀ c, GetCell s q = Except.ok (some c) → some c.addr ∉ v) →
      unvisited s v + 1 ≤ k → rec q v ≠ Dfs.oof) :
    ∀ (refs : List Position) (vis : List (Option Nat)), unvisited s vis + 1 ≤ k →
      circleLoop s rec refs vis ≠ Dfs.oof := by
  intro refs
  induction refs with
  | nil =>
    intro vis _ h
    simp [circleLoop] at h
  | cons q rest ih =>
    intro vis hk
    simp only [circleLoop]
    cases hg : GetCell s q with
    | error e => simp
    | ok ptr =>
      simp only
      by_cases hm : ptrOf ptr ∈ vis
      · rw [if_pos hm]
        exact ih _ (Nat.le_trans (Nat.succ_le_succ (unvisited_insert_le s _ _)) hk)
      · rw [if_neg hm]
        have hr : rec q vis ≠ Dfs.oof := by
          refine hrec q vis ?_ hk
          intro c hc
          rw [hg] at hc
          cases hc
          exact hm
        cases h1 : rec q vis with
        | yes => simp
        | throw e => simp
        | oof => exact absurd h1 hr
        | no v1 =>
          simp only
          refine ih _ ?_
          have h2 := unvisited_mono s (hsub q vis v1 h1)
          have h3 := unvisited_insert_le s (ptrOf ptr) v1
          omega

theorem HasCircleDependency_ends (s : Sheet E) (self : Nat) :
    ∀ (k : Nat) (cur : Position) (vis : List (Option Nat)),
      (∀ c, GetCell s cur = Except.ok (some c) → some c.addr ∉ vis) →
      unvisited s vis + 1 ≤ k → HasCircleDependency s self k cur vis ≠ Dfs.oof := by
  intro k
  induction k with
  | zero =>
    intro cur vis _ h
    omega
  | succ k ih =>
    intro cur vis hnew hk
    simp only [HasCircleDependency]
    cases hg : GetCell s cur with
    | error e => simp
    | ok pc =>
      cases pc with
      | none => simp
      | some c =>
        simp only
        by_cases hc : c.addr = self
        · rw [if_pos hc]
          simp
        · rw [if_neg hc]
          refine circleLoop_ends s _ k (HasCircleDependency_subset s self k) ih _ _ ?_
          have := unvisited_insert_lt s (GetCell_mem_storedPtrs hg) (hnew c hg)
          omega

theorem HasCircleDependency_ends_root (s : Sheet E) (self : Nat) (k : Nat) (cur : Position)
    (vis : List (Option Nat)) (hk : unvisited s vis + 2 ≤ k) :
    HasCircleDependency s self k cur vis ≠ Dfs.oof := by
  cases k with
  | zero => omega
  | succ k =>
    simp only [HasCircleDependency]
    cases hg : GetCell s cur with
    | error e => simp
    | ok pc =>
      cases pc with
      | none => simp
      | some c =>
        simp only
        by_cases hc : c.addr = self
        · rw [if_pos hc]
          simp
        · rw [if_neg hc]
          refine circleLoop_ends s _ k (HasCircleDependency_subset s self k)
            (HasCircleDependency_ends s self k) _ _ ?_
          have := unvisited_insert_le s (some c.addr) vis
          omega

theorem checkLoop_ends (s : Sheet E) (self : Nat) (k : Nat) :
    ∀ (refs : List Position) (vis : List (Option Nat)), unvisited s vis + 2 ≤ k →
      checkLoop s self k refs vis ≠ Dfs.oof := by
  intro refs
  induction refs with
  | nil =>
    intro vis _ h
    simp [checkLoop] at h
  | cons q rest ih =>
    intro vis hk
    simp only [checkLoop]
    have hr := HasCircleDependency_ends_root s self k q vis hk
    cases h1 : HasCircleDependency s self k q vis with
    | yes => simp
    | throw e => simp
    | oof => exact absurd h1 hr
    | no v1 =>
      simp only
      refine ih _ ?_
      have := unvisited_mono s (HasCircleDependency_subset s self k q vis v1 h1)
      omega

/-- With a budget of the number of stored cells plus two, `CheckCircle` returns
or throws. -/
theorem CheckCircle_ends (s : Sheet E) (self : Nat) (fuel : Nat) (temp : FormulaAST E.Num)
    (h : (storedPtrs s).length + 2 ≤ fuel) : CheckCircle s self fuel temp ≠ Dfs.oof := by
  unfold CheckCircle
  refine checkLoop_ends s self fuel _ _ ?_
  have h1 : unvisited s [] ≤ (storedPtrs s).length := by
    unfold unvisited
    refine Nat.le_trans (Finset.card_le_card Finset.sdiff_subset) ?_
    exact List.toFinset_card_le _
  omega

/-! ## C11 -/

theorem isFormulaText_false_of {text : String}
    (hs : text.data.head? ≠ some FORMULA_SIGN ∨ text.data.length = 1) :
    isFormulaText text = false := by
  unfold isFormulaText
  rcases hs with h | h
  · simp [h]
  · simp [h]

theorem TextImplGetValue_eq (text : String) :
    TextImplGetValue text =
      if text.data.head? = some ESCAPE_SIGN then String.mk text.data.tail else text := by
  unfold TextImplGetValue
  cases h : text.data with
  | nil => simp
  | cons ch rest =>
    simp only [List.head?_cons, Option.some.injEq, List.tail_cons]

/-- The cell at `pos` after the text branch of `Cell::Set`. -/
theorem cellAt_text_edit {s : Sheet E} {pos : Position} {c : Cell E} (hv : pos.IsValid = true)
    (hc : cellAt s pos = some c) (i : Impl E) (v : Option (Value E.Num)) :
    cellAt (setCache (setImpl s pos i) pos v) pos = some ⟨c.addr, i, v, c.influencing_cells_⟩ := by
  unfold setCache setImpl
  rw [cellAt_modifyCell _ _ _ _ hv, if_pos rfl, cellAt_modifyCell _ _ _ _ hv, if_pos rfl, hc]
  rfl

/-- C11: for a valid position and a non-empty text that does not start with the
formula sign or has length 1, SetCell returns and makes the cell a Text cell:
GetText is the text itself (leading apostrophe included), the reference list is
empty, and GetValue is the text without its first character when it starts with
the apostrophe, the text itself otherwise. -/
theorem C11_text_cells (fuel : Nat) (s : Sheet E) (p : Position) (text : String)
    (hv : p.IsValid = true) (hne : text.data ≠ [])
    (hs : text.data.head? ≠ some FORMULA_SIGN ∨ text.data.length = 1) :
    ∃ s1 c, SetCell fuel s p text = Res.ret () s1 ∧ cellAt s1 p = some c ∧
      c.impl_ = Impl.TextImpl text ∧ GetText s1 p = some text ∧
      c.GetReferencedCells = [] ∧
      ∀ fuel1, GetValue fuel1 s1 p = some (Res.ret
        (Value.text (if text.data.head? = some ESCAPE_SIGN then String.mk text.data.tail
          else text)) s1) := by
  obtain ⟨c0, hc0, hset⟩ := SetCell_eq_CellSet fuel s p text hv
  have hf := isFormulaText_false_of hs
  have hres : CellSet fuel (prepare s p) p c0 text =
      Res.ret () (setCache (setImpl (prepare s p) p (Impl.TextImpl text)) p
        (some (Value.text (TextImplGetValue text)))) := by
    unfold CellSet
    rw [hf]
    simp only [Bool.false_eq_true, if_false]
    have : (!text.data.isEmpty) = true := by
      cases h : text.data with
      | nil => exact absurd h hne
      | cons a b => rfl
    rw [if_pos this]
  have hcell := cellAt_text_edit hv hc0 (Impl.TextImpl text)
    (some (Value.text (TextImplGetValue text)))
  refine ⟨_, _, by rw [hset, hres], hcell, rfl, ?_, rfl, ?_⟩
  · unfold GetText
    rw [hcell]
    rfl
  · intro fuel1
    unfold GetValue
    rw [hcell, ← TextImplGetValue_eq]
    rfl

/-- C11 at concrete inputs: SetCell(A1,"'=B1") gives the text "'=B1" and the
value "=B1"; SetCell(A1,"=") gives the text and the value "=". -/
theorem C11_text_cells_witness :
    (∃ s1 c, SetCell 5 (emptySheet : Sheet demo) A1 "'=B1" = Res.ret () s1 ∧
      cellAt s1 A1 = some c ∧ c.impl_ = Impl.TextImpl "'=B1" ∧ GetText s1 A1 = some "'=B1" ∧
      c.GetReferencedCells = [] ∧
      ∀ fuel1, GetValue fuel1 s1 A1 = some (Res.ret (Value.text "=B1") s1)) ∧
    (∃ s1 c, SetCell 5 (emptySheet : Sheet demo) A1 "=" = Res.ret () s1 ∧
      cellAt s1 A1 = some c ∧ c.impl_ = Impl.TextImpl "=" ∧ GetText s1 A1 = some "=" ∧
      c.GetReferencedCells = [] ∧
      ∀ fuel1, GetValue fuel1 s1 A1 = some (Res.ret (Value.text "=") s1)) :=
  ⟨C11_text_cells 5 (emptySheet : Sheet demo) A1 "'=B1" (by decide) (by decide)
      (Or.inl (by decide)),
   C11_text_cells 5 (emptySheet : Sheet demo) A1 "=" (by decide) (by decide)
      (Or.inr (by decide))⟩

/-! ## C12 -/

/-- C12 (failing input): after SetCell(A1,"x") and SetCell(A1,"") the contents
of A1 are Empty and GetText(A1) is "", but the cache still holds the value of
the text "x", so GetValue(A1) returns Text("x") and not Text(""); the same holds
when `Cell::Clear` is called on the cell holding "x". -/
theorem C12_empty_cell_keeps_old_value :
    (cellAt (sheetAfter 5 [(A1, some "x"), (A1, some "")] : Sheet demo) A1).map Cell.impl_ =
      some Impl.EmptyImpl ∧
    GetText (sheetAfter 5 [(A1, some "x"), (A1, some "")] : Sheet demo) A1 = some "" ∧
    (GetValue 5 (sheetAfter 5 [(A1, some "x"), (A1, some "")] : Sheet demo) A1).map Res.value =
      some (some (Value.text "x")) ∧
    GetText (CellClear (sheetAfter 5 [(A1, some "x")] : Sheet demo) A1) A1 = some "" ∧
    (GetValue 5 (CellClear (sheetAfter 5 [(A1, some "x")] : Sheet demo) A1) A1).map Res.value =
      some (some (Value.text "x")) :=
  ⟨rfl, rfl, rfl, rfl, rfl⟩

/-! ## C13 -/

/-- C13 (failing input): after SetCell(A1,"1"), SetCell(A2,"=A1+1") and
SetCell(A1,"5") the text of A2 is "=A1+1" and GetValue(A2) returns 2; the call
SetCell(A2,"=A1+1"), which sets A2 to its own text, returns, and afterwards
GetValue(A2) returns 6. -/
theorem C13_resetting_own_text_changes_value :
    GetText (sheetAfter 5 [(A1, some "1"), (A2, some "=A1+1"), (A1, some "5")] : Sheet demo) A2 =
      some "=A1+1" ∧
    (GetValue 5 (sheetAfter 5 [(A1, some "1"), (A2, some "=A1+1"), (A1, some "5")] : Sheet demo)
      A2).map Res.value = some (some (Value.number (2 : Int))) ∧
    (SetCell 5 (sheetAfter 5 [(A1, some "1"), (A2, some "=A1+1"), (A1, some "5")] : Sheet demo)
      A2 "=A1+1").value = some () ∧
    ((SetCell 5 (sheetAfter 5 [(A1, some "1"), (A2, some "=A1+1"), (A1, some "5")] : Sheet demo)
      A2 "=A1+1").sheet.bind (fun s1 => GetValue 5 s1 A2)).map Res.value =
      some (some (Value.number (6 : Int))) :=
  ⟨rfl, rfl, rfl, rfl⟩

/-! ## C14 -/

/-- C14 (failing input): the stream operator writes "#DIV/0!" for every category,
so a Ref error and a Value error are written as "#DIV/0!" and not as "#REF!" and
"#VALUE!"; for instance after SetCell(A1,"abc") and SetCell(A2,"=A1+1") the value
of A2 is the Value error and PrintValues writes the row of A2 as "#DIV/0!". -/
theorem C14_every_error_printed_as_div0 :
    (∀ fe : FormulaError, writeFormulaError fe = "#DIV/0!") ∧
    writeFormulaError FormulaError.Ref ≠ "#REF!" ∧
    writeFormulaError FormulaError.Value ≠ "#VALUE!" ∧
    (GetValue 5 (sheetAfter 5 [(A1, some "abc"), (A2, some "=A1+1")] : Sheet demo) A2).map
      Res.value = some (some (Value.error FormulaError.Value)) ∧
    (PrintValues 5 demoRender
      (sheetAfter 5 [(A1, some "abc"), (A2, some "=A1+1")] : Sheet demo)).value =
      some "abc\n#DIV/0!\n" :=
  ⟨fun _ => rfl, by decide, by decide, rfl, by decide⟩

/-! ## C18 -/

/-- C18: for a valid position, after IncreaseSheetSize(pos) the row index is
below the number of stored rows and the column index is below the length of
that row; no row is lost, no row got shorter, and every cell stored before is
still in its slot. -/
theorem C18_growth_reaches_target (s : Sheet E) (pos : Position) (hv : pos.IsValid = true) :
    pos.row.toNat < (IncreaseSheetSize s pos).sheet_.length ∧
    pos.col.toNat < rowLen (IncreaseSheetSize s pos).sheet_ pos.row.toNat ∧
    s.sheet_.length ≤ (IncreaseSheetSize s pos).sheet_.length ∧
    (∀ r, rowLen s.sheet_ r ≤ rowLen (IncreaseSheetSize s pos).sheet_ r) ∧
    (∀ r c cell, slotAt s.sheet_ r c = some cell →
      slotAt (IncreaseSheetSize s pos).sheet_ r c = some cell) := by
  obtain ⟨g, h1, h2⟩ := IncreaseSheetSize_spec s pos hv
  exact ⟨h1, h2, g.2.2.2.2.1, g.2.2.2.2.2, g.2.1⟩

/-- C18 at a concrete input: IncreaseSheetSize(Z9) on the sheet holding "x" in
A1. -/
theorem C18_growth_reaches_target_witness :
    Z9.row.toNat < (IncreaseSheetSize (sheetAfter 5 [(A1, some "x")] : Sheet demo) Z9).sheet_.length ∧
    Z9.col.toNat <
      rowLen (IncreaseSheetSize (sheetAfter 5 [(A1, some "x")] : Sheet demo) Z9).sheet_
        Z9.row.toNat ∧
    (sheetAfter 5 [(A1, some "x")] : Sheet demo).sheet_.length ≤
      (IncreaseSheetSize (sheetAfter 5 [(A1, some "x")] : Sheet demo) Z9).sheet_.length ∧
    (∀ r, rowLen (sheetAfter 5 [(A1, some "x")] : Sheet demo).sheet_ r ≤
      rowLen (IncreaseSheetSize (sheetAfter 5 [(A1, some "x")] : Sheet demo) Z9).sheet_ r) ∧
    (∀ r c cell, slotAt (sheetAfter 5 [(A1, some "x")] : Sheet demo).sheet_ r c = some cell →
      slotAt (IncreaseSheetSize (sheetAfter 5 [(A1, some "x")] : Sheet demo) Z9).sheet_ r c =
        some cell) :=
  C18_growth_reaches_target (sheetAfter 5 [(A1, some "x")] : Sheet demo) Z9 (by decide)

/-! ## C20 -/

/-- The frame of a step that grows the storage and then changes at most caches,
reverse sets and the implementation of the cell at `p`. -/
theorem frame_of_grow_edit {s s0 s1 : Sheet E} {p : Position} (hv : p.IsValid = true)
    (hg : Grows s s0)
    (hs : SameShape s0 s1 ∨ ∃ i, SameShape (setImpl s0 p i) s1) :
    (∀ q c, q ≠ p → cellAt s q = some c →
      ∃ c1, cellAt s1 q = some c1 ∧ c1.addr = c.addr ∧ c1.impl_ = c.impl_) ∧
    (∀ q c1, q ≠ p → cellAt s q = none → cellAt s1 q = some c1 → c1.impl_ = Impl.EmptyImpl) := by
  have key : ∀ q, q ≠ p → ∀ c0, cellAt s0 q = some c0 →
      ∃ c1, cellAt s1 q = some c1 ∧ c1.addr = c0.addr ∧ c1.impl_ = c0.impl_ := by
    intro q hq c0 hc0
    rcases hs with h | ⟨i, h⟩
    · exact SameShape_cellAt h hc0
    · refine SameShape_cellAt h ?_
      unfold setImpl
      rw [cellAt_modifyCell _ _ _ _ hv, if_neg hq]
      exact hc0
  have keyInv : ∀ q, q ≠ p → ∀ c1, cellAt s1 q = some c1 →
      ∃ c0, cellAt s0 q = some c0 ∧ c1.impl_ = c0.impl_ := by
    intro q hq c1 hc1
    rcases hs with h | ⟨i, h⟩
    · obtain ⟨c0, h0, _, h2⟩ := SameShape_cellAt (SameShape_symm h) hc1
      exact ⟨c0, h0, h2.symm⟩
    · obtain ⟨c0, h0, _, h2⟩ := SameShape_cellAt (SameShape_symm h) hc1
      unfold setImpl at h0
      rw [cellAt_modifyCell _ _ _ _ hv, if_neg hq] at h0
      exact ⟨c0, h0, h2.symm⟩
  refine ⟨?_, ?_⟩
  · intro q c hq hc
    exact key q hq c (Grows_cellAt hg hc)
  · intro q c1 hq hn hc1
    obtain ⟨c0, h0, h2⟩ := keyInv q hq c1 hc1
    rcases Grows_cellAt_inv hg h0 with h3 | ⟨_, h4, _⟩
    · rw [hn] at h3
      cases h3
    · rw [h2, h4]
      rfl

/-- The frame of `SetCell` and `ClearCell` on the cells at other positions. -/
theorem edit_frame_cells {s s1 : Sheet E} {p : Position}
    (h : (∃ fuel text, (SetCell fuel s p text).sheet = some s1) ∨
      (ClearCell s p).sheet = some s1) :
    (∀ q c, q ≠ p → cellAt s q = some c →
      ∃ c1, cellAt s1 q = some c1 ∧ c1.addr = c.addr ∧ c1.impl_ = c.impl_) ∧
    (∀ q c1, q ≠ p → cellAt s q = none → cellAt s1 q = some c1 → c1.impl_ = Impl.EmptyImpl) := by
  have same : ∀ s2 : Sheet E, s2 = s →
      (∀ q c, q ≠ p → cellAt s q = some c →
        ∃ c1, cellAt s2 q = some c1 ∧ c1.addr = c.addr ∧ c1.impl_ = c.impl_) ∧
      (∀ q c1, q ≠ p → cellAt s q = none → cellAt s2 q = some c1 →
        c1.impl_ = Impl.EmptyImpl) := by
    intro s2 h2
    subst h2
    refine ⟨fun q c _ hc => ⟨c, hc, rfl, rfl⟩, ?_⟩
    intro q c1 _ hn hc
    rw [hn] at hc
    cases hc
  rcases h with ⟨fuel, text, h⟩ | h
  · by_cases hv : p.IsValid = true
    · obtain ⟨c, _, hset⟩ := SetCell_eq_CellSet fuel s p text hv
      obtain ⟨hg, _⟩ := prepare_spec s p hv
      rw [hset] at h
      refine frame_of_grow_edit hv hg ?_
      rcases CellSet_sheet h with h1 | ⟨_, i, _, h1⟩ | ⟨temp, _, _, _, _, h1⟩
      · exact Or.inl h1
      · exact Or.inr ⟨i, h1⟩
      · exact Or.inr ⟨_, h1⟩
    · unfold SetCell at h
      rw [if_neg hv] at h
      cases h
      exact same s rfl
  · rcases ClearCell_sheet h with h1 | ⟨hv, h1⟩
    · exact same s1 h1
    · subst h1
      refine ⟨?_, ?_⟩
      · intro q c hq hc
        refine ⟨c, ?_, rfl, rfl⟩
        rw [cellAt_setSlot none s.next hv]
        simp only [hq, false_and, if_false]
        exact hc
      · intro q c1 hq hn hc
        rw [cellAt_setSlot none s.next hv] at hc
        simp only [hq, false_and, if_false] at hc
        rw [hn] at hc
        cases hc

/-- C20: whatever sheet a call SetCell(p, text) leaves behind, returning or
rejected, and likewise for ClearCell(p): at every other position q the text
(GetText of the cell, the empty text where GetCell is null) is what it was;
every cell stored at another position before the call is still there with the
same contents, hence the same text and reference list; and a cell that appeared
at another position is Empty. -/
theorem C20_edit_frame_on_texts (s s1 : Sheet E) (p : Position)
    (h : (∃ fuel text, (SetCell fuel s p text).sheet = some s1) ∨
      (ClearCell s p).sheet = some s1) :
    (∀ q, q ≠ p → textAt s1 q = textAt s q) ∧
    (∀ q c, q ≠ p → cellAt s q = some c →
      ∃ c1, cellAt s1 q = some c1 ∧ c1.addr = c.addr ∧ c1.impl_ = c.impl_ ∧
        c1.GetText = c.GetText ∧ c1.GetReferencedCells = c.GetReferencedCells) ∧
    (∀ q c1, q ≠ p → cellAt s q = none → cellAt s1 q = some c1 →
      c1.impl_ = Impl.EmptyImpl ∧ c1.GetText = "") := by
  obtain ⟨h1, h2⟩ := edit_frame_cells h
  refine ⟨?_, ?_, ?_⟩
  · intro q hq
    unfold textAt
    cases hc : cellAt s q with
    | some c =>
      obtain ⟨c1, hc1, _, hi⟩ := h1 q c hq hc
      rw [hc1]
      simp only [Cell.GetText, hi]
    | none =>
      cases hc1 : cellAt s1 q with
      | none => rfl
      | some c1 =>
        have := h2 q c1 hq hc hc1
        simp only [Cell.GetText, this]
        rfl
  · intro q c hq hc
    obtain ⟨c1, hc1, ha, hi⟩ := h1 q c hq hc
    exact ⟨c1, hc1, ha, hi, by simp only [Cell.GetText, hi],
      by simp only [Cell.GetReferencedCells, hi]⟩
  · intro q c1 hq hn hc1
    have := h2 q c1 hq hn hc1
    refine ⟨this, ?_⟩
    simp only [Cell.GetText, this]
    rfl

/-- C20 at a concrete input: SetCell(B1,"=A1+1") on the sheet holding "1" in A1
leaves the text "1" at A1 and the empty text at Z9. -/
theorem C20_edit_frame_witness :
    (SetCell 5 (sheetAfter 5 [(A1, some "1")] : Sheet demo) B1 "=A1+1").sheet =
      some (sheetAfter 5 [(A1, some "1"), (B1, some "=A1+1")]) ∧
    textAt (sheetAfter 5 [(A1, some "1"), (B1, some "=A1+1")] : Sheet demo) A1 = "1" ∧
    textAt (sheetAfter 5 [(A1, some "1"), (B1, some "=A1+1")] : Sheet demo) Z9 =
      textAt (sheetAfter 5 [(A1, some "1")] : Sheet demo) Z9 :=
  ⟨rfl, rfl,
   (C20_edit_frame_on_texts (sheetAfter 5 [(A1, some "1")] : Sheet demo)
      (sheetAfter 5 [(A1, some "1"), (B1, some "=A1+1")]) B1
      (Or.inl ⟨5, "=A1+1", rfl⟩)).1 Z9 (by decide)⟩

/-! ## C16 -/

theorem dedupLoop_append : ∀ (cells result : List Position),
    ∃ l, dedupLoop cells result = result ++ l ∧ l.Sublist cells := by
  intro cells
  induction cells with
  | nil =>
    intro result
    exact ⟨[], by simp [dedupLoop], List.Sublist.refl _⟩
  | cons cell rest ih =>
    intro result
    simp only [dedupLoop]
    split
    · obtain ⟨l, h1, h2⟩ := ih (result ++ [cell])
      exact ⟨cell :: l, by rw [h1]; simp, h2.cons₂ cell⟩
    · split
      · obtain ⟨l, h1, h2⟩ := ih (result ++ [cell])
        exact ⟨cell :: l, by rw [h1]; simp, h2.cons₂ cell⟩
      · obtain ⟨l, h1, h2⟩ := ih result
        exact ⟨l, h1, h2.cons cell⟩

theorem mem_dedupLoop : ∀ (cells result : List Position) (p : Position),
    p ∈ dedupLoop cells result ↔ p ∈ result ∨ p ∈ cells := by
  intro cells
  induction cells with
  | nil =>
    intro result p
    simp [dedupLoop]
  | cons cell rest ih =>
    intro result p
    simp only [dedupLoop]
    split
    · rw [ih]
      simp only [List.mem_append, List.mem_singleton, List.mem_cons]
      tauto
    · split
      · rw [ih]
        simp only [List.mem_append, List.mem_singleton, List.mem_cons]
        tauto
      · rename_i h
        have hl : result.getLast? = some cell := by
          by_contra hn
          exact h hn
        have hm : cell ∈ result := List.mem_of_mem_getLast? hl
        rw [ih]
        simp only [List.mem_cons]
        constructor
        · tauto
        · rintro (h1 | h1 | h1)
          · exact Or.inl h1
          · exact Or.inl (h1 ▸ hm)
          · exact Or.inr h1

theorem pairwise_dedupLoop (lt : Position → Position → Prop) (hirr : ∀ a, ¬ lt a a)
    (htr : ∀ a b c, lt a b → lt b c → lt a c) :
    ∀ (cells result : List Position),
      cells.Pairwise (fun a b => lt a b ∨ a = b) → result.Pairwise lt →
      (∀ x ∈ result, ∀ y ∈ cells, lt x y ∨ x = y) →
      (dedupLoop cells result).Pairwise lt := by
  intro cells
  induction cells with
  | nil =>
    intro result _ hr _
    simpa [dedupLoop] using hr
  | cons cell rest ih =>
    intro result hc hr hle
    have hc1 := List.pairwise_cons.mp hc
    have push : result.getLast? ≠ some cell → (dedupLoop rest (result ++ [cell])).Pairwise lt := by
      intro hne
      refine ih _ hc1.2 ?_ ?_
      · rw [List.pairwise_append]
        refine ⟨hr, List.pairwise_singleton _ _, ?_⟩
        intro x hx y hy
        rw [List.mem_singleton] at hy
        subst hy
        rcases hle x hx y (List.mem_cons_self _ _) with h | h
        · exact h
        · subst h
          exfalso
          -- `x` is in `result` but is not its last element
          obtain ⟨l1, l2, hsplit⟩ := List.append_of_mem hx
          cases hl2 : l2.getLast? with
          | none =>
            have : l2 = [] := List.getLast?_eq_none_iff.mp hl2
            subst this
            apply hne
            rw [hsplit]
            simp
          | some z =>
            have hz : z ∈ l2 := List.mem_of_mem_getLast? hl2
            have hzr : z ∈ result := by
              rw [hsplit]
              simp [hz]
            have hxz : lt x z := by
              rw [hsplit] at hr
              have h2 := (List.pairwise_append.mp hr).2.1
              exact (List.pairwise_cons.mp h2).1 z hz
            rcases hle z hzr x (List.mem_cons_self _ _) with h3 | h3
            · exact hirr x (htr _ _ _ hxz h3)
            · subst h3
              exact hirr _ hxz
      · intro x hx y hy
        rw [List.mem_append, List.mem_singleton] at hx
        rcases hx with hx | hx
        · exact hle x hx y (List.mem_cons_of_mem _ hy)
        · subst hx
          exact hc1.1 y hy
    simp only [dedupLoop]
    split
    · rename_i he
      refine push ?_
      have : result = [] := by simpa using he
      subst this
      simp
    · split
      · rename_i hne
        exact push hne
      · exact ih _ hc1.2 hr (fun x hx y hy => hle x hx y (List.mem_cons_of_mem _ hy))

/-- C16: when the cell list of the AST is sorted ascending by `operator<` (a
strict order), `Formula::GetReferencedCells` returns a list that is strictly
ascending, holds no position twice, is a sublist of the cell list of the AST
and has the same members; for Text and Empty contents the reference list is
empty. -/
theorem C16_referenced_cells_list (f : FormulaAST E.Num)
    (hirr : ∀ a, E.posLt a a = false)
    (htr : ∀ a b c, E.posLt a b = true → E.posLt b c = true → E.posLt a c = true)
    (hs : f.cells.Pairwise (fun a b => E.posLt a b = true ∨ a = b)) :
    f.GetReferencedCells.Pairwise (fun a b => E.posLt a b = true) ∧
    f.GetReferencedCells.Nodup ∧
    f.GetReferencedCells.Sublist f.cells ∧
    (∀ p, p ∈ f.GetReferencedCells ↔ p ∈ f.cells) ∧
    (Impl.FormulaImpl f : Impl E).GetReferencedCells = f.GetReferencedCells ∧
    (∀ t, (Impl.TextImpl t : Impl E).GetReferencedCells = []) ∧
    (Impl.EmptyImpl : Impl E).GetReferencedCells = [] := by
  have hp : f.GetReferencedCells.Pairwise (fun a b => E.posLt a b = true) := by
    unfold FormulaAST.GetReferencedCells
    refine pairwise_dedupLoop (fun a b => E.posLt a b = true) ?_ htr f.cells [] hs
      List.Pairwise.nil ?_
    · intro a h
      rw [hirr a] at h
      cases h
    · intro x hx
      cases hx
  refine ⟨hp, ?_, ?_, ?_, rfl, fun _ => rfl, rfl⟩
  · refine hp.imp ?_
    intro a b h hab
    subst hab
    rw [hirr a] at h
    cases h
  · obtain ⟨l, h1, h2⟩ := dedupLoop_append f.cells []
    unfold FormulaAST.GetReferencedCells
    rw [h1]
    simpa using h2
  · intro p
    unfold FormulaAST.GetReferencedCells
    rw [mem_dedupLoop]
    simp

theorem lexLt_irrefl (a : Position) : lexLt a a = false := by
  unfold lexLt
  simp

theorem lexLt_trans (a b c : Position) (h1 : lexLt a b = true) (h2 : lexLt b c = true) :
    lexLt a c = true := by
  unfold lexLt at *
  simp only [Bool.or_eq_true, Bool.and_eq_true, decide_eq_true_eq] at *
  omega

/-- C16 at a concrete input: the formula "A1+B1+A1" of the engine instance has
the cell list A1, A1, B1 and the reference list A1, B1. -/
theorem C16_referenced_cells_list_witness :
    (demoFormula "A1+B1+A1").cells = [A1, A1, B1] ∧
    (demoFormula "A1+B1+A1").GetReferencedCells = [A1, B1] ∧
    (demoFormula "A1+B1+A1").GetReferencedCells.Pairwise (fun a b => demo.posLt a b = true) ∧
    (demoFormula "A1+B1+A1").GetReferencedCells.Nodup :=
  ⟨by decide, by decide,
   (@C16_referenced_cells_list demo (demoFormula "A1+B1+A1") lexLt_irrefl lexLt_trans
      (by decide)).1,
   (@C16_referenced_cells_list demo (demoFormula "A1+B1+A1") lexLt_irrefl lexLt_trans
      (by decide)).2.1⟩

/-! ## C19 -/

/-- C19 (failing input): after SetCell((0,0),"a"), SetCell((0,3),"b") and
SetCell((1,0),"c") the printable size is 2 rows by 4 columns, the stored rows
have 5 and 3 slots, and the print loops make the element access `sheet_[1][3]`,
whose column is not below the length 3 of row 1; PrintTexts is undefined from
that access on. -/
theorem C19_print_access_outside_row :
    GetPrintableSize
      (sheetAfter 5 [(⟨0, 0⟩, some "a"), (⟨0, 3⟩, some "b"), (⟨1, 0⟩, some "c")] : Sheet demo) =
      ⟨2, 4⟩ ∧
    (sheetAfter 5 [(⟨0, 0⟩, some "a"), (⟨0, 3⟩, some "b"), (⟨1, 0⟩, some "c")] :
      Sheet demo).sheet_.map List.length = [5, 3] ∧
    (1, 3) ∈ printAccesses
      (sheetAfter 5 [(⟨0, 0⟩, some "a"), (⟨0, 3⟩, some "b"), (⟨1, 0⟩, some "c")] : Sheet demo) ∧
    ¬ 3 < rowLen
      (sheetAfter 5 [(⟨0, 0⟩, some "a"), (⟨0, 3⟩, some "b"), (⟨1, 0⟩, some "c")] :
        Sheet demo).sheet_ 1 ∧
    PrintTexts
      (sheetAfter 5 [(⟨0, 0⟩, some "a"), (⟨0, 3⟩, some "b"), (⟨1, 0⟩, some "c")] : Sheet demo) =
      Printed.outOfRange 1 3 :=
  ⟨by decide, by decide, by decide, by decide, by decide⟩

/-! ## The stored formulas of a reachable sheet -/

theorem RefsValid_of_FormulasOK {s : Sheet E} (h : FormulasOK s) : RefsValid s := by
  intro u c hc v hv
  unfold Cell.GetReferencedCells at hv
  cases hi : c.impl_ with
  | EmptyImpl => rw [hi] at hv; simp [Impl.GetReferencedCells] at hv
  | TextImpl t => rw [hi] at hv; simp [Impl.GetReferencedCells] at hv
  | FormulaImpl f =>
    rw [hi] at hv
    exact (h _ _ c f (cellAt_some hc).2.2 hi).2 v hv

theorem CheckCircle_no_valid {s : Sheet E} (hi : AddrInv s) {self : Nat} {fuel : Nat}
    {temp : FormulaAST E.Num} {vis : List (Option Nat)}
    (h : CheckCircle s self fuel temp = Dfs.no vis) :
    ∀ v ∈ temp.GetReferencedCells, v.IsValid = true := by
  unfold CheckCircle at h
  obtain ⟨_, _, h3, _⟩ := checkLoop_spec s self fuel hi _ [] vis (by simp) h
  intro v hv
  obtain ⟨pc, hpc, _⟩ := h3 v hv
  exact (GetCell_ok_valid hpc).1

theorem FormulasOK_of_Grows {s s1 : Sheet E} (hg : Grows s s1) (h : FormulasOK s) :
    FormulasOK s1 := by
  intro r c cell f hc hf
  rcases hg.2.2.1 r c cell hc with h1 | ⟨_, h2, _⟩
  · exact h r c cell f h1 hf
  · rw [h2] at hf
    cases hf

theorem SameShape_slotAt {s s1 : Sheet E} (h : SameShape s s1) {r c : Nat} {c1 : Cell E}
    (hc : slotAt s1.sheet_ r c = some c1) :
    ∃ c0, slotAt s.sheet_ r c = some c0 ∧ c1.addr = c0.addr ∧ c1.impl_ = c0.impl_ := by
  have := h.2.2.2 r c
  rw [hc] at this
  cases h0 : slotAt s.sheet_ r c with
  | none => rw [h0] at this; simp at this
  | some c0 =>
    rw [h0] at this
    simp only [Option.map_some', Option.some.injEq, Prod.mk.injEq] at this
    exact ⟨c0, rfl, this.1, this.2⟩

theorem FormulasOK_of_SameShape {s s1 : Sheet E} (hs : SameShape s s1) (h : FormulasOK s) :
    FormulasOK s1 := by
  intro r c c1 f hc hf
  obtain ⟨c0, h0, _, h2⟩ := SameShape_slotAt hs hc
  exact h r c c0 f h0 (h2 ▸ hf)

theorem FormulasOK_setImpl {s : Sheet E} (p : Position) (i : Impl E)
    (hi : ∀ f, i = Impl.FormulaImpl f →
      (∃ t, E.ParseFormulaAST t = some f) ∧ ∀ v ∈ f.GetReferencedCells, v.IsValid = true)
    (h : FormulasOK s) : FormulasOK (setImpl s p i) := by
  intro r c cell f hc hf
  simp only [setImpl, modifyCell, slotAt_modifyGrid] at hc
  split at hc
  · cases h0 : slotAt s.sheet_ p.row.toNat p.col.toNat with
    | none => rw [h0] at hc; cases hc
    | some c0 =>
      rw [h0] at hc
      simp only [Option.map_some', Option.some.injEq] at hc
      subst hc
      exact hi f hf
  · exact h r c cell f hc hf

theorem FormulasOK_SetCell {fuel : Nat} {s s1 : Sheet E} {pos : Position} {text : String}
    (h : (SetCell fuel s pos text).sheet = some s1) (hi : AddrInv s) (ho : FormulasOK s) :
    FormulasOK s1 := by
  by_cases hv : pos.IsValid = true
  · obtain ⟨c, hc, hset⟩ := SetCell_eq_CellSet fuel s pos text hv
    obtain ⟨hg, _⟩ := prepare_spec s pos hv
    have hi1 : AddrInv (prepare s pos) := AddrInv_of_Grows hg hi
    have ho1 : FormulasOK (prepare s pos) := FormulasOK_of_Grows hg ho
    rw [hset] at h
    rcases CellSet_sheet h with h1 | ⟨_, i, hi2, h1⟩ | ⟨temp, vis, _, hparse, hcc, h1⟩
    · exact FormulasOK_of_SameShape h1 ho1
    · refine FormulasOK_of_SameShape h1 (FormulasOK_setImpl pos i ?_ ho1)
      intro f hf
      rcases hi2 with h2 | h2 <;> rw [h2] at hf <;> cases hf
    · refine FormulasOK_of_SameShape h1 (FormulasOK_setImpl pos _ ?_ ho1)
      intro f hf
      cases hf
      exact ⟨⟨_, hparse⟩, CheckCircle_no_valid hi1 hcc⟩
  · unfold SetCell at h
    rw [if_neg hv] at h
    cases h
    exact ho

theorem FormulasOK_ClearCell {s s1 : Sheet E} {pos : Position}
    (h : (ClearCell s pos).sheet = some s1) (ho : FormulasOK s) : FormulasOK s1 := by
  rcases ClearCell_sheet h with h1 | ⟨hv, h1⟩
  · rw [h1]
    exact ho
  · subst h1
    intro r c cell f hc hf
    simp only [slotAt_setSlot] at hc
    split at hc
    · cases hc
    · exact ho r c cell f hc hf

theorem FormulasOK_empty : FormulasOK (emptySheet : Sheet E) := by
  intro r c cell f hc
  simp [emptySheet, slotAt] at hc

theorem Reachable_formulasOK {s : Sheet E} (h : Reachable s) : FormulasOK s := by
  induction h with
  | empty => exact FormulasOK_empty
  | setCell fuel s s1 pos text hr hs ih => exact FormulasOK_SetCell hs (Reachable_inv hr).1 ih
  | clearCell s s1 pos _ hs ih => exact FormulasOK_ClearCell hs ih

theorem Reachable_runCalls {fuel : Nat} : ∀ (calls : List (Position × Option String))
    (s s1 : Sheet E), Reachable s → runCalls fuel calls s = some s1 → Reachable s1 := by
  intro calls
  induction calls with
  | nil =>
    intro s s1 hr h
    simp only [runCalls, Option.some.injEq] at h
    exact h ▸ hr
  | cons call rest ih =>
    intro s s1 hr h
    obtain ⟨pos, t⟩ := call
    cases t with
    | some text =>
      simp only [runCalls] at h
      cases hc : SetCell fuel s pos text with
      | ret u s2 =>
        rw [hc] at h
        exact ih s2 s1 (Reachable.setCell fuel s s2 pos text hr (by rw [hc]; rfl)) h
      | throw e s2 =>
        rw [hc] at h
        exact ih s2 s1 (Reachable.setCell fuel s s2 pos text hr (by rw [hc]; rfl)) h
      | oof =>
        rw [hc] at h
        cases h
    | none =>
      simp only [runCalls] at h
      cases hc : ClearCell s pos with
      | ret u s2 =>
        rw [hc] at h
        exact ih s2 s1 (Reachable.clearCell s s2 pos hr (by rw [hc]; rfl)) h
      | throw e s2 =>
        rw [hc] at h
        exact ih s2 s1 (Reachable.clearCell s s2 pos hr (by rw [hc]; rfl)) h
      | oof =>
        rw [hc] at h
        cases h

theorem Reachable_sheetAfter (fuel : Nat) (calls : List (Position × Option String)) :
    Reachable (sheetAfter fuel calls : Sheet E) := by
  unfold sheetAfter
  cases h : runCalls fuel calls (emptySheet : Sheet E) with
  | none => exact Reachable.empty
  | some s1 => exact Reachable_runCalls calls emptySheet s1 Reachable.empty h

/-! ## The cycle search answers true only along a path -/

theorem circleLoop_yes (s : Sheet E) (rec : Position → List (Option Nat) → Dfs) :
    ∀ (refs : List Position) (vis : List (Option Nat)),
      circleLoop s rec refs vis = Dfs.yes → ∃ v ∈ refs, ∃ vis1, rec v vis1 = Dfs.yes := by
  intro refs
  induction refs with
  | nil =>
    intro vis h
    simp [circleLoop] at h
  | cons q rest ih =>
    intro vis h
    simp only [circleLoop] at h
    cases hg : GetCell s q with
    | error e => rw [hg] at h; cases h
    | ok pc =>
      rw [hg] at h
      simp only at h
      by_cases hm : ptrOf pc ∈ vis
      · rw [if_pos hm] at h
        obtain ⟨v, hv, vis1, h1⟩ := ih _ h
        exact ⟨v, List.mem_cons_of_mem _ hv, vis1, h1⟩
      · rw [if_neg hm] at h
        cases hr : rec q vis with
        | yes => exact ⟨q, List.mem_cons_self _ _, vis, hr⟩
        | no vis1 =>
          rw [hr] at h
          obtain ⟨v, hv, vis2, h1⟩ := ih _ h
          exact ⟨v, List.mem_cons_of_mem _ hv, vis2, h1⟩
        | throw e => rw [hr] at h; cases h
        | oof => rw [hr] at h; cases h

theorem HasCircleDependency_yes {s : Sheet E} (hi : AddrInv s) {self : Cell E} {p : Position}
    (hp : cellAt s p = some self) :
    ∀ (fuel : Nat) (cur : Position) (vis : List (Option Nat)),
      HasCircleDependency s self.addr fuel cur vis = Dfs.yes →
      Relation.ReflTransGen (Edge s) cur p := by
  intro fuel
  induction fuel with
  | zero =>
    intro cur vis h
    simp [HasCircleDependency] at h
  | succ n ih =>
    intro cur vis h
    simp only [HasCircleDependency] at h
    cases hg : GetCell s cur with
    | error e => rw [hg] at h; cases h
    | ok pc =>
      rw [hg] at h
      cases pc with
      | none => cases h
      | some c =>
        simp only at h
        have hc := (GetCell_ok_valid hg).2
        by_cases ha : c.addr = self.addr
        · have : cur = p := AddrInv_cellAt hi hc hp ha
          rw [this]
        · rw [if_neg ha] at h
          obtain ⟨v, hv, vis1, h1⟩ := circleLoop_yes s _ _ _ h
          exact Relation.ReflTransGen.head ⟨c, hc, hv⟩ (ih v vis1 h1)

theorem checkLoop_yes {s : Sheet E} (hi : AddrInv s) {self : Cell E} {p : Position}
    (hp : cellAt s p = some self) (fuel : Nat) :
    ∀ (refs : List Position) (vis : List (Option Nat)),
      checkLoop s self.addr fuel refs vis = Dfs.yes →
      ∃ v ∈ refs, Relation.ReflTransGen (Edge s) v p := by
  intro refs
  induction refs with
  | nil =>
    intro vis h
    simp [checkLoop] at h
  | cons q rest ih =>
    intro vis h
    simp only [checkLoop] at h
    cases hr : HasCircleDependency s self.addr fuel q vis with
    | yes => exact ⟨q, List.mem_cons_self _ _, HasCircleDependency_yes hi hp fuel q vis hr⟩
    | no vis1 =>
      rw [hr] at h
      obtain ⟨v, hv, h1⟩ := ih _ h
      exact ⟨v, List.mem_cons_of_mem _ hv, h1⟩
    | throw e => rw [hr] at h; cases h
    | oof => rw [hr] at h; cases h

/-! ## The cycle search throws only on an invalid position -/

theorem circleLoop_no_throw (s : Sheet E) (rec : Position → List (Option Nat) → Dfs) :
    ∀ (refs : List Position) (vis : List (Option Nat)) (e : Err),
      (∀ v ∈ refs, v.IsValid = true) →
      (∀ v ∈ refs, ∀ vis1 e1, rec v vis1 ≠ Dfs.throw e1) →
      circleLoop s rec refs vis ≠ Dfs.throw e := by
  intro refs
  induction refs with
  | nil =>
    intro vis e _ _ h
    simp [circleLoop] at h
  | cons q rest ih =>
    intro vis e hval hrec h
    simp only [circleLoop] at h
    rw [GetCell_valid s q (hval q (List.mem_cons_self _ _))] at h
    simp only at h
    have hrest := fun vis2 => ih vis2 e (fun v hv => hval v (List.mem_cons_of_mem _ hv))
      (fun v hv => hrec v (List.mem_cons_of_mem _ hv))
    by_cases hm : ptrOf (cellAt s q) ∈ vis
    · rw [if_pos hm] at h
      exact hrest _ h
    · rw [if_neg hm] at h
      cases hr : rec q vis with
      | yes => rw [hr] at h; cases h
      | no vis1 =>
        rw [hr] at h
        exact hrest _ h
      | throw e1 => exact hrec q (List.mem_cons_self _ _) vis e1 hr
      | oof => rw [hr] at h; cases h

theorem HasCircleDependency_no_throw {s : Sheet E} (hs : RefsValid s) (self : Nat) :
    ∀ (fuel : Nat) (cur : Position) (vis : List (Option Nat)) (e : Err),
      cur.IsValid = true → HasCircleDependency s self fuel cur vis ≠ Dfs.throw e := by
  intro fuel
  induction fuel with
  | zero =>
    intro cur vis e _ h
    simp [HasCircleDependency] at h
  | succ n ih =>
    intro cur vis e hv h
    simp only [HasCircleDependency] at h
    rw [GetCell_valid s cur hv] at h
    cases hc : cellAt s cur with
    | none => rw [hc] at h; cases h
    | some c =>
      rw [hc] at h
      simp only at h
      by_cases ha : c.addr = self
      · rw [if_pos ha] at h
        cases h
      · rw [if_neg ha] at h
        exact circleLoop_no_throw s _ _ _ e (hs cur c hc)
          (fun v hv1 vis1 e1 => ih v vis1 e1 (hs cur c hc v hv1)) h

theorem checkLoop_no_throw {s : Sheet E} (hs : RefsValid s) (self : Nat) (fuel : Nat) :
    ∀ (refs : List Position) (vis : List (Option Nat)) (e : Err),
      (∀ v ∈ refs, v.IsValid = true) → checkLoop s self fuel refs vis ≠ Dfs.throw e := by
  intro refs
  induction refs with
  | nil =>
    intro vis e _ h
    simp [checkLoop] at h
  | cons q rest ih =>
    intro vis e hval h
    simp only [checkLoop] at h
    cases hr : HasCircleDependency s self fuel q vis with
    | yes => rw [hr] at h; cases h
    | no vis1 =>
      rw [hr] at h
      exact ih _ e (fun v hv => hval v (List.mem_cons_of_mem _ hv)) h
    | throw e1 =>
      exact HasCircleDependency_no_throw hs self fuel q vis e1
        (hval q (List.mem_cons_self _ _)) hr
    | oof => rw [hr] at h; cases h

/-! ## C17 -/

/-- C17: on a sheet whose cells have distinct addresses and whose stored
references are valid positions (both hold on every reachable sheet), whatever
its reference graph, for a cell `self` stored at `p` and a candidate formula
whose references are valid positions, CheckCircle returns within a budget of
the number of stored cells plus two, and it returns true iff some referenced
position v has a path of zero or more forward-reference edges to `p` (only
positions holding a cell have outgoing edges); in particular a candidate that
references `p` itself is reported as a cycle. -/
theorem C17_cycle_detector_correct (s : Sheet E) (hi : AddrInv s) (hs : RefsValid s)
    (p : Position) (self : Cell E) (hp : cellAt s p = some self) (temp : FormulaAST E.Num)
    (hR : ∀ v ∈ temp.GetReferencedCells, v.IsValid = true)
    (fuel : Nat) (hf : (storedPtrs s).length + 2 ≤ fuel) :
    (CheckCircle s self.addr fuel temp = Dfs.yes ∨
      ∃ vis, CheckCircle s self.addr fuel temp = Dfs.no vis) ∧
    (CheckCircle s self.addr fuel temp = Dfs.yes ↔
      ∃ v ∈ temp.GetReferencedCells, Relation.ReflTransGen (Edge s) v p) ∧
    (p ∈ temp.GetReferencedCells → CheckCircle s self.addr fuel temp = Dfs.yes) := by
  have hends := CheckCircle_ends s self.addr fuel temp hf
  have hthrow : ∀ e, CheckCircle s self.addr fuel temp ≠ Dfs.throw e :=
    fun e => checkLoop_no_throw hs self.addr fuel _ [] e hR
  have hret : CheckCircle s self.addr fuel temp = Dfs.yes ∨
      ∃ vis, CheckCircle s self.addr fuel temp = Dfs.no vis := by
    cases h : CheckCircle s self.addr fuel temp with
    | yes => exact Or.inl rfl
    | no vis => exact Or.inr ⟨vis, rfl⟩
    | throw e => exact absurd h (hthrow e)
    | oof => exact absurd h hends
  have hiff : CheckCircle s self.addr fuel temp = Dfs.yes ↔
      ∃ v ∈ temp.GetReferencedCells, Relation.ReflTransGen (Edge s) v p := by
    constructor
    · intro h
      exact checkLoop_yes hi hp fuel _ [] h
    · rintro ⟨v, hv, hpath⟩
      rcases hret with h | ⟨vis, h⟩
      · exact h
      · exact absurd hpath (CheckCircle_no_path hi hp h v hv)
  exact ⟨hret, hiff, fun hm => hiff.mpr ⟨p, hm, Relation.ReflTransGen.refl⟩⟩

/-- C17 at a concrete input: on the sheet holding "1" in A1 and "=A1+1" in A2,
the candidate "A2+1" for the cell of A1 is reported as a cycle, and there is a
path from A2 to A1. -/
theorem C17_cycle_detector_witness :
    cellAt (sheetAfter 5 [(A1, some "1"), (A2, some "=A1+1")] : Sheet demo) A1 =
      some ⟨3, Impl.TextImpl "1", some (Value.text "1"), [0]⟩ ∧
    CheckCircle (sheetAfter 5 [(A1, some "1"), (A2, some "=A1+1")] : Sheet demo) 3 6
      (demoFormula "A2+1") = Dfs.yes ∧
    ∃ v ∈ (demoFormula "A2+1").GetReferencedCells,
      Relation.ReflTransGen (Edge (sheetAfter 5 [(A1, some "1"), (A2, some "=A1+1")] : Sheet demo))
        v A1 :=
  ⟨rfl, rfl,
   (C17_cycle_detector_correct (sheetAfter 5 [(A1, some "1"), (A2, some "=A1+1")] : Sheet demo)
      (Reachable_inv (Reachable_sheetAfter 5 _)).1
      (RefsValid_of_FormulasOK (Reachable_formulasOK (Reachable_sheetAfter 5 _)))
      A1 ⟨3, Impl.TextImpl "1", some (Value.text "1"), [0]⟩ rfl (demoFormula "A2+1")
      (by decide) 6 (by decide)).2.1.mp rfl⟩

/-! ## Fields joined by tabs, rows ended by newlines -/

theorem appendFields_prefix : ∀ (l : List String) (c : Nat) (a b : String),
    appendFields c (a ++ b) l = a ++ appendFields c b l := by
  intro l
  induction l with
  | nil => intro c a b; rfl
  | cons f rest ih =>
    intro c a b
    simp only [appendFields]
    by_cases hc : 0 < c
    · simp only [if_pos hc]
      rw [String.append_assoc a b, String.append_assoc a, ih]
    · simp only [if_neg hc]
      rw [String.append_assoc a b, ih]

theorem appendFields_go : ∀ (l : List String) (c : Nat) (output : String), 0 < c →
    appendFields c output l = String.intercalate.go output "\t" l := by
  intro l
  induction l with
  | nil => intro c output _; rfl
  | cons f rest ih =>
    intro c output hc
    simp only [appendFields, if_pos hc, String.intercalate.go]
    exact ih (c + 1) _ (Nat.succ_pos c)

theorem appendFields_zero (l : List String) :
    appendFields 0 "" l = String.intercalate "\t" l := by
  cases l with
  | nil => rfl
  | cons f rest =>
    simp only [appendFields, String.intercalate, Nat.lt_irrefl, if_false, String.empty_append]
    exact appendFields_go rest 1 f Nat.one_pos

theorem appendFields_row (output : String) (l : List String) :
    appendFields 0 output l ++ "\n" = output ++ rowText l := by
  have h := appendFields_prefix l 0 output ""
  rw [String.append_empty] at h
  rw [h, appendFields_zero, String.append_assoc]
  rfl

theorem join_cons (a : String) (l : List String) : String.join (a :: l) = a ++ String.join l := by
  have key : ∀ (l : List String) (acc : String),
      List.foldl (fun r s => r ++ s) acc l = acc ++ List.foldl (fun r s => r ++ s) "" l := by
    intro l
    induction l with
    | nil => intro acc; simp [String.append_empty]
    | cons b rest ih =>
      intro acc
      simp only [List.foldl_cons]
      rw [ih (acc ++ b), ih ("" ++ b), String.empty_append, String.append_assoc]
  unfold String.join
  simp only [List.foldl_cons, String.empty_append]
  exact key l a

/-! ## Evaluation returns on an acyclic sheet -/

theorem finite_valid_positions : Finite {u : Position // u.IsValid = true} := by
  have hr : ∀ u : {u : Position // u.IsValid = true}, u.1.row.toNat < 16384 := by
    intro u
    have := IsValid_iff.mp u.2
    unfold MAX_ROWS at this
    omega
  have hc : ∀ u : {u : Position // u.IsValid = true}, u.1.col.toNat < 16384 := by
    intro u
    have := IsValid_iff.mp u.2
    unfold MAX_COLS at this
    omega
  refine Finite.of_injective
    (fun u => ((⟨u.1.row.toNat, hr u⟩, ⟨u.1.col.toNat, hc u⟩) : Fin 16384 × Fin 16384)) ?_
  intro a b hab
  simp only [Prod.mk.injEq, Fin.mk.injEq] at hab
  exact Subtype.ext (coords_inj a.2 b.2 hab.1 hab.2)

theorem edge_acc {s : Sheet E} (ha : Acyclic s) :
    ∀ u, Acc (fun v u => Edge s u v) u := by
  haveI := @finite_valid_positions
  let r : {u : Position // u.IsValid = true} → {u : Position // u.IsValid = true} → Prop :=
    fun a b => Relation.TransGen (Function.swap (Edge s)) a.1 b.1
  haveI : IsTrans _ r := ⟨fun _ _ _ h1 h2 => Relation.TransGen.trans h1 h2⟩
  haveI : IsIrrefl _ r := ⟨fun a h => ha a.1 (Relation.transGen_swap.mp h)⟩
  have wf : WellFounded r := Finite.wellFounded_of_trans_of_irrefl r
  have leaf : ∀ v : Position, ¬ v.IsValid = true → Acc (fun v u => Edge s u v) v := by
    intro v hv
    constructor
    intro w hw
    obtain ⟨c, hc, _⟩ := hw
    exact absurd (cellAt_some hc).1 hv
  have key : ∀ a : {u : Position // u.IsValid = true}, Acc (fun v u => Edge s u v) a.1 := by
    intro a
    induction a using wf.induction with
    | _ a ih =>
      constructor
      intro v hv
      by_cases hval : v.IsValid = true
      · exact ih ⟨v, hval⟩ (Relation.TransGen.single hv)
      · exact leaf v hval
  intro u
  by_cases hu : u.IsValid = true
  · exact key ⟨u, hu⟩
  · exact leaf u hu

theorem CellGetValue_sameCells {fuel : Nat} {pos : Position} {c : Cell E} {s s1 : Sheet E}
    (h : (CellGetValue fuel pos c s).sheet = some s1) : SameCells s s1 :=
  CellGetValueWith_keepsR SameCells_refl (fun _ _ _ h1 h2 => SameCells_trans h1 h2)
    SameCells_setCache
    (fun f s2 => Evaluate_keepsR SameCells_refl (fun _ _ _ h1 h2 => SameCells_trans h1 h2)
      SameCells_setCache fuel f s2) pos c s s1 h

theorem lookupCell_returns {s s1 : Sheet E} {n fuel : Nat} (hn : n ≤ fuel) {p : Position}
    (hv : p.IsValid = true) (hp : ReturnsAt s n p) (hs : SameCells s s1) :
    ∃ r s2, lookupCell (CellGetValueWith (Evaluate fuel)) p s1 = Res.ret r s2 ∧
      SameCells s s2 := by
  unfold lookupCell
  split
  · rw [GetCell_valid s1 p hv]
    cases hc : cellAt s1 p with
    | none => exact ⟨_, _, rfl, hs⟩
    | some c1 =>
      obtain ⟨v, s2, h2⟩ := hp fuel hn s1 hs c1 hc
      have hs2 : SameCells s s2 :=
        SameCells_trans hs (CellGetValue_sameCells (by rw [h2]; rfl))
      unfold CellGetValue at h2
      simp only [h2]
      cases v with
      | text t => exact ⟨_, _, rfl, hs2⟩
      | number x => exact ⟨_, _, rfl, hs2⟩
      | error e => exact ⟨_, _, rfl, hs2⟩
  · exact ⟨_, _, rfl, hs⟩

theorem runProg_returns {s : Sheet E} {n fuel : Nat} (hn : n ≤ fuel) (l : List Position)
    (hl : ∀ p ∈ l, p.IsValid = true ∧ ReturnsAt s n p) :
    ∀ (prog : Prog E.Num), AsksIn l prog → ∀ s1, SameCells s s1 →
      ∃ v s2, runProg (lookupCell (CellGetValueWith (Evaluate fuel))) prog s1 = Res.ret v s2 ∧
        SameCells s s2 := by
  intro prog
  induction prog with
  | done v =>
    intro _ s1 hs
    exact ⟨v, s1, rfl, hs⟩
  | ask p k ih =>
    intro hask s1 hs
    obtain ⟨hp, hk⟩ := hask
    obtain ⟨r, s2, h2, hs2⟩ := lookupCell_returns hn (hl p hp).1 (hl p hp).2 hs
    simp only [runProg, h2]
    cases r with
    | value v => exact ih v (hk v) s2 hs2
    | thrown e => exact ⟨_, _, rfl, hs2⟩

theorem Evaluate_returns {s : Sheet E} {n fuel : Nat} (hn : n + 1 ≤ fuel)
    (f : FormulaAST E.Num) (hask : AsksIn f.cells f.exec)
    (hl : ∀ p ∈ f.cells, p.IsValid = true ∧ ReturnsAt s n p) {s1 : Sheet E}
    (hs : SameCells s s1) :
    ∃ v s2, Evaluate fuel f s1 = Res.ret v s2 ∧ SameCells s s2 := by
  cases fuel with
  | zero => omega
  | succ m =>
    simp only [Evaluate]
    exact runProg_returns (Nat.le_of_succ_le_succ hn) f.cells hl f.exec hask s1 hs

theorem CellGetValue_returns {s s1 : Sheet E} {n fuel : Nat} (hn : n + 1 ≤ fuel)
    (pos : Position) (c1 : Cell E) (hs : SameCells s s1)
    (hc : ∀ f, c1.impl_ = Impl.FormulaImpl f →
      AsksIn f.cells f.exec ∧ ∀ p ∈ f.cells, p.IsValid = true ∧ ReturnsAt s n p) :
    ∃ v s2, CellGetValue fuel pos c1 s1 = Res.ret v s2 ∧ SameCells s s2 := by
  unfold CellGetValue CellGetValueWith
  cases hcache : c1.cache_ with
  | some v => exact ⟨v, s1, rfl, hs⟩
  | none =>
    simp only
    cases hi : c1.impl_ with
    | EmptyImpl => exact ⟨_, _, rfl, SameCells_trans hs (SameCells_setCache _ _ _)⟩
    | TextImpl t => exact ⟨_, _, rfl, SameCells_trans hs (SameCells_setCache _ _ _)⟩
    | FormulaImpl f =>
      obtain ⟨h1, h2⟩ := hc f hi
      obtain ⟨v, s2, hev, hs2⟩ := Evaluate_returns hn f h1 h2 hs
      simp only [hev]
      exact ⟨_, _, rfl, SameCells_trans hs2 (SameCells_setCache _ _ _)⟩

theorem exists_bound_list {α : Type} (P : Nat → α → Prop)
    (hmono : ∀ n m a, n ≤ m → P n a → P m a) :
    ∀ l : List α, (∀ a ∈ l, ∃ n, P n a) → ∃ n, ∀ a ∈ l, P n a := by
  intro l
  induction l with
  | nil =>
    intro _
    exact ⟨0, fun a ha => by cases ha⟩
  | cons b rest ih =>
    intro h
    obtain ⟨n1, h1⟩ := h b (List.mem_cons_self _ _)
    obtain ⟨n2, h2⟩ := ih (fun a ha => h a (List.mem_cons_of_mem _ ha))
    refine ⟨max n1 n2, ?_⟩
    intro a ha
    rcases List.mem_cons.mp ha with h3 | h3
    · subst h3
      exact hmono _ _ _ (le_max_left _ _) h1
    · exact hmono _ _ _ (le_max_right _ _) (h2 a h3)

theorem ReturnsAt_mono {s : Sheet E} (n m : Nat) (u : Position) (h : n ≤ m)
    (hr : ReturnsAt s n u) : ReturnsAt s m u :=
  fun fuel hf => hr fuel (Nat.le_trans h hf)

theorem mem_cells_iff {Num : Type} (f : FormulaAST Num) (p : Position) :
    p ∈ f.GetReferencedCells ↔ p ∈ f.cells := by
  unfold FormulaAST.GetReferencedCells
  rw [mem_dedupLoop]
  simp

theorem returnsAt_all {s : Sheet E} (hE : EngineWF E) (ha : Acyclic s) (ho : FormulasOK s) :
    ∀ u, ∃ n, ReturnsAt s n u := by
  intro u
  induction edge_acc ha u with
  | intro u _ ih =>
    cases hc : cellAt s u with
    | none =>
      refine ⟨0, ?_⟩
      intro fuel _ s1 hs c1 hc1
      obtain ⟨c, h0, _⟩ := SameCells_cellAt_some hs hc1
      rw [hc] at h0
      cases h0
    | some c =>
      have hb : ∃ n, ∀ f, c.impl_ = Impl.FormulaImpl f → ∀ p ∈ f.cells, ReturnsAt s n p := by
        cases hi : c.impl_ with
        | EmptyImpl => exact ⟨0, fun f hf => by cases hf⟩
        | TextImpl t => exact ⟨0, fun f hf => by cases hf⟩
        | FormulaImpl f =>
          obtain ⟨n, hn⟩ := exists_bound_list (fun n p => ReturnsAt s n p)
            (fun n m a h hr => ReturnsAt_mono n m a h hr) f.cells
            (fun p hp => ih p ⟨c, hc, by
              unfold Cell.GetReferencedCells
              rw [hi]
              exact (mem_cells_iff f p).mpr hp⟩)
          refine ⟨n, ?_⟩
          intro f1 hf1
          cases hf1
          exact hn
      obtain ⟨n, hn⟩ := hb
      refine ⟨n + 1, ?_⟩
      intro fuel hf s1 hs c1 hc1
      obtain ⟨c0, h0, _, himpl, _⟩ := SameCells_cellAt_some hs hc1
      rw [hc] at h0
      cases h0
      obtain ⟨v, s2, h2, _⟩ := CellGetValue_returns hf u c1 hs (by
        intro f hf1
        rw [himpl] at hf1
        obtain ⟨⟨t, ht⟩, hval⟩ := ho _ _ c f (cellAt_some hc).2.2 hf1
        exact ⟨hE t f ht, fun p hp => ⟨hval p ((mem_cells_iff f p).mpr hp), hn f hf1 p hp⟩⟩)
      exact ⟨v, s2, h2⟩

theorem slotAt_mem_cells {s : Sheet E} {r c : Nat} {cell : Cell E}
    (h : slotAt s.sheet_ r c = some cell) : cell ∈ s.sheet_.flatten.filterMap id := by
  unfold slotAt at h
  cases hr : s.sheet_[r]? with
  | none => rw [hr] at h; cases h
  | some row =>
    rw [hr] at h
    simp only at h
    cases hc : row[c]? with
    | none => rw [hc] at h; cases h
    | some p =>
      rw [hc] at h
      simp only at h
      subst h
      refine List.mem_filterMap.mpr ⟨some cell, ?_, rfl⟩
      exact List.mem_flatten.mpr ⟨row, List.getElem?_mem hr, List.getElem?_mem hc⟩

theorem SameCells_slotAt {s s1 : Sheet E} (h : SameCells s s1) {r c : Nat} {c1 : Cell E}
    (hc : slotAt s1.sheet_ r c = some c1) :
    ∃ c0, slotAt s.sheet_ r c = some c0 ∧ c1.impl_ = c0.impl_ := by
  have := h.2.2.2 r c
  rw [hc] at this
  cases h0 : slotAt s.sheet_ r c with
  | none => rw [h0] at this; simp at this
  | some c0 =>
    rw [h0] at this
    simp only [Option.map_some', Option.some.injEq, Prod.mk.injEq] at this
    exact ⟨c0, rfl, this.2.1⟩

/-- On an acyclic sheet whose formulas come from a well-formed engine, there is a
budget within which `GetValue` returns for every stored cell, on every sheet
that differs from it at most in caches. -/
theorem all_cells_return {s : Sheet E} (hE : EngineWF E) (ha : Acyclic s) (ho : FormulasOK s) :
    ∃ N, ∀ fuel, N ≤ fuel → ∀ s1, SameCells s s1 → ∀ r c c1,
      slotAt s1.sheet_ r c = some c1 → ∀ pos,
      ∃ v s2, CellGetValue fuel pos c1 s1 = Res.ret v s2 ∧ SameCells s s2 := by
  have hcell : ∀ cell ∈ s.sheet_.flatten.filterMap id,
      ∃ n, ∀ f, cell.impl_ = Impl.FormulaImpl f → ∀ p ∈ f.cells, ReturnsAt s n p := by
    intro cell _
    cases hi : cell.impl_ with
    | EmptyImpl => exact ⟨0, fun f hf => by cases hf⟩
    | TextImpl t => exact ⟨0, fun f hf => by cases hf⟩
    | FormulaImpl f =>
      obtain ⟨n, hn⟩ := exists_bound_list (fun n p => ReturnsAt s n p)
        (fun n m a h hr => ReturnsAt_mono n m a h hr) f.cells
        (fun p _ => returnsAt_all hE ha ho p)
      refine ⟨n, ?_⟩
      intro f1 hf1
      cases hf1
      exact hn
  obtain ⟨n, hn⟩ := exists_bound_list
    (fun n (cell : Cell E) => ∀ f, cell.impl_ = Impl.FormulaImpl f →
      ∀ p ∈ f.cells, ReturnsAt s n p)
    (fun n m a h hr f hf p hp => ReturnsAt_mono n m p h (hr f hf p hp)) _ hcell
  refine ⟨n + 1, ?_⟩
  intro fuel hf s1 hs r c c1 hc1 pos
  obtain ⟨c0, h0, himpl⟩ := SameCells_slotAt hs hc1
  refine CellGetValue_returns hf pos c1 hs ?_
  intro f hf1
  rw [himpl] at hf1
  obtain ⟨⟨t, ht⟩, hval⟩ := ho r c c0 f h0 hf1
  exact ⟨hE t f ht, fun p hp =>
    ⟨hval p ((mem_cells_iff f p).mpr hp), hn c0 (slotAt_mem_cells h0) f hf1 p hp⟩⟩

/-! ## Slots of sheets that differ in caches -/

theorem SameCells_slotAt_none {s s1 : Sheet E} (h : SameCells s s1) {r c : Nat}
    (hc : slotAt s1.sheet_ r c = none) : slotAt s.sheet_ r c = none := by
  have := h.2.2.2 r c
  rw [hc] at this
  cases h0 : slotAt s.sheet_ r c with
  | none => rfl
  | some c0 => rw [h0] at this; simp at this

/-! ## The engine instance calls the lookup on listed cells only -/

theorem mem_sortedInsert (a p : Position) : ∀ l : List Position,
    a ∈ sortedInsert p l ↔ a = p ∨ a ∈ l := by
  intro l
  induction l with
  | nil => simp [sortedInsert]
  | cons q rest ih =>
    simp only [sortedInsert]
    split
    · simp only [List.mem_cons, ih]
      tauto
    · simp only [List.mem_cons]

theorem mem_foldr_sortedInsert (a : Position) : ∀ l : List Position,
    a ∈ l.foldr sortedInsert [] ↔ a ∈ l := by
  intro l
  induction l with
  | nil => simp
  | cons q rest ih =>
    simp only [List.foldr_cons, mem_sortedInsert, ih, List.mem_cons]

theorem prog_asksIn (l : List Position) : ∀ (e : DemoExpr) (k : Int → Prog Int),
    (∀ p ∈ e.refs, p ∈ l) → (∀ x, AsksIn l (k x)) → AsksIn l (e.prog k) := by
  intro e
  induction e with
  | num n =>
    intro k _ hk
    exact hk n
  | ref p =>
    intro k hp hk
    refine ⟨hp p (by simp [DemoExpr.refs]), ?_⟩
    intro v
    cases v with
    | number x => exact hk x
    | error e => trivial
  | add a b iha ihb =>
    intro k hp hk
    simp only [DemoExpr.prog]
    refine iha _ (fun p h => hp p (by simp [DemoExpr.refs, h])) ?_
    intro x
    exact ihb _ (fun p h => hp p (by simp [DemoExpr.refs, h])) (fun y => hk (x + y))

theorem EngineWF_demo : EngineWF demo := by
  intro t f hf
  simp only [demo, Option.map_eq_some'] at hf
  obtain ⟨e, _, he⟩ := hf
  subst he
  exact prog_asksIn _ e _ (fun p hp => (mem_foldr_sortedInsert p e.refs).mpr hp)
    (fun _ => trivial)

theorem cellAt_nat (s : Sheet E) (r c : Nat) (hv : Position.IsValid ⟨r, c⟩ = true) :
    cellAt s ⟨r, c⟩ = slotAt s.sheet_ r c :=
  cellAt_valid hv

theorem textAt_eq (s : Sheet E) (q : Position) :
    textAt s q = ((cellAt s q).map Cell.GetText).getD "" := by
  unfold textAt
  cases cellAt s q <;> rfl

theorem slotText_eq (s : Sheet E) (r c : Nat) :
    slotText s r c = ((slotAt s.sheet_ r c).map Cell.GetText).getD "" := by
  unfold slotText
  cases slotAt s.sheet_ r c <;> rfl

theorem slotText_eq_textAt (s : Sheet E) (r c : Nat) (hv : Position.IsValid ⟨r, c⟩ = true) :
    slotText s r c = textAt s ⟨r, c⟩ := by
  rw [textAt_eq, slotText_eq, cellAt_nat s r c hv]

/-! ## Values do not depend on the caches filled by earlier reads -/

theorem hasText_sameCells {s t : Sheet E} (h : SameCells s t) (r c : Nat) :
    hasText t r c = hasText s r c := by
  unfold hasText
  have := h.2.2.2 r c
  cases h1 : slotAt t.sheet_ r c with
  | none =>
    rw [SameCells_slotAt_none h h1]
  | some ct =>
    obtain ⟨c0, h0, hi⟩ := SameCells_slotAt h h1
    rw [h0]
    simp only [Cell.GetText, hi]

theorem scanCols_sameCells {s t : Sheet E} (h : SameCells s t) (r : Nat) :
    ∀ (n : Nat) (sz : Size), scanCols t r n sz = scanCols s r n sz := by
  intro n
  induction n with
  | zero => intro sz; rfl
  | succ n ih =>
    intro sz
    simp only [scanCols, hasText_sameCells h, ih]

theorem scanRows_sameCells {s t : Sheet E} (h : SameCells s t) :
    ∀ (n : Nat) (sz : Size), scanRows t n sz = scanRows s n sz := by
  intro n
  induction n with
  | zero => intro sz; rfl
  | succ n ih =>
    intro sz
    simp only [scanRows, scanCols_sameCells h, ih, h.2.2.1]

theorem GetPrintableSize_sameCells {s t : Sheet E} (h : SameCells s t) :
    GetPrintableSize t = GetPrintableSize s := by
  unfold GetPrintableSize
  rw [scanRows_sameCells h, h.2.1]

theorem Evaluate_le (f : FormulaAST E.Num) (s : Sheet E) (n : Nat) :
    ∀ m, n ≤ m → Evaluate n f s ≠ Res.oof → Evaluate m f s = Evaluate n f s := by
  intro m hm hne
  induction m with
  | zero =>
    have : n = 0 := Nat.le_zero.mp hm
    rw [this]
  | succ m ih =>
    by_cases h : n = m + 1
    · rw [h]
    · have h1 : n ≤ m := by omega
      have h2 := ih h1
      rw [Evaluate_succ m f s (by rw [h2]; exact hne), h2]

theorem CellGetValue_le {n m : Nat} (hm : n ≤ m) (pos : Position) (c : Cell E) (s : Sheet E)
    (hne : CellGetValue n pos c s ≠ Res.oof) :
    CellGetValue m pos c s = CellGetValue n pos c s :=
  CellGetValueWith_mono (fun f s1 h => Evaluate_le f s1 n m hm h) pos c s hne

theorem Val_det {s : Sheet E} {q : Position} {v v1 : Value E.Num}
    (h : Val s q v) (h1 : Val s q v1) : v = v1 := by
  obtain ⟨n, c, s2, hc, hv⟩ := h
  obtain ⟨n1, c1, s3, hc1, hv1⟩ := h1
  rw [hc] at hc1
  cases hc1
  have e1 := CellGetValue_le (le_max_left n n1) q c s (by rw [hv]; simp)
  have e2 := CellGetValue_le (le_max_right n n1) q c s (by rw [hv1]; simp)
  rw [hv] at e1
  rw [hv1, e1] at e2
  cases e2
  rfl

theorem Coh_refl (s : Sheet E) : Coh s s := by
  refine ⟨SameCells_refl s, ?_⟩
  intro q c ct hc hct
  rw [hc] at hct
  cases hct
  refine ⟨Or.inr rfl, ?_⟩
  intro v hv
  refine ⟨0, c, s, hc, ?_⟩
  unfold CellGetValue CellGetValueWith
  rw [hv]

theorem Coh_setCache {s t : Sheet E} (h : Coh s t) {q : Position} {c : Cell E}
    (hc : cellAt s q = some c) (hn : c.cache_ = none) {v : Value E.Num} (hv : Val s q v) :
    Coh s (setCache t q (some v)) := by
  refine ⟨SameCells_trans h.1 (SameCells_setCache _ _ _), ?_⟩
  intro p cp ct hcp hct
  have hq := (cellAt_some hc).1
  unfold setCache at hct
  rw [cellAt_modifyCell _ _ _ _ hq] at hct
  by_cases hpq : p = q
  · subst hpq
    rw [if_pos rfl] at hct
    rw [hc] at hcp
    cases hcp
    cases h0 : cellAt t p with
    | none => rw [h0] at hct; cases hct
    | some c0 =>
      rw [h0] at hct
      simp only [Option.map_some', Option.some.injEq] at hct
      subst hct
      refine ⟨Or.inl hn, ?_⟩
      intro v1 hv1
      simp only [Option.some.injEq] at hv1
      rw [← hv1]
      exact hv
  · rw [if_neg hpq] at hct
    exact h.2 p cp ct hcp hct

theorem lookupCell_coherent {s t u : Sheet E} {F : Nat}
    (hF : ∀ s1, SameCells s s1 → ∀ r c c1, slotAt s1.sheet_ r c = some c1 → ∀ pos,
      ∃ v s2, CellGetValue F pos c1 s1 = Res.ret v s2 ∧ SameCells s s2)
    {p : Position} (hv : p.IsValid = true)
    (hmain : ∀ fuel t ct v t2, Coh s t → cellAt t p = some ct →
      CellGetValue fuel p ct t = Res.ret v t2 → Val s p v ∧ Coh s t2)
    (ht : Coh s t) (hu : Coh s u) {m : Nat} {r : LookupRet E.Num} {t1 : Sheet E}
    (h : lookupCell (CellGetValueWith (Evaluate m)) p t = Res.ret r t1) :
    Coh s t1 ∧ ∃ u1, lookupCell (CellGetValueWith (Evaluate F)) p u = Res.ret r u1 ∧
      Coh s u1 := by
  unfold lookupCell at h ⊢
  rw [GetPrintableSize_sameCells ht.1] at h
  rw [GetPrintableSize_sameCells hu.1]
  by_cases hlt : E.posLt p ⟨(GetPrintableSize s).rows, (GetPrintableSize s).cols⟩ = true
  · rw [if_pos hlt, GetCell_valid t p hv] at h
    rw [if_pos hlt, GetCell_valid u p hv]
    cases hct : cellAt t p with
    | none =>
      rw [hct] at h
      simp only [Res.ret.injEq] at h
      have hsn : cellAt s p = none := by
        have := SameCells_cellAt ht.1 p
        rw [hct] at this
        cases h0 : cellAt s p with
        | none => rfl
        | some c0 => rw [h0] at this; simp at this
      have hun : cellAt u p = none := by
        have := SameCells_cellAt hu.1 p
        rw [hsn] at this
        cases h0 : cellAt u p with
        | none => rfl
        | some c0 => rw [h0] at this; simp at this
      rw [hun]
      exact ⟨h.2 ▸ ht, u, by rw [← h.1], hu⟩
    | some ct =>
      rw [hct] at h
      simp only at h
      obtain ⟨c0, hc0, _⟩ := SameCells_cellAt_some ht.1 hct
      have huc : ∃ cu, cellAt u p = some cu := by
        have := SameCells_cellAt hu.1 p
        rw [hc0] at this
        cases h0 : cellAt u p with
        | none => rw [h0] at this; simp at this
        | some cu => exact ⟨cu, rfl⟩
      obtain ⟨cu, hcu⟩ := huc
      rw [hcu]
      simp only
      have hcu2 := hcu
      rw [cellAt_valid hv] at hcu2
      obtain ⟨w2, u2, hw2, _⟩ := hF u hu.1 _ _ cu hcu2 p
      obtain ⟨hval2, hcoh2⟩ := hmain F u cu w2 u2 hu hcu hw2
      unfold CellGetValue at hw2
      rw [hw2]
      cases hres : CellGetValueWith (Evaluate m) p ct t with
      | oof => rw [hres] at h; cases h
      | throw e t2 => rw [hres] at h; cases h
      | ret w t2 =>
        rw [hres] at h
        obtain ⟨hval, hcoh⟩ := hmain m t ct w t2 ht hct hres
        have hww : w2 = w := Val_det hval2 hval
        subst hww
        cases w2 with
        | text x =>
          simp only [Res.ret.injEq] at h
          exact ⟨h.2 ▸ hcoh, u2, by rw [← h.1], hcoh2⟩
        | number x =>
          simp only [Res.ret.injEq] at h
          exact ⟨h.2 ▸ hcoh, u2, by rw [← h.1], hcoh2⟩
        | error x =>
          simp only [Res.ret.injEq] at h
          exact ⟨h.2 ▸ hcoh, u2, by rw [← h.1], hcoh2⟩
  · rw [if_neg hlt, if_pos hv] at h
    rw [if_neg hlt, if_pos hv]
    simp only [Res.ret.injEq] at h
    exact ⟨h.2 ▸ ht, u, by rw [← h.1], hu⟩

theorem runProg_coherent {s : Sheet E} {F : Nat}
    (hF : ∀ s1, SameCells s s1 → ∀ r c c1, slotAt s1.sheet_ r c = some c1 → ∀ pos,
      ∃ v s2, CellGetValue F pos c1 s1 = Res.ret v s2 ∧ SameCells s s2)
    (l : List Position)
    (hl : ∀ p ∈ l, p.IsValid = true ∧
      ∀ fuel t ct v t2, Coh s t → cellAt t p = some ct →
        CellGetValue fuel p ct t = Res.ret v t2 → Val s p v ∧ Coh s t2) (m : Nat) :
    ∀ (prog : Prog E.Num), AsksIn l prog → ∀ (t u : Sheet E) (fv : FValue E.Num) (t1 : Sheet E),
      Coh s t → Coh s u →
      runProg (lookupCell (CellGetValueWith (Evaluate m))) prog t = Res.ret fv t1 →
      Coh s t1 ∧
        ∃ u1, runProg (lookupCell (CellGetValueWith (Evaluate F))) prog u = Res.ret fv u1 := by
  intro prog
  induction prog with
  | done v =>
    intro _ t u fv t1 ht _ h
    simp only [runProg, Res.ret.injEq] at h
    exact ⟨h.2 ▸ ht, u, by simp only [runProg, h.1]⟩
  | ask p k ih =>
    intro hask t u fv t1 ht hu h
    obtain ⟨hp, hk⟩ := hask
    simp only [runProg] at h ⊢
    cases hlook : lookupCell (CellGetValueWith (Evaluate m)) p t with
    | oof => rw [hlook] at h; cases h
    | throw e t2 => rw [hlook] at h; cases h
    | ret r t2 =>
      rw [hlook] at h
      obtain ⟨hcoh, u2, hlook2, hcoh2⟩ :=
        lookupCell_coherent hF (hl p hp).1 (hl p hp).2 ht hu hlook
      rw [hlook2]
      cases r with
      | value v =>
        simp only at h ⊢
        exact ih v (hk v) t2 u2 fv t1 hcoh hcoh2 h
      | thrown e =>
        simp only [Res.ret.injEq] at h ⊢
        exact ⟨h.2 ▸ hcoh, u2, h.1, rfl⟩

/-- On an acyclic sheet whose formulas come from a well-formed engine, a read of
a cell on a sheet with more caches filled returns the value it returns on the
sheet itself, and leaves a sheet of that kind. -/
theorem CellGetValue_coherent {s : Sheet E} (hE : EngineWF E) (ha : Acyclic s)
    (ho : FormulasOK s) {F : Nat}
    (hF : ∀ s1, SameCells s s1 → ∀ r c c1, slotAt s1.sheet_ r c = some c1 → ∀ pos,
      ∃ v s2, CellGetValue F pos c1 s1 = Res.ret v s2 ∧ SameCells s s2) :
    ∀ (q : Position) (fuel : Nat) (t : Sheet E) (ct : Cell E) (v : Value E.Num) (t2 : Sheet E),
      Coh s t → cellAt t q = some ct → CellGetValue fuel q ct t = Res.ret v t2 →
      Val s q v ∧ Coh s t2 := by
  intro q
  induction edge_acc ha q with
  | intro q _ ih =>
    intro fuel t ct v t2 hcoh hct hres
    obtain ⟨c, hc, _, himpl, _⟩ := SameCells_cellAt_some hcoh.1 hct
    obtain ⟨hpres, hcached⟩ := hcoh.2 q c ct hc hct
    unfold CellGetValue CellGetValueWith at hres
    cases hcache : ct.cache_ with
    | some w =>
      rw [hcache] at hres
      simp only [Res.ret.injEq] at hres
      rw [← hres.1, ← hres.2]
      exact ⟨hcached w hcache, hcoh⟩
    | none =>
      have hcn : c.cache_ = none := by
        rcases hpres with h1 | h1
        · exact h1
        · rw [← h1, hcache]
      rw [hcache] at hres
      simp only at hres
      cases hi : ct.impl_ with
      | EmptyImpl =>
        rw [hi] at hres
        simp only [Res.ret.injEq] at hres
        have hval : Val s q v := by
          refine ⟨0, c, setCache s q (some (Value.text "")), hc, ?_⟩
          unfold CellGetValue CellGetValueWith
          rw [hcn, ← himpl, hi, ← hres.1]
        rw [← hres.2, hres.1]
        exact ⟨hval, Coh_setCache hcoh hc hcn hval⟩
      | TextImpl x =>
        rw [hi] at hres
        simp only [Res.ret.injEq] at hres
        have hval : Val s q v := by
          refine ⟨0, c, setCache s q (some (Value.text (TextImplGetValue x))), hc, ?_⟩
          unfold CellGetValue CellGetValueWith
          rw [hcn, ← himpl, hi, ← hres.1]
        rw [← hres.2, hres.1]
        exact ⟨hval, Coh_setCache hcoh hc hcn hval⟩
      | FormulaImpl f =>
        rw [hi] at hres
        simp only at hres
        have hcf : c.impl_ = Impl.FormulaImpl f := by rw [← himpl, hi]
        obtain ⟨⟨x, hx⟩, hvalid⟩ := ho _ _ c f (cellAt_some hc).2.2 hcf
        have hl : ∀ p ∈ f.cells, p.IsValid = true ∧
            ∀ fuel t ct v t2, Coh s t → cellAt t p = some ct →
              CellGetValue fuel p ct t = Res.ret v t2 → Val s p v ∧ Coh s t2 := by
          intro p hp
          refine ⟨hvalid p ((mem_cells_iff f p).mpr hp), ih p ⟨c, hc, ?_⟩⟩
          unfold Cell.GetReferencedCells
          rw [hcf]
          exact (mem_cells_iff f p).mpr hp
        cases fuel with
        | zero =>
          simp only [Evaluate] at hres
          cases hres
        | succ m =>
          simp only [Evaluate] at hres
          cases hev : runProg (lookupCell (CellGetValueWith (Evaluate m))) f.exec t with
          | oof => rw [hev] at hres; cases hres
          | throw e t3 => rw [hev] at hres; cases hres
          | ret fv t3 =>
            rw [hev] at hres
            simp only [Res.ret.injEq] at hres
            obtain ⟨hcoh3, u1, hu1⟩ := runProg_coherent hF f.cells hl m f.exec (hE x f hx)
              t s fv t3 hcoh (Coh_refl s) hev
            have hval : Val s q v := by
              refine ⟨F + 1, c, setCache u1 q (some fv.toValue), hc, ?_⟩
              unfold CellGetValue CellGetValueWith
              rw [hcn, hcf]
              simp only [Evaluate, hu1, hres.1]
            rw [← hres.2, hres.1]
            exact ⟨hval, Coh_setCache hcoh3 hc hcn hval⟩

/-! ## Cells with contents are at valid positions -/

theorem SlotsValid_of_Grows {s s1 : Sheet E} (hg : Grows s s1) (h : SlotsValid s) :
    SlotsValid s1 := by
  intro r c cell hc hne
  rcases hg.2.2.1 r c cell hc with h1 | ⟨_, h2, _⟩
  · exact h r c cell h1 hne
  · rw [h2] at hne
    exact absurd rfl hne

theorem SlotsValid_of_SameShape {s s1 : Sheet E} (hs : SameShape s s1) (h : SlotsValid s) :
    SlotsValid s1 := by
  intro r c c1 hc hne
  obtain ⟨c0, h0, _, h2⟩ := SameShape_slotAt hs hc
  exact h r c c0 h0 (h2 ▸ hne)

theorem IsValid_toNat {p : Position} (hv : p.IsValid = true) :
    Position.IsValid ⟨p.row.toNat, p.col.toNat⟩ = true := by
  have h := IsValid_iff.mp hv
  rw [IsValid_iff]
  simp only [Int.toNat_of_nonneg h.1, Int.toNat_of_nonneg h.2.1]
  exact h

theorem SlotsValid_setImpl {s : Sheet E} (p : Position) (hv : p.IsValid = true) (i : Impl E)
    (h : SlotsValid s) : SlotsValid (setImpl s p i) := by
  intro r c cell hc hne
  simp only [setImpl, modifyCell, slotAt_modifyGrid] at hc
  split at hc
  · rename_i hrc
    rw [hrc.1, hrc.2]
    exact IsValid_toNat hv
  · exact h r c cell hc hne

theorem SlotsValid_SetCell {fuel : Nat} {s s1 : Sheet E} {pos : Position} {text : String}
    (h : (SetCell fuel s pos text).sheet = some s1) (ho : SlotsValid s) : SlotsValid s1 := by
  by_cases hv : pos.IsValid = true
  · obtain ⟨c, hc, hset⟩ := SetCell_eq_CellSet fuel s pos text hv
    obtain ⟨hg, _⟩ := prepare_spec s pos hv
    have ho1 : SlotsValid (prepare s pos) := SlotsValid_of_Grows hg ho
    rw [hset] at h
    rcases CellSet_sheet h with h1 | ⟨_, i, _, h1⟩ | ⟨temp, vis, _, _, _, h1⟩
    · exact SlotsValid_of_SameShape h1 ho1
    · exact SlotsValid_of_SameShape h1 (SlotsValid_setImpl pos hv i ho1)
    · exact SlotsValid_of_SameShape h1 (SlotsValid_setImpl pos hv _ ho1)
  · unfold SetCell at h
    rw [if_neg hv] at h
    cases h
    exact ho

theorem SlotsValid_ClearCell {s s1 : Sheet E} {pos : Position}
    (h : (ClearCell s pos).sheet = some s1) (ho : SlotsValid s) : SlotsValid s1 := by
  rcases ClearCell_sheet h with h1 | ⟨hv, h1⟩
  · rw [h1]
    exact ho
  · subst h1
    intro r c cell hc hne
    simp only [slotAt_setSlot] at hc
    split at hc
    · cases hc
    · exact ho r c cell hc hne

theorem Reachable_slotsValid {s : Sheet E} (h : Reachable s) : SlotsValid s := by
  induction h with
  | empty =>
    intro r c cell hc
    simp [emptySheet, slotAt] at hc
  | setCell fuel s s1 pos text _ hs ih => exact SlotsValid_SetCell hs ih
  | clearCell s s1 pos _ hs ih => exact SlotsValid_ClearCell hs ih

theorem hasText_valid {s : Sheet E} (hs : SlotsValid s) {r c : Nat}
    (h : hasText s r c = true) : Position.IsValid ⟨r, c⟩ = true := by
  obtain ⟨cell, hc, hne⟩ := hasText_iff.mp h
  refine hs r c cell hc ?_
  intro hi
  apply hne
  simp only [Cell.GetText, hi]
  rfl

/-- The printable size of a sheet whose cells with contents are at valid
positions is within the bounds of valid positions. -/
theorem GetPrintableSize_le {s : Sheet E} (hs : SlotsValid s) :
    (GetPrintableSize s).rows ≤ MAX_ROWS ∧ (GetPrintableSize s).cols ≤ MAX_COLS := by
  obtain ⟨_, _, t1, t2⟩ := scanRows_spec s s.sheet_.length ⟨0, 0⟩
  unfold GetPrintableSize
  constructor
  · rcases t1 with h | ⟨r, c, hT, h⟩
    · rw [h]
      show (0 : Int) ≤ MAX_ROWS
      unfold MAX_ROWS
      omega
    · have := (IsValid_iff.mp (hasText_valid hs hT)).2.2.1
      rw [h]
      simp only at this
      omega
  · rcases t2 with h | ⟨r, c, hT, h⟩
    · rw [h]
      show (0 : Int) ≤ MAX_COLS
      unfold MAX_COLS
      omega
    · have := (IsValid_iff.mp (hasText_valid hs hT)).2.2.2
      rw [h]
      simp only at this
      omega

theorem IsValid_nat {r c : Nat} (hr : (r : Int) < MAX_ROWS) (hc : (c : Int) < MAX_COLS) :
    Position.IsValid ⟨r, c⟩ = true := by
  rw [IsValid_iff]
  exact ⟨Int.ofNat_nonneg r, Int.ofNat_nonneg c, hr, hc⟩

/-! ## The field of a cell in the output of `PrintValues` -/

theorem valueTextAt_none {s : Sheet E} (fuel : Nat) (render : E.Num → String) {q : Position}
    (h : cellAt s q = none) : valueTextAt fuel render s q = "" := by
  unfold valueTextAt GetValue
  rw [h]
  rfl

theorem valueTextAt_some {s : Sheet E} {fuel : Nat} (render : E.Num → String) {q : Position}
    {c0 : Cell E} (h : cellAt s q = some c0) {v : Value E.Num} {s2 : Sheet E}
    (hret : CellGetValue fuel q c0 s = Res.ret v s2) :
    valueTextAt fuel render s q = writeValue render v := by
  unfold valueTextAt GetValue
  rw [h]
  simp only [Option.map_some', hret]

theorem valueText_none {s : Sheet E} (fuel : Nat) (render : E.Num → String) {r c : Nat}
    (hv : Position.IsValid ⟨r, c⟩ = true) (h : slotAt s.sheet_ r c = none) :
    valueText fuel render s r c = "" :=
  valueTextAt_none fuel render (by rw [cellAt_nat s r c hv]; exact h)

theorem valueText_some {s : Sheet E} {fuel : Nat} (render : E.Num → String) {r c : Nat}
    (hv : Position.IsValid ⟨r, c⟩ = true) {c0 : Cell E} (h : slotAt s.sheet_ r c = some c0)
    {v : Value E.Num} {s2 : Sheet E} (hret : CellGetValue fuel ⟨r, c⟩ c0 s = Res.ret v s2) :
    valueText fuel render s r c = writeValue render v :=
  valueTextAt_some render (by rw [cellAt_nat s r c hv]; exact h) hret

/-! ## The print loops: output inside the stored rows, undefined outside -/

theorem elemAt_of_lt {g : List (List (Option (Cell E)))} {r c : Nat} (h : c < rowLen g r) :
    elemAt g r c = some (slotAt g r c) := by
  unfold elemAt slotAt
  unfold rowLen at h
  cases hr : g[r]? with
  | none => rw [hr] at h; simp at h
  | some row =>
    rw [hr] at h
    simp only [Option.getD_some] at h
    simp only
    rw [List.getElem?_eq_getElem h]

theorem elemAt_of_le {g : List (List (Option (Cell E)))} {r c : Nat} (h : rowLen g r ≤ c) :
    elemAt g r c = none := by
  unfold elemAt
  unfold rowLen at h
  cases hr : g[r]? with
  | none => rfl
  | some row =>
    rw [hr] at h
    simp only [Option.getD_some] at h
    simp only
    exact List.getElem?_eq_none h

theorem printTextsCols_eq (s : Sheet E) (r : Nat) : ∀ (n c : Nat) (output : String),
    c + n ≤ rowLen s.sheet_ r →
    printTextsCols s r n c output =
      Printed.text (appendFields c output ((List.range' c n).map (slotText s r))) := by
  intro n
  induction n with
  | zero => intro c output _; rfl
  | succ n ih =>
    intro c output hc
    have hlt : c < rowLen s.sheet_ r := by omega
    simp only [printTextsCols, elemAt_of_lt hlt, if_pos hlt, List.range'_succ, List.map_cons,
      appendFields]
    unfold slotText
    cases slotAt s.sheet_ r c with
    | some cell =>
      simp only
      exact ih (c + 1) _ (by omega)
    | none =>
      simp only [String.append_empty]
      exact ih (c + 1) _ (by omega)

theorem printTextsCols_short (s : Sheet E) (r : Nat) : ∀ (n c : Nat) (output : String),
    c ≤ rowLen s.sheet_ r → rowLen s.sheet_ r < c + n →
    printTextsCols s r n c output = Printed.outOfRange r (rowLen s.sheet_ r) := by
  intro n
  induction n with
  | zero => intro c output h1 h2; omega
  | succ n ih =>
    intro c output h1 h2
    by_cases hlt : c < rowLen s.sheet_ r
    · simp only [printTextsCols, elemAt_of_lt hlt, if_pos hlt]
      cases slotAt s.sheet_ r c with
      | some cell =>
        simp only
        exact ih (c + 1) _ (by omega) (by omega)
      | none =>
        simp only
        exact ih (c + 1) _ (by omega) (by omega)
    · have he : c = rowLen s.sheet_ r := by omega
      simp only [printTextsCols, elemAt_of_le (Nat.le_of_not_lt hlt)]
      rw [← he]

theorem printTextsRows_eq (s : Sheet E) (cols : Nat) : ∀ (n r : Nat) (output : String),
    (∀ r1, r ≤ r1 → r1 < r + n → cols ≤ rowLen s.sheet_ r1) →
    printTextsRows s cols n r output =
      Printed.text (output ++ gridText ((List.range' r n).map
        (fun r => (List.range cols).map (slotText s r)))) := by
  intro n
  induction n with
  | zero =>
    intro r output _
    simp [printTextsRows, gridText, String.join, String.append_empty]
  | succ n ih =>
    intro r output hcov
    simp only [printTextsRows, List.range'_succ, List.map_cons, gridText]
    rw [printTextsCols_eq s r cols 0 output (by
      rw [Nat.zero_add]
      exact hcov r (Nat.le_refl r) (by omega))]
    simp only
    rw [ih (r + 1) _ (fun r1 h1 h2 => hcov r1 (by omega) (by omega)),
      ← List.range_eq_range', appendFields_row, join_cons, String.append_assoc]
    rfl

theorem printTextsRows_short (s : Sheet E) (cols : Nat) : ∀ (n r : Nat) (output : String)
    (r0 : Nat), r ≤ r0 → r0 < r + n →
    (∀ r1, r ≤ r1 → r1 < r0 → cols ≤ rowLen s.sheet_ r1) → rowLen s.sheet_ r0 < cols →
    printTextsRows s cols n r output = Printed.outOfRange r0 (rowLen s.sheet_ r0) := by
  intro n
  induction n with
  | zero => intro r output r0 h1 h2; omega
  | succ n ih =>
    intro r output r0 h1 h2 hcov hshort
    simp only [printTextsRows]
    by_cases hr : r = r0
    · subst hr
      rw [printTextsCols_short s r cols 0 output (Nat.zero_le _) (by
        rw [Nat.zero_add]
        exact hshort)]
    · rw [printTextsCols_eq s r cols 0 output (by
        rw [Nat.zero_add]
        exact hcov r (Nat.le_refl r) (by omega))]
      simp only
      exact ih (r + 1) _ r0 (by omega) (by omega)
        (fun r1 h3 h4 => hcov r1 (by omega) h4) hshort

/-- On a sheet whose rows inside the printable size have a slot for every
printable column, `PrintTexts` returns the grid of the texts of the slots. -/
theorem PrintTexts_eq (s : Sheet E) (hcov : RowsCover s) :
    PrintTexts s = Printed.text (gridText ((List.range (GetPrintableSize s).rows.toNat).map
      (fun r => (List.range (GetPrintableSize s).cols.toNat).map (slotText s r)))) := by
  unfold PrintTexts
  rw [printTextsRows_eq s _ _ 0 "" (fun r1 _ h2 => hcov r1 (by omega)), String.empty_append,
    ← List.range_eq_range']

/-- At the first row inside the printable size that is shorter than the
printable columns, `PrintTexts` makes an element access at the end of that row
and is undefined. -/
theorem PrintTexts_short (s : Sheet E) (r0 : Nat) (hr0 : r0 < (GetPrintableSize s).rows.toNat)
    (hcov : ∀ r1, r1 < r0 → (GetPrintableSize s).cols.toNat ≤ rowLen s.sheet_ r1)
    (hshort : rowLen s.sheet_ r0 < (GetPrintableSize s).cols.toNat) :
    PrintTexts s = Printed.outOfRange r0 (rowLen s.sheet_ r0) := by
  unfold PrintTexts
  exact printTextsRows_short s _ _ 0 "" r0 (Nat.zero_le _) (by omega)
    (fun r1 _ h2 => hcov r1 h2) hshort

/-! ## The text written by `PrintValues`, field by field -/

theorem printValuesCols_exact {s : Sheet E} {fuel : Nat} (render : E.Num → String)
    (hF : ∀ s1, SameCells s s1 → ∀ r c c1, slotAt s1.sheet_ r c = some c1 → ∀ pos,
      ∃ v s2, CellGetValue fuel pos c1 s1 = Res.ret v s2 ∧ SameCells s s2)
    (hmain : ∀ (q : Position) (fuel : Nat) (t : Sheet E) (ct : Cell E) (v : Value E.Num)
      (t2 : Sheet E), Coh s t → cellAt t q = some ct → CellGetValue fuel q ct t = Res.ret v t2 →
      Val s q v ∧ Coh s t2)
    (r : Nat) (hr : (r : Int) < MAX_ROWS) :
    ∀ (n c : Nat) (t : Sheet E) (output : String), Coh s t → ((c + n : Nat) : Int) ≤ MAX_COLS →
      c + n ≤ rowLen s.sheet_ r →
      ∃ t2, printValuesCols fuel render r n c t output =
          PrintRes.ret
            (appendFields c output ((List.range' c n).map (valueText fuel render s r))) t2 ∧
        Coh s t2 := by
  intro n
  induction n with
  | zero =>
    intro c t output ht _ _
    exact ⟨t, rfl, ht⟩
  | succ n ih =>
    intro c t output ht hcn hlen
    have hc : (c : Int) < MAX_COLS := by
      have : ((c + (n + 1) : Nat) : Int) = (c : Int) + (n : Int) + 1 := by push_cast; ring
      rw [this] at hcn
      have := Int.ofNat_nonneg n
      omega
    have hcn1 : ((c + 1 + n : Nat) : Int) ≤ MAX_COLS := by
      have : c + 1 + n = c + (n + 1) := by omega
      rw [this]
      exact hcn
    have hval := IsValid_nat hr hc
    have hlt : c < rowLen t.sheet_ r := by
      rw [ht.1.2.2.1 r]
      omega
    simp only [printValuesCols, elemAt_of_lt hlt, if_pos hlt]
    cases hslot : slotAt t.sheet_ r c with
    | none =>
      simp only
      obtain ⟨t2, h1, h2⟩ := ih (c + 1) t (if 0 < c then output ++ "\t" else output) ht hcn1
        (by omega)
      refine ⟨t2, ?_, h2⟩
      rw [h1, List.range'_succ, List.map_cons,
        valueText_none fuel render hval (SameCells_slotAt_none ht.1 hslot)]
      simp only [appendFields, String.append_empty]
    | some ct =>
      obtain ⟨v, t2, hv, _⟩ := hF t ht.1 r c ct hslot ⟨r, c⟩
      have hct : cellAt t ⟨r, c⟩ = some ct := by rw [cellAt_nat t r c hval, hslot]
      obtain ⟨hv2, hcoh2⟩ := hmain ⟨r, c⟩ fuel t ct v t2 ht hct hv
      simp only [hv]
      obtain ⟨t3, h1, h2⟩ := ih (c + 1) t2
        ((if 0 < c then output ++ "\t" else output) ++ writeValue render v) hcoh2 hcn1 (by omega)
      refine ⟨t3, ?_, h2⟩
      obtain ⟨c0, h0, _⟩ := SameCells_slotAt ht.1 hslot
      obtain ⟨v0, s0, hv0, _⟩ := hF s (SameCells_refl s) r c c0 h0 ⟨r, c⟩
      have hc0 : cellAt s ⟨r, c⟩ = some c0 := by rw [cellAt_nat s r c hval, h0]
      have hvv : v0 = v := Val_det ⟨fuel, c0, s0, hc0, hv0⟩ hv2
      rw [h1, List.range'_succ, List.map_cons, valueText_some render hval h0 hv0, hvv]
      simp only [appendFields]

theorem printValuesCols_short {s : Sheet E} {fuel : Nat} (render : E.Num → String)
    (hF : ∀ s1, SameCells s s1 → ∀ r c c1, slotAt s1.sheet_ r c = some c1 → ∀ pos,
      ∃ v s2, CellGetValue fuel pos c1 s1 = Res.ret v s2 ∧ SameCells s s2)
    (r : Nat) :
    ∀ (n c : Nat) (t : Sheet E) (output : String), SameCells s t →
      c ≤ rowLen s.sheet_ r → rowLen s.sheet_ r < c + n →
      printValuesCols fuel render r n c t output =
        PrintRes.outOfRange r (rowLen s.sheet_ r) := by
  intro n
  induction n with
  | zero => intro c t output _ h1 h2; omega
  | succ n ih =>
    intro c t output ht h1 h2
    have hrow : rowLen t.sheet_ r = rowLen s.sheet_ r := ht.2.2.1 r
    by_cases hlt : c < rowLen s.sheet_ r
    · have hlt1 : c < rowLen t.sheet_ r := by rw [hrow]; exact hlt
      simp only [printValuesCols, elemAt_of_lt hlt1, if_pos hlt1]
      cases hslot : slotAt t.sheet_ r c with
      | none =>
        simp only
        exact ih (c + 1) t _ ht (by omega) (by omega)
      | some ct =>
        obtain ⟨v, t2, hv, ht2⟩ := hF t ht r c ct hslot ⟨r, c⟩
        simp only [hv]
        exact ih (c + 1) t2 _ ht2 (by omega) (by omega)
    · have he : c = rowLen s.sheet_ r := by omega
      have hle : rowLen t.sheet_ r ≤ c := by rw [hrow]; omega
      simp only [printValuesCols, elemAt_of_le hle]
      rw [← he]

theorem printValuesRows_exact {s : Sheet E} {fuel : Nat} (render : E.Num → String)
    (hF : ∀ s1, SameCells s s1 → ∀ r c c1, slotAt s1.sheet_ r c = some c1 → ∀ pos,
      ∃ v s2, CellGetValue fuel pos c1 s1 = Res.ret v s2 ∧ SameCells s s2)
    (hmain : ∀ (q : Position) (fuel : Nat) (t : Sheet E) (ct : Cell E) (v : Value E.Num)
      (t2 : Sheet E), Coh s t → cellAt t q = some ct → CellGetValue fuel q ct t = Res.ret v t2 →
      Val s q v ∧ Coh s t2)
    (cols : Nat) (hcols : (cols : Int) ≤ MAX_COLS) :
    ∀ (n r : Nat) (t : Sheet E) (output : String), Coh s t → ((r + n : Nat) : Int) ≤ MAX_ROWS →
      (∀ r1, r ≤ r1 → r1 < r + n → cols ≤ rowLen s.sheet_ r1) →
      ∃ t2, printValuesRows fuel render cols n r t output =
          PrintRes.ret (output ++ gridText ((List.range' r n).map
            (fun r => (List.range cols).map (valueText fuel render s r)))) t2 ∧
        Coh s t2 := by
  intro n
  induction n with
  | zero =>
    intro r t output ht _ _
    refine ⟨t, ?_, ht⟩
    simp [printValuesRows, gridText, String.join, String.append_empty]
  | succ n ih =>
    intro r t output ht hrn hcov
    have hr : (r : Int) < MAX_ROWS := by
      have : ((r + (n + 1) : Nat) : Int) = (r : Int) + (n : Int) + 1 := by push_cast; ring
      rw [this] at hrn
      have := Int.ofNat_nonneg n
      omega
    have hrn1 : ((r + 1 + n : Nat) : Int) ≤ MAX_ROWS := by
      have : r + 1 + n = r + (n + 1) := by omega
      rw [this]
      exact hrn
    obtain ⟨t2, h1, h2⟩ := printValuesCols_exact render hF hmain r hr cols 0 t output ht
      (by rw [Nat.zero_add]; exact hcols)
      (by rw [Nat.zero_add]; exact hcov r (Nat.le_refl r) (by omega))
    simp only [printValuesRows, h1]
    obtain ⟨t3, h3, h4⟩ := ih (r + 1) t2 _ h2 hrn1 (fun r1 h5 h6 => hcov r1 (by omega) (by omega))
    refine ⟨t3, ?_, h4⟩
    rw [h3, ← List.range_eq_range', appendFields_row, String.append_assoc, List.range'_succ]
    simp only [gridText, List.map_cons, join_cons]

theorem printValuesRows_short {s : Sheet E} {fuel : Nat} (render : E.Num → String)
    (hF : ∀ s1, SameCells s s1 → ∀ r c c1, slotAt s1.sheet_ r c = some c1 → ∀ pos,
      ∃ v s2, CellGetValue fuel pos c1 s1 = Res.ret v s2 ∧ SameCells s s2)
    (hmain : ∀ (q : Position) (fuel : Nat) (t : Sheet E) (ct : Cell E) (v : Value E.Num)
      (t2 : Sheet E), Coh s t → cellAt t q = some ct → CellGetValue fuel q ct t = Res.ret v t2 →
      Val s q v ∧ Coh s t2)
    (cols : Nat) (hcols : (cols : Int) ≤ MAX_COLS) :
    ∀ (n r : Nat) (t : Sheet E) (output : String) (r0 : Nat), Coh s t →
      ((r + n : Nat) : Int) ≤ MAX_ROWS → r ≤ r0 → r0 < r + n →
      (∀ r1, r ≤ r1 → r1 < r0 → cols ≤ rowLen s.sheet_ r1) → rowLen s.sheet_ r0 < cols →
      printValuesRows fuel render cols n r t output =
        PrintRes.outOfRange r0 (rowLen s.sheet_ r0) := by
  intro n
  induction n with
  | zero => intro r t output r0 _ _ h1 h2; omega
  | succ n ih =>
    intro r t output r0 ht hrn h1 h2 hcov hshort
    have hr : (r : Int) < MAX_ROWS := by
      have : ((r + (n + 1) : Nat) : Int) = (r : Int) + (n : Int) + 1 := by push_cast; ring
      rw [this] at hrn
      have := Int.ofNat_nonneg n
      omega
    have hrn1 : ((r + 1 + n : Nat) : Int) ≤ MAX_ROWS := by
      have : r + 1 + n = r + (n + 1) := by omega
      rw [this]
      exact hrn
    simp only [printValuesRows]
    by_cases hrr : r = r0
    · subst hrr
      rw [printValuesCols_short render hF r cols 0 t output ht.1 (Nat.zero_le _) (by
        rw [Nat.zero_add]
        exact hshort)]
    · obtain ⟨t2, h3, h4⟩ := printValuesCols_exact render hF hmain r hr cols 0 t output ht
        (by rw [Nat.zero_add]; exact hcols)
        (by rw [Nat.zero_add]; exact hcov r (Nat.le_refl r) (by omega))
      simp only [h3]
      exact ih (r + 1) t2 _ r0 h4 hrn1 (by omega) (by omega)
        (fun r1 h5 h6 => hcov r1 (by omega) h6) hshort

/-! ## The printed grid on a reachable sheet -/

theorem grid_valid {s : Sheet E} (hs : SlotsValid s) {r c : Nat}
    (hr : r < (GetPrintableSize s).rows.toNat) (hc : c < (GetPrintableSize s).cols.toNat) :
    Position.IsValid ⟨r, c⟩ = true := by
  obtain ⟨h1, h2⟩ := GetPrintableSize_le hs
  refine IsValid_nat ?_ ?_
  · omega
  · omega

/-- On a sheet reached from the empty sheet whose rows inside the printable size
(R, C) have a slot for every printable column, PrintTexts returns the grid of R
rows of C tab-separated fields, each row ended by a newline, with field (r, c)
the text at (r, c); and with a formula engine whose Execute calls the lookup
only on the cells listed by GetCells, GetValue returns for every cell of the
grid and PrintValues returns the grid of the rendered values, for every budget
from some bound on. -/
theorem print_grid_on_covered_rows (s : Sheet E) (hr : Reachable s) (hE : EngineWF E)
    (render : E.Num → String) (hcov : RowsCover s) :
    PrintTexts s = Printed.text (gridText ((List.range (GetPrintableSize s).rows.toNat).map
      (fun (r : Nat) => (List.range (GetPrintableSize s).cols.toNat).map
        (fun (c : Nat) => textAt s ⟨r, c⟩)))) ∧
    ∃ N, ∀ fuel, N ≤ fuel →
      (∀ r c : Nat, r < (GetPrintableSize s).rows.toNat → c < (GetPrintableSize s).cols.toNat →
        ∀ cell, cellAt s ⟨r, c⟩ = some cell →
          ∃ v s2, GetValue fuel s ⟨r, c⟩ = some (Res.ret v s2)) ∧
      ∃ s1, PrintValues fuel render s =
        PrintRes.ret (gridText ((List.range (GetPrintableSize s).rows.toNat).map
          (fun r => (List.range (GetPrintableSize s).cols.toNat).map
            (valueText fuel render s r)))) s1 := by
  have hsv := Reachable_slotsValid hr
  obtain ⟨hb1, hb2⟩ := GetPrintableSize_le hsv
  have hm1 : (0 : Int) ≤ MAX_ROWS := by unfold MAX_ROWS; omega
  have hm2 : (0 : Int) ≤ MAX_COLS := by unfold MAX_COLS; omega
  refine ⟨?_, ?_⟩
  · rw [PrintTexts_eq s hcov]
    refine congrArg Printed.text (congrArg gridText ?_)
    refine List.map_congr_left ?_
    intro r hr1
    refine List.map_congr_left ?_
    intro c hc1
    exact slotText_eq_textAt s r c
      (grid_valid hsv (List.mem_range.mp hr1) (List.mem_range.mp hc1))
  · obtain ⟨N, hN⟩ := all_cells_return hE (Reachable_inv hr).2 (Reachable_formulasOK hr)
    refine ⟨N, ?_⟩
    intro fuel hf
    constructor
    · intro r c _ _ cell hcell
      obtain ⟨v, s2, h2, _⟩ := hN fuel hf s (SameCells_refl s) _ _ cell
        (cellAt_some hcell).2.2 ⟨r, c⟩
      refine ⟨v, s2, ?_⟩
      unfold GetValue
      rw [hcell]
      simp only [Option.map_some', h2]
    · obtain ⟨s1, h1, _⟩ := printValuesRows_exact render (hN fuel hf)
        (CellGetValue_coherent hE (Reachable_inv hr).2 (Reachable_formulasOK hr) (hN fuel hf))
        (GetPrintableSize s).cols.toNat (by omega) (GetPrintableSize s).rows.toNat 0 s ""
        (Coh_refl s) (by
          rw [Nat.zero_add]
          omega) (fun r1 _ h2 => hcov r1 (by omega))
      refine ⟨s1, ?_⟩
      unfold PrintValues
      rw [h1, String.empty_append, ← List.range_eq_range']

/-- On a sheet reached from the empty sheet, at the first row inside the
printable size that is shorter than the printable columns, PrintTexts and (with
a well-formed engine and enough budget) PrintValues make an element access at
the end of that row and are undefined. -/
theorem print_undefined_on_short_row (s : Sheet E) (hr : Reachable s) (hE : EngineWF E)
    (render : E.Num → String) (r0 : Nat) (hr0 : r0 < (GetPrintableSize s).rows.toNat)
    (hcov : ∀ r1, r1 < r0 → (GetPrintableSize s).cols.toNat ≤ rowLen s.sheet_ r1)
    (hshort : rowLen s.sheet_ r0 < (GetPrintableSize s).cols.toNat) :
    PrintTexts s = Printed.outOfRange r0 (rowLen s.sheet_ r0) ∧
    ∃ N, ∀ fuel, N ≤ fuel →
      PrintValues fuel render s = PrintRes.outOfRange r0 (rowLen s.sheet_ r0) := by
  have hsv := Reachable_slotsValid hr
  obtain ⟨hb1, hb2⟩ := GetPrintableSize_le hsv
  have hm1 : (0 : Int) ≤ MAX_ROWS := by unfold MAX_ROWS; omega
  have hm2 : (0 : Int) ≤ MAX_COLS := by unfold MAX_COLS; omega
  refine ⟨PrintTexts_short s r0 hr0 hcov hshort, ?_⟩
  obtain ⟨N, hN⟩ := all_cells_return hE (Reachable_inv hr).2 (Reachable_formulasOK hr)
  refine ⟨N, ?_⟩
  intro fuel hf
  unfold PrintValues
  exact printValuesRows_short render (hN fuel hf)
    (CellGetValue_coherent hE (Reachable_inv hr).2 (Reachable_formulasOK hr) (hN fuel hf))
    (GetPrintableSize s).cols.toNat (by omega) (GetPrintableSize s).rows.toNat 0 s "" r0
    (Coh_refl s) (by
      rw [Nat.zero_add]
      omega) (Nat.zero_le _) (by omega) (fun r1 _ h2 => hcov r1 h2) hshort

/-- The grid is printed for the sheet holding "abc" in A1, "=A1+1" in A2 and "7"
in B1, whose two rows have two slots each. -/
theorem print_grid_example :
    PrintTexts (sheetAfter 5 [(A1, some "abc"), (A2, some "=A1+1"), (B1, some "7")] : Sheet demo) =
      Printed.text "abc\t7\n=A1+1\t\n" ∧
    (PrintValues 5 demoRender
      (sheetAfter 5 [(A1, some "abc"), (A2, some "=A1+1"), (B1, some "7")] : Sheet demo)).value =
      some "abc\t7\n#DIV/0!\t\n" ∧
    ∃ N, ∀ fuel, N ≤ fuel → ∃ s1, PrintValues fuel demoRender
        (sheetAfter 5 [(A1, some "abc"), (A2, some "=A1+1"), (B1, some "7")] : Sheet demo) =
      PrintRes.ret (gridText ((List.range (GetPrintableSize
          (sheetAfter 5 [(A1, some "abc"), (A2, some "=A1+1"), (B1, some "7")] :
            Sheet demo)).rows.toNat).map
        (fun r => (List.range (GetPrintableSize
            (sheetAfter 5 [(A1, some "abc"), (A2, some "=A1+1"), (B1, some "7")] :
              Sheet demo)).cols.toNat).map
          (valueText fuel demoRender
            (sheetAfter 5 [(A1, some "abc"), (A2, some "=A1+1"), (B1, some "7")] : Sheet demo)
            r)))) s1 := by
  refine ⟨by decide, by decide, ?_⟩
  obtain ⟨N, hN⟩ := (print_grid_on_covered_rows
    (sheetAfter 5 [(A1, some "abc"), (A2, some "=A1+1"), (B1, some "7")] : Sheet demo)
    (Reachable_sheetAfter 5 _) EngineWF_demo demoRender (by
      intro r hr
      have h2 : (GetPrintableSize (sheetAfter 5 [(A1, some "abc"), (A2, some "=A1+1"),
          (B1, some "7")] : Sheet demo)) = ⟨2, 2⟩ := by decide
      rw [h2] at hr ⊢
      have hr2 : r < 2 := hr
      interval_cases r <;> decide)).2
  exact ⟨N, fun fuel hf => (hN fuel hf).2⟩

/-! ## C15 -/

/-- C15 (failing input): after SetCell((0,0),"a"), SetCell((0,3),"b") and
SetCell((1,0),"c") the printable size is 2 rows by 4 columns and the grid the
claim describes is "a", "", "", "b" in the first row and "c", "", "", "" in the
second.  PrintTexts and PrintValues do not write it: in row 1, which has 3
slots, both make the element access `sheet_[1][3]` and are undefined from there
on, so neither returns a text.  On a sheet whose rows have a slot for every
printable column (here "abc" in A1 and "7" in B1) PrintTexts writes the grid. -/
theorem C15_print_undefined_on_ragged_rows :
    GetPrintableSize
      (sheetAfter 5 [(⟨0, 0⟩, some "a"), (⟨0, 3⟩, some "b"), (⟨1, 0⟩, some "c")] : Sheet demo) =
      ⟨2, 4⟩ ∧
    gridText ((List.range 2).map (fun (r : Nat) => (List.range 4).map (fun (c : Nat) =>
      textAt (sheetAfter 5 [(⟨0, 0⟩, some "a"), (⟨0, 3⟩, some "b"), (⟨1, 0⟩, some "c")] :
        Sheet demo) ⟨r, c⟩))) = "a\t\t\tb\nc\t\t\t\n" ∧
    PrintTexts
      (sheetAfter 5 [(⟨0, 0⟩, some "a"), (⟨0, 3⟩, some "b"), (⟨1, 0⟩, some "c")] : Sheet demo) ≠
      Printed.text "a\t\t\tb\nc\t\t\t\n" ∧
    (∀ output, PrintTexts
      (sheetAfter 5 [(⟨0, 0⟩, some "a"), (⟨0, 3⟩, some "b"), (⟨1, 0⟩, some "c")] : Sheet demo) ≠
      Printed.text output) ∧
    (PrintValues 5 demoRender
      (sheetAfter 5 [(⟨0, 0⟩, some "a"), (⟨0, 3⟩, some "b"), (⟨1, 0⟩, some "c")] :
        Sheet demo)).undefinedAt = some (1, 3) ∧
    (PrintValues 5 demoRender
      (sheetAfter 5 [(⟨0, 0⟩, some "a"), (⟨0, 3⟩, some "b"), (⟨1, 0⟩, some "c")] :
        Sheet demo)).value = none ∧
    PrintTexts (sheetAfter 5 [(A1, some "abc"), (B1, some "7")] : Sheet demo) =
      Printed.text "abc\t7\n" := by
  have h : PrintTexts
      (sheetAfter 5 [(⟨0, 0⟩, some "a"), (⟨0, 3⟩, some "b"), (⟨1, 0⟩, some "c")] : Sheet demo) =
      Printed.outOfRange 1 3 := by decide
  refine ⟨by decide, by decide, ?_, ?_, by decide, by decide, by decide⟩
  · rw [h]
    exact fun h1 => Printed.noConfusion h1
  · intro output
    rw [h]
    exact fun h1 => Printed.noConfusion h1

end Spreadsheet
